import Mathlib

/-!
# unibilium: locating a terminfo entry (`uniutil.c`)

A shallow embedding of `uniutil.c`.  C strings are lists of byte values (the
bytes before the terminating NUL), `errno` and a ghost trace of the calls made
are threaded through every function as an explicit state, and the operating
system (environment, allocator, files) together with the build-time constants
is a parameter `World`.

Conventions of the model:
* `size_t` has `World.size_bits` bits; sums of sizes wrap modulo `2 ^ size_bits`;
* a failing `malloc` sets `errno` to `ENOMEM`, `close` succeeds, and every failing
  `open`, `read` or `unibi_from_mem` sets `errno`;
* the files do not change during a search: `open` of a path and the decoder are
  functions of their arguments;
* the buffer `path` of `from_dir` is a list of bytes that starts with arbitrary
  contents (`World.junk`) and is written by `memcpy` and `sprintf` at offsets.
-/

namespace Unibilium

/-! ## Data model -/

/-- A C string: the byte values (0..255) that precede its terminating NUL. -/
abbrev CStr := List Nat

/-- The bytes of an ASCII literal. -/
def cstr (s : String) : CStr := s.toList.map Char.toNat

/-- The decoded record `unibi_term`; the decoder is external, so a record is an abstract handle. -/
structure unibi_term where
  id : Nat
  deriving DecidableEq, Repr

/-- Values of `<errno.h>` (Linux numbering); only their distinctness is used. -/
abbrev EPERM : Nat := 1
abbrev ENOENT : Nat := 2
abbrev ENOMEM : Nat := 12
abbrev EACCES : Nat := 13
abbrev EINVAL : Nat := 22

/-- The capacity `enum {MAX_BUF = 4096}`. -/
abbrev MAX_BUF : Nat := 4096

/-- How an open descriptor answers the next `read` call: with the bytes it has
ready (a short read when fewer than requested, end-of-data when there are
none), or with an error that sets `errno`. -/
inductive ReadStep where
  | chunk (bytes : List Nat)
  | fail (errno : Nat)
  deriving DecidableEq, Repr

/-- An open file descriptor: the answers its future `read` calls will get; the
empty script is end-of-data. -/
abbrev Fd := List ReadStep

/-- Ghost events: the calls whose order and number the specification talks about. -/
inductive Event where
  | getenv (name : CStr)
  | from_dir (dir : CStr) (mid : Option CStr) (term : CStr)
  | malloc (size : Nat)
  | sys_open (file : CStr)
  | read (count : Nat)
  | close
  | unibi_from_mem (bytes : List Nat)
  | fread (count : Nat)
  deriving DecidableEq, Repr

/-- The mutable state: the global `errno` and the ghost trace (oldest event first). -/
structure State where
  errno : Nat
  trace : List Event
  deriving DecidableEq, Repr

/-- Everything outside `uniutil.c`: the platform, the build-time macros and the
operating system. -/
structure World where
  /-- Width of `size_t` in bits. -/
  size_bits : Nat
  /-- The macro `TERMINFO`, the compiled-in fallback directory. -/
  unibi_terminfo : CStr
  /-- The macro `TERMINFO_DIRS`, the compiled-in fallback directory list. -/
  unibi_terminfo_dirs : CStr
  /-- The environment read by `getenv`. -/
  getenv : CStr → Option CStr
  /-- Whether `malloc` of the given size succeeds (on failure it sets `ENOMEM`). -/
  malloc : Nat → Bool
  /-- Contents of freshly allocated (uninitialised) memory, by offset. -/
  junk : Nat → Nat
  /-- The system call `open(file, O_RDONLY)`: a descriptor or the `errno` it sets. -/
  sys_open : CStr → Except Nat Fd
  /-- The decoder `unibi_from_mem(buf, n)` of `unibilium.c`: a record or the `errno` it sets. -/
  unibi_from_mem : List Nat → Except Nat unibi_term

/-- Append a ghost event to the trace. -/
def State.emit (s : State) (e : Event) : State :=
  { s with trace := s.trace ++ [e] }

/-- Assignment to `errno`. -/
def State.set_errno (s : State) (e : Nat) : State :=
  { s with errno := e }

/-- The Path Builder attempts of a trace: directory span and middle segment of each `from_dir` call. -/
def attempts : List Event → List (CStr × Option CStr)
  | [] => []
  | Event.from_dir d m _ :: es => (d, m) :: attempts es
  | _ :: es => attempts es

/-- The paths handed to `open`, in order. -/
def opens : List Event → List CStr
  | [] => []
  | Event.sys_open p :: es => p :: opens es
  | _ :: es => opens es

/-- The names looked up with `getenv`, in order. -/
def getenvs : List Event → List CStr
  | [] => []
  | Event.getenv n :: es => n :: getenvs es
  | _ :: es => getenvs es

/-- The sizes passed to `malloc`, in order. -/
def mallocs : List Event → List Nat
  | [] => []
  | Event.malloc n :: es => n :: mallocs es
  | _ :: es => mallocs es

/-! ## libc helpers -/

/-- The call `strlen(s)`. -/
def strlen (s : CStr) : Nat := s.length

/-- The call `strchr(s, c)` for a non-NUL `c`: offset of the first occurrence, or `none` for `NULL`. -/
def strchr : CStr → Nat → Option Nat
  | [], _ => none
  | b :: bs, c => if b = c then some 0 else (strchr bs c).map (· + 1)

/-- Store `src` into `buf` starting at offset `off` (`memcpy(buf + off, src, |src|)`). -/
def poke (buf : List Nat) (off : Nat) (src : List Nat) : List Nat :=
  buf.take off ++ src ++ buf.drop (off + src.length)

/-- The call `sprintf(buf + off, ...)` whose formatted output is `out`: the output and a NUL. -/
def sprintf (buf : List Nat) (off : Nat) (out : List Nat) : List Nat :=
  poke buf off (out ++ [0])

/-- The C string that starts at the beginning of `buf`. -/
def c_str (buf : List Nat) : CStr := buf.takeWhile (fun b => b != 0)

/-- Output of the conversion `%02x`: lowercase hexadecimal, zero-padded to width 2. -/
def fmt_02x (n : Nat) : List Nat :=
  let ds := (Nat.toDigits 16 n).map Char.toNat
  List.replicate (2 - ds.length) 48 ++ ds

/-- One `read(fd, dst, count)`: the result `r`, the bytes stored at `dst`, the
`errno` it sets if any, and the descriptor afterwards. -/
def sys_read : Fd → Nat → Int × List Nat × Option Nat × Fd
  | [], _ => (0, [], none, [])
  | ReadStep.fail e :: rest, _ => (-1, [], some e, rest)
  | ReadStep.chunk bs :: rest, count =>
    if bs.length ≤ count then ((bs.length : Int), bs, none, rest)
    else ((count : Int), bs.take count, none, ReadStep.chunk (bs.drop count) :: rest)

/-! ## `unibi_from_fd` and `unibi_from_file` -/

/-- The loop `for (n = 0; n < sizeof buf && (r = read(fd, buf + n, sizeof buf - n)) > 0; ) n += r;`
of `unibi_from_fd`.  `buf` holds the `n` bytes stored so far.  The recursion is on
`fuel`, which bounds the free room of the buffer, so the loop condition is
already false whenever the fuel is used up. -/
def unibi_from_fd_loop (fuel : Nat) (fd : Fd) (s : State) (buf : List Nat) (n : Nat) (r : Int)
    (h : MAX_BUF ≤ n + fuel) : State × List Nat × Nat × Int :=
  if hn : n < MAX_BUF then
    let res := sys_read fd (MAX_BUF - n)
    let s1 := s.emit (Event.read (MAX_BUF - n))
    let s2 := match res.2.2.1 with
      | some e => s1.set_errno e
      | none => s1
    if hr : res.1 > 0 then
      match fuel, h with
      | 0, h0 => absurd hn (by omega)
      | k + 1, h1 =>
        unibi_from_fd_loop k res.2.2.2 s2 (buf ++ res.2.1) (n + res.1.toNat) res.1 (by omega)
    else (s2, buf, n, res.1)
  else (s, buf, n, r)

/-- The function `unibi_from_fd` (lines 70-84). -/
def unibi_from_fd (W : World) (s : State) (fd : Fd) : Option unibi_term × State :=
  -- `r` is uninitialised before the loop; the first `read` always assigns it
  let l := unibi_from_fd_loop MAX_BUF fd s [] 0 0 (by omega)
  if l.2.2.2 < 0 then (none, l.1)
  else
    let s1 := l.1.emit (Event.unibi_from_mem (l.2.1.take l.2.2.1))
    match W.unibi_from_mem (l.2.1.take l.2.2.1) with
    | Except.ok ut => (some ut, s1)
    | Except.error e => (none, s1.set_errno e)

/-- The function `unibi_from_file` (lines 86-97); `close` is taken to succeed and leave `errno` alone. -/
def unibi_from_file (W : World) (s : State) (file : CStr) : Option unibi_term × State :=
  let s1 := s.emit (Event.sys_open file)
  match W.sys_open file with
  | Except.error e => (none, s1.set_errno e)
  | Except.ok fd =>
    let r := unibi_from_fd W s1 fd
    (r.1, r.2.emit Event.close)

/-! ## `add_overflowed` and `from_dir` -/

/-- The function `add_overflowed` (lines 99-102) on `size_t` of width `w`: the new
value of `*dst` and the returned flag `*dst < src`. -/
def add_overflowed (w : Nat) (dst src : Nat) : Nat × Bool :=
  let d := (dst + src) % 2 ^ w
  (d, decide (d < src))

/-- The size computation of `from_dir` (lines 113-124): `none` when one of the
four short-circuited `add_overflowed` calls reports overflow, else `path_size`. -/
def from_dir_path_size (w : Nat) (dir_len mid_len term_len : Nat) : Option Nat :=
  let a1 := add_overflowed w 0 dir_len
  if a1.2 then none
  else
    let a2 := add_overflowed w a1.1 mid_len
    if a2.2 then none
    else
      let a3 := add_overflowed w a2.1 term_len
      if a3.2 then none
      else
        let a4 := add_overflowed w a3.1 (1 + 2 + 1 + 1)
        if a4.2 then none else some a4.1

/-- The value `dir_len` of `from_dir` (line 109); `dir_end` is an offset from `dir_begin`. -/
def from_dir_dir_len (dir_begin : CStr) (dir_end : Option Nat) : Nat :=
  match dir_end with
  | some e => e
  | none => strlen dir_begin

/-- The value `mid_len` of `from_dir` (line 110). -/
def from_dir_mid_len (w : Nat) (mid : Option CStr) : Nat :=
  match mid with
  | some m => (strlen m + 1) % 2 ^ w
  | none => 0

/-- The buffer `path` after `memcpy` and the first `sprintf` (lines 129-131). -/
def from_dir_path_a (W : World) (path_size : Nat) (dir_begin : CStr) (dir_end : Option Nat)
    (mid : Option CStr) (term : CStr) : List Nat :=
  let dir_len := from_dir_dir_len dir_begin dir_end
  let path := (List.range path_size).map W.junk
  let path := poke path 0 (dir_begin.take dir_len)
  sprintf path dir_len
    ([47] ++ (match mid with | some m => m | none => [])
          ++ (match mid with | some _ => [47] | none => [])
          ++ [term.headD 0] ++ [47] ++ term)

/-- The buffer `path` after the second `sprintf` (lines 137-139). -/
def from_dir_path_b (W : World) (path_size : Nat) (dir_begin : CStr) (dir_end : Option Nat)
    (mid : Option CStr) (term : CStr) : List Nat :=
  let dir_len := from_dir_dir_len dir_begin dir_end
  let mid_len := from_dir_mid_len W.size_bits mid
  sprintf (from_dir_path_a W path_size dir_begin dir_end mid term) (dir_len + 1 + mid_len)
    (fmt_02x ((term.headD 0 % 256) &&& 0xff) ++ [47] ++ term)

/-- The function `from_dir` (lines 104-144), the Path Builder.  `dir_begin` is the
string the pointer points into and `dir_end` the offset of the end pointer. -/
def from_dir (W : World) (s : State) (dir_begin : CStr) (dir_end : Option Nat)
    (mid : Option CStr) (term : CStr) : Option unibi_term × State :=
  let dir_len := from_dir_dir_len dir_begin dir_end
  let mid_len := from_dir_mid_len W.size_bits mid
  let term_len := strlen term
  let s0 := s.emit (Event.from_dir (dir_begin.take dir_len) mid term)
  match from_dir_path_size W.size_bits dir_len mid_len term_len with
  | none => (none, s0.set_errno ENOMEM)
  | some path_size =>
    let s1 := s0.emit (Event.malloc path_size)
    if W.malloc path_size then
      let s2 := s1.set_errno 0
      let r := unibi_from_file W s2 (c_str (from_dir_path_a W path_size dir_begin dir_end mid term))
      if r.1.isNone ∧ r.2.errno = ENOENT then
        unibi_from_file W r.2 (c_str (from_dir_path_b W path_size dir_begin dir_end mid term))
      else r
    else (none, s1.set_errno ENOMEM)

/-! ## `from_dirs` -/

/-- One iteration of the loop of `from_dirs` up to the test of line 176 (lines
161-173): the new `ut`, the state and the flag `unibi_terminfo_searched`.  `a`
is the rest of the list from the cursor on. -/
def from_dirs_step (W : World) (term : CStr) (a : CStr) (s : State)
    (ut : Option unibi_term) (searched : Bool) : Option unibi_term × State × Bool :=
  if strchr a 58 ≠ some 0 ∧ a.headD 0 ≠ 0 then
    let r := from_dir W s a (strchr a 58) none term
    (r.1, r.2, searched)
  else if ¬ searched then
    let r := from_dir W s W.unibi_terminfo none none term
    (r.1, r.2, true)
  else (ut, s.set_errno 0, searched)

/-- The loop of `from_dirs` (lines 160-187).  `a` is the rest of the list from the
cursor on, `ut` the loop variable and `searched` the flag
`unibi_terminfo_searched`.  The recursion is on `fuel`, which bounds the length
of `a`; a `:` found in `a` shows that the fuel is not used up. -/
def from_dirs_loop (W : World) (term : CStr) (fuel : Nat) (a : CStr) (s : State)
    (ut : Option unibi_term) (searched : Bool) (h : a.length ≤ fuel) :
    Option unibi_term × State :=
  let step := from_dirs_step W term a s ut searched
  if step.1.isSome ∨
      (step.2.1.errno ≠ ENOENT ∧ step.2.1.errno ≠ EPERM ∧ step.2.1.errno ≠ EACCES) then
    (step.1, step.2.1)
  else
    match hz : strchr a 58 with
    | none => (none, step.2.1.set_errno ENOENT)
    | some i =>
      match fuel, h with
      | 0, h0 => absurd hz (by
          cases a with
          | nil => simp [strchr]
          | cons b bs => simp at h0)
      | k + 1, h1 =>
        from_dirs_loop W term k (a.drop (i + 1)) step.2.1 step.1 step.2.2
          (by simp only [List.length_drop]; omega)

/-- The function `from_dirs` (lines 146-188), the Directory List Walker. -/
def from_dirs (W : World) (s : State) (list : CStr) (term : CStr) : Option unibi_term × State :=
  let unibi_terminfo_searched := decide (W.unibi_terminfo.headD 0 = 0)
  if list.headD 0 = 0 then (none, s.set_errno ENOENT)
  else from_dirs_loop W term list.length list s none unibi_terminfo_searched (Nat.le_refl _)

/-! ## `unibi_from_term` and `unibi_from_env` -/

/-- Line 232 of `unibi_from_term`: the walk of the compiled-in list. -/
def unibi_from_term_fallback (W : World) (s : State) (term : CStr) : Option unibi_term × State :=
  from_dirs W s W.unibi_terminfo_dirs term

/-- Lines 220-232 of `unibi_from_term`: the `TERMINFO_DIRS` step and what follows. -/
def unibi_from_term_dirs (W : World) (s : State) (term : CStr) : Option unibi_term × State :=
  let s1 := s.emit (Event.getenv (cstr "TERMINFO_DIRS"))
  match W.getenv (cstr "TERMINFO_DIRS") with
  | some env =>
    let r := from_dirs W s1 env term
    if r.1.isSome then r
    else if r.2.errno ≠ ENOENT ∧ r.2.errno ≠ EPERM ∧ r.2.errno ≠ EACCES then (none, r.2)
    else unibi_from_term_fallback W r.2 term
  | none => unibi_from_term_fallback W s1 term

/-- Lines 208-232 of `unibi_from_term`: the `HOME` step and what follows. -/
def unibi_from_term_home (W : World) (s : State) (term : CStr) : Option unibi_term × State :=
  let s1 := s.emit (Event.getenv (cstr "HOME"))
  match W.getenv (cstr "HOME") with
  | some env =>
    let r := from_dir W s1 env none (some (cstr ".terminfo")) term
    if r.1.isSome then r
    else if r.2.errno ≠ ENOENT ∧ r.2.errno ≠ EPERM ∧ r.2.errno ≠ EACCES then (none, r.2)
    else unibi_from_term_dirs W r.2 term
  | none => unibi_from_term_dirs W s1 term

/-- The function `unibi_from_term` (lines 190-233), the Resolver. -/
def unibi_from_term (W : World) (s : State) (term : CStr) : Option unibi_term × State :=
  if term.headD 0 = 0 ∨ term.headD 0 = 46 ∨ (strchr term 47).isSome then
    (none, s.set_errno EINVAL)
  else
    let s1 := s.emit (Event.getenv (cstr "TERMINFO"))
    match W.getenv (cstr "TERMINFO") with
    | some env =>
      let r := from_dir W s1 env none none term
      if r.1.isSome then r
      else unibi_from_term_home W r.2 term
    | none => unibi_from_term_home W s1 term

/-- The function `unibi_from_env` (lines 235-243). -/
def unibi_from_env (W : World) (s : State) : Option unibi_term × State :=
  let s1 := s.emit (Event.getenv (cstr "TERM"))
  match W.getenv (cstr "TERM") with
  | none => (none, s1.set_errno ENOENT)
  | some term => unibi_from_term W s1 term

/-! ## Definitions used to state the properties -/

/-- Events that are neither a Path Builder attempt, an `open`, a `getenv` nor a `malloc`. -/
def quiet (evs : List Event) : Prop :=
  attempts evs = [] ∧ opens evs = [] ∧ getenvs evs = [] ∧ mallocs evs = []

/-- The result `r` of a call is the outcome `o`: the record, or no record and the `errno`. -/
def yields (r : Option unibi_term × State) (o : Except Nat unibi_term) : Prop :=
  match o with
  | Except.ok u => r.1 = some u
  | Except.error e => r.1 = none ∧ r.2.errno = e

/-- What `unibi_from_file` yields for a path, whatever the state it starts from:
the record, or the `errno` it leaves behind. -/
def load (W : World) (file : CStr) : Except Nat unibi_term :=
  match unibi_from_file W ⟨0, []⟩ file with
  | (some ut, _) => Except.ok ut
  | (none, s) => Except.error s.errno

/-- Specification side: the middle segment with its separator, or nothing. -/
def mid_segment : Option CStr → CStr
  | some m => m ++ [47]
  | none => []

/-- Specification side: one lowercase hexadecimal digit as an ASCII byte. -/
def hex_digit (k : Nat) : Nat := if k < 10 then 48 + k else 87 + k

/-- Specification side: the two-digit lowercase hexadecimal of a byte. -/
def hex2 (b : Nat) : CStr := [hex_digit (b / 16), hex_digit (b % 16)]

/-- What the Path Builder yields for a directory, whatever the state it starts
from: the record, or the `errno` it leaves behind. -/
def dir_outcome (W : World) (dir : CStr) (mid : Option CStr) (term : CStr) : Except Nat unibi_term :=
  match from_dir W ⟨0, []⟩ dir none mid term with
  | (some ut, _) => Except.ok ut
  | (none, s) => Except.error s.errno

/-- The errors after which the search goes on (lines 176, 215, 227). -/
def soft (e : Nat) : Prop := e = ENOENT ∨ e = EPERM ∨ e = EACCES

instance (e : Nat) : Decidable (soft e) := by unfold soft; infer_instance

/-- The entries of a colon-separated list. -/
def entries : CStr → List CStr
  | [] => [[]]
  | b :: bs =>
    if b = 58 then [] :: entries bs
    else
      match entries bs with
      | [] => [[b]]
      | e :: es => (b :: e) :: es

/-- What follows an attempt on directory `d` with outcome `o` (lines 176-186):
stop on a record or a hard error, report `ENOENT` after the last entry, else
go on with the rest of the walk. -/
def after_attempt (o : Except Nat unibi_term) (d : CStr) (last : Bool)
    (rest : List CStr × Except Nat unibi_term) : List CStr × Except Nat unibi_term :=
  match o with
  | Except.ok u => ([d], Except.ok u)
  | Except.error err =>
    if soft err then
      if last then ([d], Except.error ENOENT) else (d :: rest.1, rest.2)
    else ([d], Except.error err)

/-- The walk of `from_dirs` over the entries of the list, as a pure function
(it is proved equal to the loop): the directories attempted, in order, and the
outcome.  `flag` is `unibi_terminfo_searched`. -/
def walk_outcome (W : World) (term : CStr) : List CStr → Bool → List CStr × Except Nat unibi_term
  | [], _ => ([], Except.error ENOENT)
  | e :: es, flag =>
    if e ≠ [] then
      after_attempt (dir_outcome W e none term) e es.isEmpty (walk_outcome W term es flag)
    else if ¬ flag then
      after_attempt (dir_outcome W W.unibi_terminfo none term) W.unibi_terminfo es.isEmpty
        (walk_outcome W term es true)
    else ([], Except.error 0)

/-- The walk of `from_dirs` on a whole list, as a pure function: the directories
attempted, in order, and the outcome. -/
def from_dirs_outcome (W : World) (term : CStr) (list : CStr) : List CStr × Except Nat unibi_term :=
  if list.headD 0 = 0 then ([], Except.error ENOENT)
  else walk_outcome W term (entries list) (decide (W.unibi_terminfo.headD 0 = 0))

/-- Soundness of a walk that attempted the directories `ds` and ended with `o`:
every attempt but the last failed softly, a record or hard error of the last
attempt is the outcome, and the outcome is a record, `ENOENT`, 0 or a hard error
of the last attempt. -/
def walk_sound (W : World) (term : CStr) (ds : List CStr) (o : Except Nat unibi_term) : Prop :=
  (∀ d ∈ ds.dropLast, ∃ e, dir_outcome W d none term = Except.error e ∧ soft e) ∧
  (∀ d u, ds.getLast? = some d → dir_outcome W d none term = Except.ok u → o = Except.ok u) ∧
  (∀ d e, ds.getLast? = some d → dir_outcome W d none term = Except.error e → ¬ soft e →
    o = Except.error e) ∧
  (∀ u, o = Except.ok u → ∃ d, ds.getLast? = some d ∧ dir_outcome W d none term = Except.ok u) ∧
  (∀ e, o = Except.error e → e = ENOENT ∨ e = 0 ∨
    (¬ soft e ∧ ∃ d, ds.getLast? = some d ∧ dir_outcome W d none term = Except.error e))

/-- A concrete world for examples.  `size_t` has `bits` bits, `malloc` succeeds,
each path of `files` holds a one-byte file that decodes to the record of that
number, `open` fails with `EACCES` on the paths of `denied` and with `ENOENT`
on every other path. -/
def example_world (bits : Nat) (files : List (CStr × Nat)) (denied : List CStr)
    (env : List (CStr × CStr)) (d0 dirs : CStr) : World where
  size_bits := bits
  unibi_terminfo := d0
  unibi_terminfo_dirs := dirs
  getenv := fun n => env.lookup n
  malloc := fun _ => true
  junk := fun i => i + 1
  sys_open := fun p =>
    match files.lookup p with
    | some k => Except.ok [ReadStep.chunk [k]]
    | none => if p ∈ denied then Except.error EACCES else Except.error ENOENT
  unibi_from_mem := fun bs =>
    match bs with
    | [k] => Except.ok ⟨k⟩
    | _ => Except.error EINVAL

/-- The directories a walk may attempt, by the rule of the one-shot flag: each
non-empty entry, and the fallback directory `d0` for the first empty entry met
while the flag is unset. -/
def candidates (d0 : CStr) : Bool → List CStr → List CStr
  | _, [] => []
  | flag, e :: es =>
    if e ≠ [] then e :: candidates d0 flag es
    else if ¬ flag then d0 :: candidates d0 true es
    else candidates d0 flag es

/-- The rule "the first record ends the search" for attempts `atts` (directory and
middle segment, in order) and returned record `res`: every attempt but the
last failed, a record of the last attempt is the one returned, and a returned
record is that of the last attempt. -/
def first_record_ends (W : World) (term : CStr) (atts : List (CStr × Option CStr))
    (res : Option unibi_term) : Prop :=
  (∀ x ∈ atts.dropLast, ∃ e, dir_outcome W x.1 x.2 term = Except.error e) ∧
  (∀ x u, atts.getLast? = some x → dir_outcome W x.1 x.2 term = Except.ok u → res = some u) ∧
  (∀ u, res = some u → ∃ x, atts.getLast? = some x ∧ dir_outcome W x.1 x.2 term = Except.ok u)

/-- A failing outcome is never `EPERM` or `EACCES`. -/
def no_soft_access (o : Except Nat unibi_term) : Prop :=
  ∀ e, o = Except.error e → e ≠ EPERM ∧ e ≠ EACCES

/-- The value `ENOTDIR` of `<errno.h>` (Linux numbering). -/
abbrev ENOTDIR : Nat := 20

/-- A concrete world like `example_world`, where `open` fails with the listed
`errno` on the paths of `errs` and with `ENOENT` on every path that is neither
in `files` nor in `errs`. -/
def example_world_errs (bits : Nat) (files : List (CStr × Nat)) (errs : List (CStr × Nat))
    (env : List (CStr × CStr)) (d0 dirs : CStr) : World where
  size_bits := bits
  unibi_terminfo := d0
  unibi_terminfo_dirs := dirs
  getenv := fun n => env.lookup n
  malloc := fun _ => true
  junk := fun i => i + 1
  sys_open := fun p =>
    match files.lookup p with
    | some k => Except.ok [ReadStep.chunk [k]]
    | none =>
      match errs.lookup p with
      | some e => Except.error e
      | none => Except.error ENOENT
  unibi_from_mem := fun bs =>
    match bs with
    | [k] => Except.ok ⟨k⟩
    | _ => Except.error EINVAL

/-- The attempt a search step makes on the value of an environment variable, if it is set. -/
def env_attempt (W : World) (name : CStr) (mid : Option CStr) : List (CStr × Option CStr) :=
  match W.getenv name with
  | some d => [(d, mid)]
  | none => []

/-- Ghost counter: the number of iterations the loop of `from_dirs` executes; it
follows the control flow of `from_dirs_loop` and counts one per iteration. -/
def from_dirs_iterations (W : World) (term : CStr) (fuel : Nat) (a : CStr) (s : State)
    (ut : Option unibi_term) (searched : Bool) (h : a.length ≤ fuel) : Nat :=
  let step := from_dirs_step W term a s ut searched
  if step.1.isSome ∨
      (step.2.1.errno ≠ ENOENT ∧ step.2.1.errno ≠ EPERM ∧ step.2.1.errno ≠ EACCES) then
    1
  else
    match hz : strchr a 58 with
    | none => 1
    | some i =>
      match fuel, h with
      | 0, h0 => absurd hz (by
          cases a with
          | nil => simp [strchr]
          | cons b bs => simp at h0)
      | k + 1, h1 =>
        1 + from_dirs_iterations W term k (a.drop (i + 1)) step.2.1 step.1 step.2.2
          (by simp only [List.length_drop]; omega)

/-- The byte ranges handed to the decoder `unibi_from_mem`, in order. -/
def decodes : List Event → List (List Nat)
  | [] => []
  | Event.unibi_from_mem bs :: es => bs :: decodes es
  | _ :: es => decodes es

/-- The byte counts asked of `read`, in order. -/
def reads : List Event → List Nat
  | [] => []
  | Event.read n :: es => n :: reads es
  | _ :: es => reads es

/-- The bytes stored before each `read` of a run over chunks of the given
lengths that starts with `n` bytes stored: the running totals below the capacity. -/
def stored_before (n : Nat) (lens : List Nat) : List Nat :=
  (List.scanl (· + ·) n lens).takeWhile (· < MAX_BUF)

/-- The result of `unibi_from_fd` when the decoder is handed `bytes` after the
reads `evs`: the decoder's record, or no record and the decoder's `errno`. -/
def decoded (W : World) (s : State) (evs : List Event) (bytes : List Nat) :
    Option unibi_term × State :=
  match W.unibi_from_mem bytes with
  | Except.ok ut => (some ut, ⟨s.errno, s.trace ++ evs ++ [Event.unibi_from_mem bytes]⟩)
  | Except.error e => (none, ⟨e, s.trace ++ evs ++ [Event.unibi_from_mem bytes]⟩)

/-- How a stream answers the next `fread` call: the bytes it delivers (none for a
zero-length read), whether the call sets the end-of-file indicator, and the
`errno` of the error when the call sets the error indicator. -/
structure FreadStep where
  bytes : List Nat
  eof : Bool
  err : Option Nat
  deriving DecidableEq, Repr

/-- A `FILE *` stream: the answers its future `fread` calls will get and its two
sticky indicators, tested by `feof` and `ferror`.  A stream whose script is
used up is at end-of-file. -/
structure FILE where
  script : List FreadStep
  eof : Bool
  err : Bool
  deriving DecidableEq, Repr

/-- The call `fread(ptr, 1, count, fp)`: the item count returned, the bytes stored,
the `errno` it sets if any, and the stream afterwards.  A call that asks for
less than the stream has ready gets the part asked for, and the indicators of
that answer are set by the call that takes its last byte. -/
def fread (fp : FILE) (count : Nat) : Nat × List Nat × Option Nat × FILE :=
  match fp.script with
  | [] => (0, [], none, { fp with eof := true })
  | st :: rest =>
    if st.bytes.length ≤ count then
      (st.bytes.length, st.bytes, st.err,
        { script := rest, eof := fp.eof || st.eof, err := fp.err || st.err.isSome })
    else
      (count, st.bytes.take count, none,
        { fp with script := { st with bytes := st.bytes.drop count } :: rest })

/-- The loop of `unibi_from_fp` (lines 55-61):
`for (n = 0; n < sizeof buf && (r = fread(buf + n, 1, sizeof buf - n, fp)) > 0; )`
with the body `n += r; if (feof(fp)) break;`.  The recursion is on `fuel`,
which bounds the free room of the buffer. -/
def unibi_from_fp_loop (fuel : Nat) (fp : FILE) (s : State) (buf : List Nat) (n r : Nat)
    (h : MAX_BUF ≤ n + fuel) : State × List Nat × Nat × Nat × FILE :=
  if hn : n < MAX_BUF then
    let res := fread fp (MAX_BUF - n)
    let s1 := s.emit (Event.fread (MAX_BUF - n))
    let s2 := match res.2.2.1 with
      | some e => s1.set_errno e
      | none => s1
    if hr : res.1 > 0 then
      if res.2.2.2.eof then (s2, buf ++ res.2.1, n + res.1, res.1, res.2.2.2)
      else
        match fuel, h with
        | 0, h0 => absurd hn (by omega)
        | k + 1, h1 =>
          unibi_from_fp_loop k res.2.2.2 s2 (buf ++ res.2.1) (n + res.1) res.1 (by omega)
    else (s2, buf, n, res.1, res.2.2.2)
  else (s, buf, n, r, fp)

/-- The function `unibi_from_fp` (lines 51-68). -/
def unibi_from_fp (W : World) (s : State) (fp : FILE) : Option unibi_term × State :=
  -- `r` is uninitialised before the loop; the first `fread` always assigns it
  let l := unibi_from_fp_loop MAX_BUF fp s [] 0 0 (by omega)
  if l.2.2.2.2.err then (none, l.1)
  else
    let s1 := l.1.emit (Event.unibi_from_mem (l.2.1.take l.2.2.1))
    match W.unibi_from_mem (l.2.1.take l.2.2.1) with
    | Except.ok ut => (some ut, s1)
    | Except.error e => (none, s1.set_errno e)

/-- A stream that delivers the bytes 1 and 2, then answers one `fread` with zero
bytes and no indicator, and would then deliver the byte 3 at end-of-file. -/
def zero_read_stream : FILE :=
  { script := [⟨[1, 2], false, none⟩, ⟨[], false, none⟩, ⟨[3], true, none⟩],
    eof := false, err := false }

/-- The script of a stream that delivers the chunks `pre` without setting an
indicator, then answers one `fread` with zero bytes and no indicator, then goes
on with `post`. -/
def zero_read_script (pre : List (List Nat)) (post : List FreadStep) : List FreadStep :=
  pre.map (fun c => ⟨c, false, none⟩) ++ ⟨[], false, none⟩ :: post

/-- The Path Builder attempts of a walk of `from_dirs` over `list`, whatever the
state it starts from. -/
def dirs_attempts (W : World) (list term : CStr) : List (CStr × Option CStr) :=
  attempts (from_dirs W ⟨0, []⟩ list term).2.trace

/-- What a walk of `from_dirs` over `list` yields, whatever the state it starts
from: the record, or the `errno` it leaves behind. -/
def dirs_outcome (W : World) (list term : CStr) : Except Nat unibi_term :=
  match from_dirs W ⟨0, []⟩ list term with
  | (some ut, _) => Except.ok ut
  | (none, s) => Except.error s.errno

/-- The attempts of the four search steps of `unibi_from_term`, step by step, and
the outcome of the search. -/
structure Search where
  terminfo : List (CStr × Option CStr)
  home : List (CStr × Option CStr)
  dirs : List (CStr × Option CStr)
  fallback : List (CStr × Option CStr)
  out : Except Nat unibi_term

/-- Lines 220-232 as a function of the outcomes of the walks: the `TERMINFO_DIRS`
walk is made when the variable is set; its record or its hard error ends the
search, otherwise the compiled-in list is walked. -/
def search_dirs (W : World) (term : CStr) : Search :=
  match W.getenv (cstr "TERMINFO_DIRS") with
  | none =>
    ⟨[], [], [], dirs_attempts W W.unibi_terminfo_dirs term,
      dirs_outcome W W.unibi_terminfo_dirs term⟩
  | some l =>
    match dirs_outcome W l term with
    | Except.ok u => ⟨[], [], dirs_attempts W l term, [], Except.ok u⟩
    | Except.error e =>
      if soft e then
        ⟨[], [], dirs_attempts W l term, dirs_attempts W W.unibi_terminfo_dirs term,
          dirs_outcome W W.unibi_terminfo_dirs term⟩
      else ⟨[], [], dirs_attempts W l term, [], Except.error e⟩

/-- Lines 208-232 as a function of the outcomes of the attempts: the `HOME`
attempt is made when the variable is set; its record or its hard error ends
the search, otherwise the search goes on with `TERMINFO_DIRS`. -/
def search_home (W : World) (term : CStr) : Search :=
  match W.getenv (cstr "HOME") with
  | none => search_dirs W term
  | some d =>
    match dir_outcome W d (some (cstr ".terminfo")) term with
    | Except.ok u => ⟨[], [(d, some (cstr ".terminfo"))], [], [], Except.ok u⟩
    | Except.error e =>
      if soft e then { search_dirs W term with home := [(d, some (cstr ".terminfo"))] }
      else ⟨[], [(d, some (cstr ".terminfo"))], [], [], Except.error e⟩

/-- Lines 201-232 as a function of the outcomes of the attempts: the `TERMINFO`
attempt is made when the variable is set; its record ends the search, and
after any failure the search goes on with `HOME`. -/
def search (W : World) (term : CStr) : Search :=
  match W.getenv (cstr "TERMINFO") with
  | none => search_home W term
  | some d =>
    match dir_outcome W d none term with
    | Except.ok u => ⟨[(d, none)], [], [], [], Except.ok u⟩
    | Except.error _ => { search_home W term with terminfo := [(d, none)] }

/-- The attempts of the walk a search step makes over the value of an
environment variable, if it is set. -/
def env_walk (W : World) (name term : CStr) : List (CStr × Option CStr) :=
  match W.getenv name with
  | some l => dirs_attempts W l term
  | none => []

/-! ## Lemmas and claims -/

theorem attempts_append (xs ys : List Event) : attempts (xs ++ ys) = attempts xs ++ attempts ys := by
  induction xs with
  | nil => rfl
  | cons e es ih => cases e <;> simp [attempts, ih]

theorem opens_append (xs ys : List Event) : opens (xs ++ ys) = opens xs ++ opens ys := by
  induction xs with
  | nil => rfl
  | cons e es ih => cases e <;> simp [opens, ih]

theorem getenvs_append (xs ys : List Event) : getenvs (xs ++ ys) = getenvs xs ++ getenvs ys := by
  induction xs with
  | nil => rfl
  | cons e es ih => cases e <;> simp [getenvs, ih]

theorem mallocs_append (xs ys : List Event) : mallocs (xs ++ ys) = mallocs xs ++ mallocs ys := by
  induction xs with
  | nil => rfl
  | cons e es ih => cases e <;> simp [mallocs, ih]

theorem sys_read_errno (fd : Fd) (count : Nat) :
    (sys_read fd count).1 < 0 → (sys_read fd count).2.2.1 ≠ none := by
  cases fd with
  | nil => simp [sys_read]
  | cons st rest =>
    cases st with
    | fail e => simp [sys_read]
    | chunk bs =>
      simp only [sys_read]
      split <;> simp

theorem unibi_from_fd_loop_frame (fuel : Nat) : ∀ (fd : Fd) (buf : List Nat) (n : Nat) (r : Int)
    (h : MAX_BUF ≤ n + fuel), 0 ≤ r →
    ∃ (evs : List Event) (oe : Option Nat) (out : List Nat × Nat × Int),
      quiet evs ∧ (out.2.2 < 0 → oe ≠ none) ∧
      ∀ s : State, unibi_from_fd_loop fuel fd s buf n r h
        = (⟨oe.getD s.errno, s.trace ++ evs⟩, out) := by
  induction fuel with
  | zero =>
    intro fd buf n r h hr
    refine ⟨[], none, (buf, n, r), ⟨rfl, rfl, rfl, rfl⟩, ?_, ?_⟩
    · intro h1; exact absurd h1 (by simpa using hr)
    · intro s
      unfold unibi_from_fd_loop
      have : ¬ n < MAX_BUF := by omega
      simp [this]
  | succ k ih =>
    intro fd buf n r h hr
    by_cases hn : n < MAX_BUF
    · by_cases hpos : (sys_read fd (MAX_BUF - n)).1 > 0
      · obtain ⟨evs, oe, out, hq, hneg, heq⟩ :=
          ih (sys_read fd (MAX_BUF - n)).2.2.2 (buf ++ (sys_read fd (MAX_BUF - n)).2.1)
            (n + (sys_read fd (MAX_BUF - n)).1.toNat) (sys_read fd (MAX_BUF - n)).1 (by omega) (by omega)
        refine ⟨Event.read (MAX_BUF - n) :: evs,
          (match oe with | some e => some e | none => (sys_read fd (MAX_BUF - n)).2.2.1), out, ?_, ?_, ?_⟩
        · obtain ⟨q1, q2, q3, q4⟩ := hq
          exact ⟨by simpa [attempts] using q1, by simpa [opens] using q2,
            by simpa [getenvs] using q3, by simpa [mallocs] using q4⟩
        · intro h1
          have := hneg h1
          cases oe with
          | none => exact absurd rfl this
          | some e => simp
        · intro s
          rw [unibi_from_fd_loop]
          simp only [hn, hpos, dite_true]
          rw [heq]
          cases oe <;> cases hse : (sys_read fd (MAX_BUF - n)).2.2.1 <;>
            simp [State.emit, State.set_errno]
      · refine ⟨[Event.read (MAX_BUF - n)], (sys_read fd (MAX_BUF - n)).2.2.1,
          (buf, n, (sys_read fd (MAX_BUF - n)).1), ⟨rfl, rfl, rfl, rfl⟩, ?_, ?_⟩
        · intro h1; exact sys_read_errno fd _ h1
        · intro s
          rw [unibi_from_fd_loop]
          simp only [hn, hpos, dite_true, dite_false]
          cases hse : (sys_read fd (MAX_BUF - n)).2.2.1 <;>
            simp [State.emit, State.set_errno]
    · refine ⟨[], none, (buf, n, r), ⟨rfl, rfl, rfl, rfl⟩, ?_, ?_⟩
      · intro h1; exact absurd h1 (by simpa using hr)
      · intro s
        rw [unibi_from_fd_loop]
        simp [hn]

theorem quiet_cons_read (c : Nat) (evs : List Event) (h : quiet evs) : quiet (Event.read c :: evs) := by
  obtain ⟨q1, q2, q3, q4⟩ := h
  exact ⟨by simpa [attempts] using q1, by simpa [opens] using q2,
    by simpa [getenvs] using q3, by simpa [mallocs] using q4⟩

theorem quiet_append (xs ys : List Event) (hx : quiet xs) (hy : quiet ys) : quiet (xs ++ ys) := by
  obtain ⟨q1, q2, q3, q4⟩ := hx
  obtain ⟨r1, r2, r3, r4⟩ := hy
  exact ⟨by simp [attempts_append, q1, r1], by simp [opens_append, q2, r2],
    by simp [getenvs_append, q3, r3], by simp [mallocs_append, q4, r4]⟩

theorem unibi_from_fd_shape (W : World) (fd : Fd) :
    ∃ (evs : List Event) (out : Except Nat unibi_term), quiet evs ∧
      ∀ s : State, (unibi_from_fd W s fd).2.trace = s.trace ++ evs ∧
        yields (unibi_from_fd W s fd) out := by
  obtain ⟨evs, oe, out, hq, hneg, heq⟩ :=
    unibi_from_fd_loop_frame MAX_BUF fd [] 0 0 (by omega) (le_refl _)
  by_cases hr : out.2.2 < 0
  · have hoe := hneg hr
    cases oe with
    | none => exact absurd rfl hoe
    | some e =>
      refine ⟨evs, Except.error e, hq, ?_⟩
      intro s
      simp [unibi_from_fd, heq, hr, yields]
  · cases hm : W.unibi_from_mem (out.1.take out.2.1) with
    | ok u =>
      refine ⟨evs ++ [Event.unibi_from_mem (out.1.take out.2.1)], Except.ok u,
        quiet_append _ _ hq ⟨rfl, rfl, rfl, rfl⟩, ?_⟩
      intro s
      simp [unibi_from_fd, heq, hr, hm, State.emit, yields]
    | error e =>
      refine ⟨evs ++ [Event.unibi_from_mem (out.1.take out.2.1)], Except.error e,
        quiet_append _ _ hq ⟨rfl, rfl, rfl, rfl⟩, ?_⟩
      intro s
      simp [unibi_from_fd, heq, hr, hm, State.emit, State.set_errno, yields]

theorem unibi_from_file_shape (W : World) (file : CStr) :
    ∃ (evs : List Event) (out : Except Nat unibi_term), quiet evs ∧
      ∀ s : State, (unibi_from_file W s file).2.trace = s.trace ++ Event.sys_open file :: evs ∧
        yields (unibi_from_file W s file) out := by
  cases ho : W.sys_open file with
  | error e =>
    refine ⟨[], Except.error e, ⟨rfl, rfl, rfl, rfl⟩, ?_⟩
    intro s
    simp [unibi_from_file, ho, State.emit, State.set_errno, yields]
  | ok fd =>
    obtain ⟨evs, out, hq, h⟩ := unibi_from_fd_shape W fd
    refine ⟨evs ++ [Event.close], out, quiet_append _ _ hq ⟨rfl, rfl, rfl, rfl⟩, ?_⟩
    intro s
    obtain ⟨h2, h3⟩ := h (s.emit (Event.sys_open file))
    refine ⟨?_, ?_⟩
    · simp only [unibi_from_file, ho, State.emit] at h2 ⊢
      rw [h2]
      simp
    · cases out with
      | ok u => simpa [unibi_from_file, ho, yields] using h3
      | error e => simpa [unibi_from_file, ho, yields, State.emit] using h3

theorem yields_load (W : World) (file : CStr) (out : Except Nat unibi_term)
    (h : yields (unibi_from_file W ⟨0, []⟩ file) out) : load W file = out := by
  unfold load
  generalize unibi_from_file W ⟨0, []⟩ file = r at h
  obtain ⟨r1, r2⟩ := r
  cases out with
  | ok u =>
    simp only [yields] at h
    subst h
    rfl
  | error e =>
    obtain ⟨h1, h2⟩ := h
    simp only at h1 h2
    subst h1
    subst h2
    rfl

/-- Frame property of `unibi_from_file`: it appends one `open` and quiet events,
and its result is the one `load` names, whatever the incoming state. -/
theorem unibi_from_file_frame (W : World) (file : CStr) :
    ∃ evs : List Event, quiet evs ∧
      ∀ s : State, (unibi_from_file W s file).2.trace = s.trace ++ Event.sys_open file :: evs ∧
        yields (unibi_from_file W s file) (load W file) := by
  obtain ⟨evs, out, hq, h⟩ := unibi_from_file_shape W file
  refine ⟨evs, hq, ?_⟩
  rw [yields_load W file out (h ⟨0, []⟩).2]
  exact h

theorem add_overflowed_eq (w dst src : Nat) (hd : dst < 2 ^ w) (hs : src < 2 ^ w) :
    add_overflowed w dst src = ((dst + src) % 2 ^ w, decide (2 ^ w ≤ dst + src)) := by
  unfold add_overflowed
  by_cases h : dst + src < 2 ^ w
  · simp only [Nat.mod_eq_of_lt h, Prod.mk.injEq, true_and, decide_eq_decide]
    omega
  · have hm : (dst + src) % 2 ^ w = dst + src - 2 ^ w := by
      rw [Nat.mod_eq_sub_mod (by omega), Nat.mod_eq_of_lt (by omega)]
    simp only [hm, Prod.mk.injEq, true_and, decide_eq_decide]
    omega

theorem from_dir_path_size_eq (w dl ml tl : Nat) (hw : 5 < 2 ^ w) (hd : dl < 2 ^ w)
    (hm : ml < 2 ^ w) (ht : tl < 2 ^ w) :
    from_dir_path_size w dl ml tl
      = if dl + ml + tl + 5 < 2 ^ w then some (dl + ml + tl + 5) else none := by
  unfold from_dir_path_size
  have hp : 0 < 2 ^ w := by omega
  rw [add_overflowed_eq w 0 dl hp hd]
  simp only [Nat.zero_add, Nat.mod_eq_of_lt hd]
  have h1 : ¬ 2 ^ w ≤ dl := by omega
  simp only [h1, decide_False, Bool.false_eq_true, if_false]
  rw [add_overflowed_eq w dl ml hd hm]
  by_cases h2 : 2 ^ w ≤ dl + ml
  · have : ¬ dl + ml + tl + 5 < 2 ^ w := by omega
    simp [h2, this]
  · simp only [h2, decide_False, Bool.false_eq_true, if_false]
    have h2' : dl + ml < 2 ^ w := by omega
    rw [Nat.mod_eq_of_lt h2', add_overflowed_eq w (dl + ml) tl h2' ht]
    by_cases h3 : 2 ^ w ≤ dl + ml + tl
    · have : ¬ dl + ml + tl + 5 < 2 ^ w := by omega
      simp [h3, this]
    · simp only [h3, decide_False, Bool.false_eq_true, if_false]
      have h3' : dl + ml + tl < 2 ^ w := by omega
      rw [Nat.mod_eq_of_lt h3', add_overflowed_eq w (dl + ml + tl) (1 + 2 + 1 + 1) h3' (by omega)]
      by_cases h4 : 2 ^ w ≤ dl + ml + tl + (1 + 2 + 1 + 1)
      · have : ¬ dl + ml + tl + 5 < 2 ^ w := by omega
        simp [h4, this]
      · have h4' : dl + ml + tl + 5 < 2 ^ w := by omega
        simp only [h4, decide_False, Bool.false_eq_true, if_false, h4', if_true]
        rw [Nat.mod_eq_of_lt (by omega)]

theorem c_str_append_nul (xs rest : List Nat) (h : 0 ∉ xs) : c_str (xs ++ 0 :: rest) = xs := by
  induction xs with
  | nil => simp [c_str]
  | cons x xs ih =>
    have hx : x ≠ 0 := fun e => h (by simp [e])
    have hxs : 0 ∉ xs := fun e => h (by simp [e])
    have := ih hxs
    simp only [c_str] at this ⊢
    have hb : (x != 0) = true := by simp [hx]
    rw [List.cons_append, List.takeWhile_cons, hb]
    simp [this]

set_option maxRecDepth 100000 in
theorem fmt_02x_byte : ∀ b, b < 256 → fmt_02x (b &&& 0xff) = hex2 b := by
  decide

theorem hex2_nonzero (b : Nat) : 0 ∉ hex2 b := by
  simp only [hex2, hex_digit, List.mem_cons, List.mem_singleton, List.not_mem_nil, or_false]
  intro h
  rcases h with h | h <;> split at h <;> omega

theorem from_dir_path_a_eq (W : World) (sz : Nat) (dir_begin : CStr) (dir_end : Option Nat)
    (mid : Option CStr) (term : CStr)
    (hspan : from_dir_dir_len dir_begin dir_end ≤ dir_begin.length) :
    ∃ rest, from_dir_path_a W sz dir_begin dir_end mid term
      = (dir_begin.take (from_dir_dir_len dir_begin dir_end) ++ [47] ++ mid_segment mid)
        ++ ([term.headD 0] ++ [47] ++ term) ++ 0 :: rest := by
  have hlen : (dir_begin.take (from_dir_dir_len dir_begin dir_end)).length
      = from_dir_dir_len dir_begin dir_end := by
    rw [List.length_take]; omega
  generalize hd : dir_begin.take (from_dir_dir_len dir_begin dir_end) = d at hlen
  refine ⟨(d ++ List.drop (0 + d.length) (List.map W.junk (List.range sz))).drop
    (from_dir_dir_len dir_begin dir_end + (([47] ++ (match mid with | some m => m | none => [])
          ++ (match mid with | some _ => [47] | none => [])
          ++ [term.headD 0] ++ [47] ++ term) ++ [0]).length), ?_⟩
  simp only [from_dir_path_a, sprintf, poke, hd, List.take_zero, List.nil_append]
  rw [← hlen, List.take_left']
  · cases mid <;> simp [mid_segment]
  · rfl

theorem from_dir_path_b_eq (W : World) (sz : Nat) (dir_begin : CStr) (dir_end : Option Nat)
    (mid : Option CStr) (term : CStr)
    (hspan : from_dir_dir_len dir_begin dir_end ≤ dir_begin.length)
    (hm : ∀ m, mid = some m → m.length + 1 < 2 ^ W.size_bits) :
    ∃ rest, from_dir_path_b W sz dir_begin dir_end mid term
      = (dir_begin.take (from_dir_dir_len dir_begin dir_end) ++ [47] ++ mid_segment mid)
        ++ (hex2 (term.headD 0 % 256) ++ [47] ++ term) ++ 0 :: rest := by
  obtain ⟨rest, ha⟩ := from_dir_path_a_eq W sz dir_begin dir_end mid term hspan
  have hlen : (dir_begin.take (from_dir_dir_len dir_begin dir_end)).length
      = from_dir_dir_len dir_begin dir_end := by
    rw [List.length_take]; omega
  have hml : from_dir_mid_len W.size_bits mid = (mid_segment mid).length := by
    cases mid with
    | none => rfl
    | some m =>
      simp only [from_dir_mid_len, strlen, mid_segment, List.length_append, List.length_singleton]
      exact Nat.mod_eq_of_lt (hm m rfl)
  have hoff : from_dir_dir_len dir_begin dir_end + 1 + from_dir_mid_len W.size_bits mid
      = (dir_begin.take (from_dir_dir_len dir_begin dir_end) ++ [47] ++ mid_segment mid).length := by
    simp only [List.length_append, hlen, hml, List.length_singleton]
  refine ⟨(from_dir_path_a W sz dir_begin dir_end mid term).drop
    (from_dir_dir_len dir_begin dir_end + 1 + from_dir_mid_len W.size_bits mid
      + ((fmt_02x ((term.headD 0 % 256) &&& 0xff) ++ [47] ++ term) ++ [0]).length), ?_⟩
  simp only [from_dir_path_b, sprintf, poke]
  rw [fmt_02x_byte _ (Nat.mod_lt _ (by decide))]
  have htake : (from_dir_path_a W sz dir_begin dir_end mid term).take
      (from_dir_dir_len dir_begin dir_end + 1 + from_dir_mid_len W.size_bits mid)
      = dir_begin.take (from_dir_dir_len dir_begin dir_end) ++ [47] ++ mid_segment mid := by
    rw [ha, hoff, List.append_assoc _ _ (0 :: rest), List.take_left' rfl]
  rw [htake]
  simp only [List.append_assoc, List.singleton_append]

theorem from_dir_overflow (W : World) (dir_begin : CStr) (dir_end : Option Nat)
    (mid : Option CStr) (term : CStr)
    (hps : from_dir_path_size W.size_bits (from_dir_dir_len dir_begin dir_end)
      (from_dir_mid_len W.size_bits mid) (strlen term) = none) (s : State) :
    from_dir W s dir_begin dir_end mid term
      = (none, ⟨ENOMEM, s.trace ++
          [Event.from_dir (dir_begin.take (from_dir_dir_len dir_begin dir_end)) mid term]⟩) := by
  simp [from_dir, hps, State.emit, State.set_errno]

theorem from_dir_malloc_fail (W : World) (dir_begin : CStr) (dir_end : Option Nat)
    (mid : Option CStr) (term : CStr) (sz : Nat)
    (hps : from_dir_path_size W.size_bits (from_dir_dir_len dir_begin dir_end)
      (from_dir_mid_len W.size_bits mid) (strlen term) = some sz)
    (hm : W.malloc sz = false) (s : State) :
    from_dir W s dir_begin dir_end mid term
      = (none, ⟨ENOMEM, s.trace ++
          [Event.from_dir (dir_begin.take (from_dir_dir_len dir_begin dir_end)) mid term,
           Event.malloc sz]⟩) := by
  simp [from_dir, hps, hm, State.emit, State.set_errno]

theorem from_dir_layout_a (W : World) (dir_begin : CStr) (dir_end : Option Nat)
    (mid : Option CStr) (term : CStr) (sz : Nat)
    (hps : from_dir_path_size W.size_bits (from_dir_dir_len dir_begin dir_end)
      (from_dir_mid_len W.size_bits mid) (strlen term) = some sz)
    (hm : W.malloc sz = true)
    (ha : load W (c_str (from_dir_path_a W sz dir_begin dir_end mid term)) ≠ Except.error ENOENT) :
    ∃ evs, quiet evs ∧ ∀ s : State,
      (from_dir W s dir_begin dir_end mid term).2.trace = s.trace ++
        (Event.from_dir (dir_begin.take (from_dir_dir_len dir_begin dir_end)) mid term
          :: Event.malloc sz
          :: Event.sys_open (c_str (from_dir_path_a W sz dir_begin dir_end mid term)) :: evs) ∧
      yields (from_dir W s dir_begin dir_end mid term)
        (load W (c_str (from_dir_path_a W sz dir_begin dir_end mid term))) := by
  obtain ⟨evs, hq, hf⟩ :=
    unibi_from_file_frame W (c_str (from_dir_path_a W sz dir_begin dir_end mid term))
  refine ⟨evs, hq, ?_⟩
  intro s
  obtain ⟨h1, h2⟩ := hf (((s.emit (Event.from_dir
    (dir_begin.take (from_dir_dir_len dir_begin dir_end)) mid term)).emit
      (Event.malloc sz)).set_errno 0)
  have hcond : ¬ ((unibi_from_file W (((s.emit (Event.from_dir
      (dir_begin.take (from_dir_dir_len dir_begin dir_end)) mid term)).emit
        (Event.malloc sz)).set_errno 0)
      (c_str (from_dir_path_a W sz dir_begin dir_end mid term))).1.isNone = true ∧
      (unibi_from_file W (((s.emit (Event.from_dir
      (dir_begin.take (from_dir_dir_len dir_begin dir_end)) mid term)).emit
        (Event.malloc sz)).set_errno 0)
      (c_str (from_dir_path_a W sz dir_begin dir_end mid term))).2.errno = ENOENT) := by
    intro ⟨c1, c2⟩
    cases hl : load W (c_str (from_dir_path_a W sz dir_begin dir_end mid term)) with
    | ok u =>
      rw [hl] at h2
      simp only [yields] at h2
      rw [h2] at c1
      simp at c1
    | error e =>
      rw [hl] at h2
      obtain ⟨_, h22⟩ := h2
      rw [h22] at c2
      exact ha (by rw [hl, c2])
  simp only [from_dir, hps, hm, if_true, hcond, if_false]
  refine ⟨?_, h2⟩
  rw [h1]
  simp [State.emit, State.set_errno]

theorem from_dir_layout_b (W : World) (dir_begin : CStr) (dir_end : Option Nat)
    (mid : Option CStr) (term : CStr) (sz : Nat)
    (hps : from_dir_path_size W.size_bits (from_dir_dir_len dir_begin dir_end)
      (from_dir_mid_len W.size_bits mid) (strlen term) = some sz)
    (hm : W.malloc sz = true)
    (ha : load W (c_str (from_dir_path_a W sz dir_begin dir_end mid term)) = Except.error ENOENT) :
    ∃ evsA evsB, quiet evsA ∧ quiet evsB ∧ ∀ s : State,
      (from_dir W s dir_begin dir_end mid term).2.trace = s.trace ++
        (Event.from_dir (dir_begin.take (from_dir_dir_len dir_begin dir_end)) mid term
          :: Event.malloc sz
          :: Event.sys_open (c_str (from_dir_path_a W sz dir_begin dir_end mid term)) :: evsA
          ++ Event.sys_open (c_str (from_dir_path_b W sz dir_begin dir_end mid term)) :: evsB) ∧
      yields (from_dir W s dir_begin dir_end mid term)
        (load W (c_str (from_dir_path_b W sz dir_begin dir_end mid term))) := by
  obtain ⟨evsA, hqA, hfA⟩ :=
    unibi_from_file_frame W (c_str (from_dir_path_a W sz dir_begin dir_end mid term))
  obtain ⟨evsB, hqB, hfB⟩ :=
    unibi_from_file_frame W (c_str (from_dir_path_b W sz dir_begin dir_end mid term))
  refine ⟨evsA, evsB, hqA, hqB, ?_⟩
  intro s
  obtain ⟨h1, h2⟩ := hfA (((s.emit (Event.from_dir
    (dir_begin.take (from_dir_dir_len dir_begin dir_end)) mid term)).emit
      (Event.malloc sz)).set_errno 0)
  rw [ha] at h2
  obtain ⟨h21, h22⟩ := h2
  have hcond : ((unibi_from_file W (((s.emit (Event.from_dir
      (dir_begin.take (from_dir_dir_len dir_begin dir_end)) mid term)).emit
        (Event.malloc sz)).set_errno 0)
      (c_str (from_dir_path_a W sz dir_begin dir_end mid term))).1.isNone = true ∧
      (unibi_from_file W (((s.emit (Event.from_dir
      (dir_begin.take (from_dir_dir_len dir_begin dir_end)) mid term)).emit
        (Event.malloc sz)).set_errno 0)
      (c_str (from_dir_path_a W sz dir_begin dir_end mid term))).2.errno = ENOENT) :=
    ⟨by rw [h21]; rfl, h22⟩
  simp only [from_dir, hps, hm, if_true]
  rw [if_pos hcond]
  obtain ⟨h3, h4⟩ := hfB (unibi_from_file W (((s.emit (Event.from_dir
      (dir_begin.take (from_dir_dir_len dir_begin dir_end)) mid term)).emit
        (Event.malloc sz)).set_errno 0)
      (c_str (from_dir_path_a W sz dir_begin dir_end mid term))).2
  refine ⟨?_, h4⟩
  rw [h3, h1]
  simp [State.emit, State.set_errno]

theorem strchr_lt (a : CStr) (c i : Nat) (h : strchr a c = some i) : i < a.length := by
  induction a generalizing i with
  | nil => simp [strchr] at h
  | cons b bs ih =>
    simp only [strchr] at h
    split at h
    · simp at h; subst h; simp
    · cases hb : strchr bs c with
      | none => simp [hb] at h
      | some j =>
        simp [hb] at h
        subst h
        have := ih j hb
        simp; omega

theorem entries_ne_nil (a : CStr) : entries a ≠ [] := by
  cases a with
  | nil => simp [entries]
  | cons b bs =>
    simp only [entries]
    split
    · simp
    · split <;> simp

theorem entries_of_strchr_none (a : CStr) (h : strchr a 58 = none) : entries a = [a] := by
  induction a with
  | nil => rfl
  | cons b bs ih =>
    simp only [strchr] at h
    split at h
    · simp at h
    · rename_i hb
      have hbs : strchr bs 58 = none := by
        cases hs : strchr bs 58 with
        | none => rfl
        | some j => simp [hs] at h
      simp [entries, hb, ih hbs]

theorem entries_of_strchr_some (a : CStr) (i : Nat) (h : strchr a 58 = some i) :
    entries a = a.take i :: entries (a.drop (i + 1)) := by
  induction a generalizing i with
  | nil => simp [strchr] at h
  | cons b bs ih =>
    simp only [strchr] at h
    split at h
    · rename_i hb
      simp at h
      subst h
      simp [entries, hb]
    · rename_i hb
      cases hs : strchr bs 58 with
      | none => simp [hs] at h
      | some j =>
        simp [hs] at h
        subst h
        simp [entries, hb, ih j hs]

theorem from_dir_span (W : World) (s : State) (a : CStr) (i : Nat) (mid : Option CStr)
    (term : CStr) (hi : i ≤ a.length) :
    from_dir W s a (some i) mid term = from_dir W s (a.take i) none mid term := by
  have h1 : from_dir_dir_len a (some i) = i := rfl
  have h2 : from_dir_dir_len (a.take i) none = i := by
    simp [from_dir_dir_len, strlen, hi]
  simp only [from_dir, from_dir_path_a, from_dir_path_b, h1, h2, List.take_take, Nat.min_self]

theorem from_dir_shape (W : World) (dir_begin : CStr) (dir_end : Option Nat)
    (mid : Option CStr) (term : CStr) :
    ∃ (evs : List Event) (out : Except Nat unibi_term), attempts evs = [] ∧ getenvs evs = [] ∧
      ∀ s : State, (from_dir W s dir_begin dir_end mid term).2.trace = s.trace ++
          Event.from_dir (dir_begin.take (from_dir_dir_len dir_begin dir_end)) mid term :: evs ∧
        yields (from_dir W s dir_begin dir_end mid term) out := by
  cases hps : from_dir_path_size W.size_bits (from_dir_dir_len dir_begin dir_end)
      (from_dir_mid_len W.size_bits mid) (strlen term) with
  | none =>
    refine ⟨[], Except.error ENOMEM, rfl, rfl, ?_⟩
    intro s
    rw [from_dir_overflow W dir_begin dir_end mid term hps s]
    exact ⟨rfl, rfl, rfl⟩
  | some sz =>
    cases hm : W.malloc sz with
    | false =>
      refine ⟨[Event.malloc sz], Except.error ENOMEM, rfl, rfl, ?_⟩
      intro s
      rw [from_dir_malloc_fail W dir_begin dir_end mid term sz hps hm s]
      exact ⟨rfl, rfl, rfl⟩
    | true =>
      by_cases ha : load W (c_str (from_dir_path_a W sz dir_begin dir_end mid term))
          = Except.error ENOENT
      · obtain ⟨evsA, evsB, hqA, hqB, h⟩ :=
          from_dir_layout_b W dir_begin dir_end mid term sz hps hm ha
        refine ⟨_, _, ?_, ?_, h⟩
        · simp [attempts, attempts_append, hqA.1, hqB.1]
        · simp [getenvs, getenvs_append, hqA.2.2.1, hqB.2.2.1]
      · obtain ⟨evs, hq, h⟩ := from_dir_layout_a W dir_begin dir_end mid term sz hps hm ha
        refine ⟨_, _, ?_, ?_, h⟩
        · simp [attempts, hq.1]
        · simp [getenvs, hq.2.2.1]

theorem yields_dir_outcome (W : World) (dir : CStr) (mid : Option CStr) (term : CStr)
    (out : Except Nat unibi_term)
    (h : yields (from_dir W ⟨0, []⟩ dir none mid term) out) : dir_outcome W dir mid term = out := by
  unfold dir_outcome
  generalize from_dir W ⟨0, []⟩ dir none mid term = r at h
  obtain ⟨r1, r2⟩ := r
  cases out with
  | ok u =>
    simp only [yields] at h
    subst h
    rfl
  | error e =>
    obtain ⟨h1, h2⟩ := h
    simp only at h1 h2
    subst h1
    subst h2
    rfl

/-- Frame property of `from_dir`: it appends its own attempt event followed by
events that are no attempt and no `getenv`, and its result is the one
`dir_outcome` names, whatever the incoming state. -/
theorem from_dir_frame (W : World) (dir : CStr) (mid : Option CStr) (term : CStr) :
    ∃ evs : List Event, attempts evs = [] ∧ getenvs evs = [] ∧
      ∀ s : State, (from_dir W s dir none mid term).2.trace
          = s.trace ++ Event.from_dir dir mid term :: evs ∧
        yields (from_dir W s dir none mid term) (dir_outcome W dir mid term) := by
  obtain ⟨evs, out, h1, h2, h⟩ := from_dir_shape W dir none mid term
  refine ⟨evs, h1, h2, ?_⟩
  rw [yields_dir_outcome W dir mid term out (h ⟨0, []⟩).2]
  intro s
  have := h s
  simpa [from_dir_dir_len, strlen] using this

theorem from_dirs_loop_none (W : World) (term : CStr) (fuel : Nat) (a : CStr) (s : State)
    (ut : Option unibi_term) (searched : Bool) (h : a.length ≤ fuel) (hz : strchr a 58 = none) :
    from_dirs_loop W term fuel a s ut searched h =
      if (from_dirs_step W term a s ut searched).1.isSome ∨
          ((from_dirs_step W term a s ut searched).2.1.errno ≠ ENOENT ∧
           (from_dirs_step W term a s ut searched).2.1.errno ≠ EPERM ∧
           (from_dirs_step W term a s ut searched).2.1.errno ≠ EACCES) then
        ((from_dirs_step W term a s ut searched).1, (from_dirs_step W term a s ut searched).2.1)
      else (none, (from_dirs_step W term a s ut searched).2.1.set_errno ENOENT) := by
  cases fuel with
  | zero =>
    rw [from_dirs_loop]
    split
    · rfl
    · split
      · rfl
      · rename_i i hi; rw [hz] at hi; cases hi
  | succ k =>
    rw [from_dirs_loop]
    split
    · rfl
    · split
      · rfl
      · rename_i i hi; rw [hz] at hi; cases hi

theorem from_dirs_loop_some (W : World) (term : CStr) (fuel : Nat) (a : CStr) (s : State)
    (ut : Option unibi_term) (searched : Bool) (h : a.length ≤ fuel) (i : Nat)
    (hz : strchr a 58 = some i) :
    ∃ (k : Nat) (hk : (a.drop (i + 1)).length ≤ k), fuel = k + 1 ∧
    from_dirs_loop W term fuel a s ut searched h =
      if (from_dirs_step W term a s ut searched).1.isSome ∨
          ((from_dirs_step W term a s ut searched).2.1.errno ≠ ENOENT ∧
           (from_dirs_step W term a s ut searched).2.1.errno ≠ EPERM ∧
           (from_dirs_step W term a s ut searched).2.1.errno ≠ EACCES) then
        ((from_dirs_step W term a s ut searched).1, (from_dirs_step W term a s ut searched).2.1)
      else
        from_dirs_loop W term k (a.drop (i + 1)) (from_dirs_step W term a s ut searched).2.1
          (from_dirs_step W term a s ut searched).1 (from_dirs_step W term a s ut searched).2.2 hk := by
  have hlt := strchr_lt a 58 i hz
  cases fuel with
  | zero => omega
  | succ k =>
    refine ⟨k, by simp only [List.length_drop]; omega, rfl, ?_⟩
    rw [from_dirs_loop]
    split
    · rfl
    · split
      · rename_i hi; rw [hz] at hi; cases hi
      · rename_i j hj
        rw [hz] at hj
        cases hj
        rfl

theorem from_dirs_step_entry (W : World) (term : CStr) (a : CStr) (s : State)
    (ut : Option unibi_term) (searched : Bool) (h0 : 0 ∉ a) (e : CStr)
    (he : (strchr a 58 = none ∧ e = a) ∨ (∃ i, strchr a 58 = some i ∧ e = a.take i)) :
    from_dirs_step W term a s ut searched =
      if e ≠ [] then
        ((from_dir W s e none none term).1, (from_dir W s e none none term).2, searched)
      else if ¬ searched then
        ((from_dir W s W.unibi_terminfo none none term).1,
         (from_dir W s W.unibi_terminfo none none term).2, true)
      else (ut, s.set_errno 0, searched) := by
  rcases he with ⟨hz, he⟩ | ⟨i, hz, he⟩
  · subst he
    cases e with
    | nil => simp [from_dirs_step, strchr]
    | cons b bs =>
      have hb : b ≠ 0 := fun hb => h0 (by simp [hb])
      simp [from_dirs_step, hz, hb]
  · subst he
    have hlt := strchr_lt a 58 i hz
    cases a with
    | nil => simp at hlt
    | cons b bs =>
      have hb : b ≠ 0 := fun hb => h0 (by simp [hb])
      by_cases hi : i = 0
      · subst hi
        simp [from_dirs_step, hz]
      · have hne : List.take i (b :: bs) ≠ [] := by
          cases i with
          | zero => exact absurd rfl hi
          | succ j => simp
        simp only [from_dirs_step, hz, ne_eq, Option.some.injEq, hi, not_false_eq_true,
          List.headD_cons, hb, and_self, if_true, hne]
        rw [from_dir_span W s (b :: bs) i none term (Nat.le_of_lt hlt)]

theorem not_mem_drop (a : CStr) (n : Nat) (h : 0 ∉ a) : 0 ∉ a.drop n :=
  fun hm => h (List.mem_of_mem_drop hm)

/-- The events and result of the loop after an attempt on `d`, given those of the rest of the walk. -/
theorem after_attempt_frame (W : World) (term : CStr) (d : CStr) (last : Bool)
    (rest : List CStr × Except Nat unibi_term)
    (run : State → Option unibi_term × State)
    (cont : State → Option unibi_term × State)
    (hrun : ∀ s, run s =
      if (from_dir W s d none none term).1.isSome ∨
          ((from_dir W s d none none term).2.errno ≠ ENOENT ∧
           (from_dir W s d none none term).2.errno ≠ EPERM ∧
           (from_dir W s d none none term).2.errno ≠ EACCES) then
        from_dir W s d none none term
      else if last then (none, (from_dir W s d none none term).2.set_errno ENOENT)
      else cont (from_dir W s d none none term).2)
    (hcont : last = false → ∃ evs, attempts evs = rest.1.map (fun x => (x, none)) ∧ getenvs evs = [] ∧
      ∀ s, (cont s).2.trace = s.trace ++ evs ∧ yields (cont s) rest.2) :
    ∃ evs, attempts evs = (after_attempt (dir_outcome W d none term) d last rest).1.map
          (fun x => (x, none)) ∧ getenvs evs = [] ∧
      ∀ s, (run s).2.trace = s.trace ++ evs ∧
        yields (run s) (after_attempt (dir_outcome W d none term) d last rest).2 := by
  obtain ⟨evs, ha, hg, hf⟩ := from_dir_frame W d none term
  cases ho : dir_outcome W d none term with
  | ok u =>
    refine ⟨Event.from_dir d none term :: evs, by simp [after_attempt, attempts, ha],
      by simp [getenvs, hg], ?_⟩
    intro s
    obtain ⟨h1, h2⟩ := hf s
    rw [ho] at h2
    simp only [yields] at h2
    rw [hrun s]
    simp only [h2, Option.isSome_some, true_or, if_true]
    exact ⟨h1, h2⟩
  | error err =>
    by_cases hs : soft err
    · cases last with
      | true =>
        refine ⟨Event.from_dir d none term :: evs, by simp [after_attempt, attempts, ha, hs],
          by simp [getenvs, hg], ?_⟩
        intro s
        obtain ⟨h1, h2⟩ := hf s
        rw [ho] at h2
        obtain ⟨h21, h22⟩ := h2
        rw [hrun s]
        have hc : ¬ ((from_dir W s d none none term).1.isSome ∨
          ((from_dir W s d none none term).2.errno ≠ ENOENT ∧
           (from_dir W s d none none term).2.errno ≠ EPERM ∧
           (from_dir W s d none none term).2.errno ≠ EACCES)) := by
          rw [h21, h22]
          unfold soft at hs
          simp only [Option.isSome_none, Bool.false_eq_true, false_or]
          omega
        rw [if_neg hc]
        simp only [if_true, after_attempt, hs, State.set_errno]
        exact ⟨h1, rfl, rfl⟩
      | false =>
        obtain ⟨evs2, ha2, hg2, hf2⟩ := hcont rfl
        refine ⟨Event.from_dir d none term :: evs ++ evs2,
          by simp [after_attempt, attempts, attempts_append, ha, ha2, hs],
          by simp [getenvs, getenvs_append, hg, hg2], ?_⟩
        intro s
        obtain ⟨h1, h2⟩ := hf s
        rw [ho] at h2
        obtain ⟨h21, h22⟩ := h2
        rw [hrun s]
        have hc : ¬ ((from_dir W s d none none term).1.isSome ∨
          ((from_dir W s d none none term).2.errno ≠ ENOENT ∧
           (from_dir W s d none none term).2.errno ≠ EPERM ∧
           (from_dir W s d none none term).2.errno ≠ EACCES)) := by
          rw [h21, h22]
          unfold soft at hs
          simp only [Option.isSome_none, Bool.false_eq_true, false_or]
          omega
        rw [if_neg hc]
        simp only [Bool.false_eq_true, if_false, after_attempt, hs, if_true]
        obtain ⟨h3, h4⟩ := hf2 (from_dir W s d none none term).2
        refine ⟨?_, h4⟩
        rw [h3, h1]
        simp
    · refine ⟨Event.from_dir d none term :: evs, by simp [after_attempt, attempts, ha, hs],
        by simp [getenvs, hg], ?_⟩
      intro s
      obtain ⟨h1, h2⟩ := hf s
      rw [ho] at h2
      obtain ⟨h21, h22⟩ := h2
      rw [hrun s]
      have hc : ((from_dir W s d none none term).1.isSome ∨
          ((from_dir W s d none none term).2.errno ≠ ENOENT ∧
           (from_dir W s d none none term).2.errno ≠ EPERM ∧
           (from_dir W s d none none term).2.errno ≠ EACCES)) := by
        rw [h22]
        unfold soft at hs
        right
        omega
      rw [if_pos hc]
      simp only [after_attempt, hs, if_false]
      exact ⟨h1, h21, h22⟩

theorem isSome_false_of_not_or {o : Option unibi_term} {p : Prop} (h : ¬ (o.isSome = true ∨ p)) :
    o = none := by
  cases o with
  | none => rfl
  | some u => exact absurd (Or.inl rfl) h

/-- The loop of `from_dirs` does what `walk_outcome` says on the entries of the rest of the list. -/
theorem from_dirs_loop_walk (W : World) (term : CStr) :
    ∀ (fuel : Nat) (a : CStr) (searched : Bool) (h : a.length ≤ fuel), 0 ∉ a →
      ∃ evs, attempts evs = (walk_outcome W term (entries a) searched).1.map (fun x => (x, none)) ∧
        getenvs evs = [] ∧
        ∀ s, (from_dirs_loop W term fuel a s none searched h).2.trace = s.trace ++ evs ∧
          yields (from_dirs_loop W term fuel a s none searched h)
            (walk_outcome W term (entries a) searched).2 := by
  intro fuel
  induction fuel with
  | zero =>
    intro a searched h h0
    have ha : a = [] := List.length_eq_zero.mp (Nat.le_zero.mp h)
    subst ha
    have hz : strchr ([] : CStr) 58 = none := rfl
    have hent : entries ([] : CStr) = [[]] := rfl
    rw [hent]
    cases searched with
    | false =>
      simp only [walk_outcome, ne_eq, not_true_eq_false, if_false, Bool.false_eq_true,
        not_false_eq_true, if_true, List.isEmpty_nil]
      apply after_attempt_frame W term W.unibi_terminfo true _
        (fun s => from_dirs_loop W term 0 [] s none false h) (fun s => (none, s))
      · intro s
        simp only [from_dirs_loop_none W term 0 [] s none false h hz,
          from_dirs_step_entry W term [] s none false h0 [] (Or.inl ⟨hz, rfl⟩)]
        simp
      · intro hl; cases hl
    | true =>
      refine ⟨[], by simp [walk_outcome, attempts], rfl, ?_⟩
      intro s
      simp only [from_dirs_loop_none W term 0 [] s none true h hz,
        from_dirs_step_entry W term [] s none true h0 [] (Or.inl ⟨hz, rfl⟩)]
      simp [walk_outcome, yields, State.set_errno]
  | succ k ih =>
    intro a searched h h0
    cases hz : strchr a 58 with
    | none =>
      rw [entries_of_strchr_none a hz]
      by_cases hne : a ≠ []
      · simp only [walk_outcome, hne, ne_eq, not_false_eq_true, if_true, List.isEmpty_nil]
        apply after_attempt_frame W term a true _
          (fun s => from_dirs_loop W term (k + 1) a s none searched h) (fun s => (none, s))
        · intro s
          simp only [from_dirs_loop_none W term (k + 1) a s none searched h hz,
            from_dirs_step_entry W term a s none searched h0 a (Or.inl ⟨hz, rfl⟩)]
          simp [hne]
        · intro hl; cases hl
      · cases searched with
        | false =>
          simp only [walk_outcome, hne, if_false, Bool.false_eq_true,
            not_false_eq_true, if_true, List.isEmpty_nil]
          apply after_attempt_frame W term W.unibi_terminfo true _
            (fun s => from_dirs_loop W term (k + 1) a s none false h) (fun s => (none, s))
          · intro s
            simp only [from_dirs_loop_none W term (k + 1) a s none false h hz,
              from_dirs_step_entry W term a s none false h0 a (Or.inl ⟨hz, rfl⟩)]
            simp [hne]
          · intro hl; cases hl
        | true =>
          refine ⟨[], by simp [walk_outcome, hne, attempts], rfl, ?_⟩
          intro s
          simp only [from_dirs_loop_none W term (k + 1) a s none true h hz,
            from_dirs_step_entry W term a s none true h0 a (Or.inl ⟨hz, rfl⟩)]
          simp [walk_outcome, yields, State.set_errno, hne]
    | some i =>
      rw [entries_of_strchr_some a i hz]
      have hlt := strchr_lt a 58 i hz
      have hk : (a.drop (i + 1)).length ≤ k := by simp only [List.length_drop]; omega
      have hloop : ∀ s, from_dirs_loop W term (k + 1) a s none searched h =
          if (from_dirs_step W term a s none searched).1.isSome ∨
              ((from_dirs_step W term a s none searched).2.1.errno ≠ ENOENT ∧
               (from_dirs_step W term a s none searched).2.1.errno ≠ EPERM ∧
               (from_dirs_step W term a s none searched).2.1.errno ≠ EACCES) then
            ((from_dirs_step W term a s none searched).1, (from_dirs_step W term a s none searched).2.1)
          else
            from_dirs_loop W term k (a.drop (i + 1)) (from_dirs_step W term a s none searched).2.1
              (from_dirs_step W term a s none searched).1
              (from_dirs_step W term a s none searched).2.2 hk := by
        intro s
        obtain ⟨k', hk', hkk, heq⟩ := from_dirs_loop_some W term (k + 1) a s none searched h i hz
        have : k' = k := by omega
        subst this
        exact heq
      have hes : (entries (a.drop (i + 1))).isEmpty = false := by
        cases hx : entries (a.drop (i + 1)) with
        | nil => exact absurd hx (entries_ne_nil _)
        | cons x xs => rfl
      by_cases hne : a.take i ≠ []
      · simp only [walk_outcome, hne, ne_eq, not_false_eq_true, if_true, hes]
        apply after_attempt_frame W term (a.take i) false _
          (fun s => from_dirs_loop W term (k + 1) a s none searched h)
          (fun s => from_dirs_loop W term k (a.drop (i + 1)) s none searched hk)
        · intro s
          simp only [hloop s,
            from_dirs_step_entry W term a s none searched h0 (a.take i) (Or.inr ⟨i, hz, rfl⟩)]
          simp only [hne, ne_eq, not_false_eq_true, if_true, Bool.false_eq_true, if_false]
          split
          · rfl
          · rename_i hc
            rw [isSome_false_of_not_or hc]
        · intro _
          exact ih (a.drop (i + 1)) searched hk (not_mem_drop a _ h0)
      · cases searched with
        | false =>
          simp only [walk_outcome, hne, if_false, Bool.false_eq_true,
            not_false_eq_true, if_true, hes]
          apply after_attempt_frame W term W.unibi_terminfo false _
            (fun s => from_dirs_loop W term (k + 1) a s none false h)
            (fun s => from_dirs_loop W term k (a.drop (i + 1)) s none true hk)
          · intro s
            simp only [hloop s,
              from_dirs_step_entry W term a s none false h0 (a.take i) (Or.inr ⟨i, hz, rfl⟩)]
            simp only [hne, if_false, Bool.false_eq_true, not_false_eq_true, if_true]
            split
            · rfl
            · rename_i hc
              rw [isSome_false_of_not_or hc]
          · intro _
            exact ih (a.drop (i + 1)) true hk (not_mem_drop a _ h0)
        | true =>
          refine ⟨[], by simp [walk_outcome, hne, attempts], rfl, ?_⟩
          intro s
          simp only [hloop s,
            from_dirs_step_entry W term a s none true h0 (a.take i) (Or.inr ⟨i, hz, rfl⟩)]
          simp [walk_outcome, yields, State.set_errno, hne]

theorem from_dirs_walk (W : World) (term : CStr) (list : CStr) (h0 : 0 ∉ list) :
    ∃ evs, attempts evs = (from_dirs_outcome W term list).1.map (fun x => (x, none)) ∧
      getenvs evs = [] ∧
      ∀ s, (from_dirs W s list term).2.trace = s.trace ++ evs ∧
        yields (from_dirs W s list term) (from_dirs_outcome W term list).2 := by
  by_cases hl : list.headD 0 = 0
  · refine ⟨[], by simp only [from_dirs_outcome, if_pos hl]; rfl, rfl, ?_⟩
    intro s
    simp only [from_dirs, from_dirs_outcome, if_pos hl, yields, State.set_errno,
      List.append_nil, and_self]
  · obtain ⟨evs, h1, h2, h3⟩ := from_dirs_loop_walk W term list.length list
      (decide (W.unibi_terminfo.headD 0 = 0)) (Nat.le_refl _) h0
    refine ⟨evs, by simp only [from_dirs_outcome, if_neg hl]; exact h1, h2, ?_⟩
    intro s
    simp only [from_dirs, from_dirs_outcome, if_neg hl]
    exact h3 s

theorem after_attempt_sound (W : World) (term : CStr) (d : CStr) (last : Bool)
    (rest : List CStr × Except Nat unibi_term) (h : walk_sound W term rest.1 rest.2) :
    walk_sound W term (after_attempt (dir_outcome W d none term) d last rest).1
      (after_attempt (dir_outcome W d none term) d last rest).2 := by
  obtain ⟨q1, q2, q3, q4, q5⟩ := h
  cases ho : dir_outcome W d none term with
  | ok u =>
    simp only [after_attempt]
    refine ⟨by simp, ?_, ?_, ?_, ?_⟩
    · intro d' u' hd hu
      simp at hd; subst hd
      rw [ho] at hu; exact hu
    · intro d' e hd he
      simp at hd; subst hd
      rw [ho] at he; cases he
    · intro u' hu
      exact ⟨d, by simp, by rw [ho]; exact hu⟩
    · intro e he; cases he
  | error err =>
    by_cases hs : soft err
    · cases last with
      | true =>
        simp only [after_attempt, hs, if_true]
        refine ⟨by simp, ?_, ?_, ?_, ?_⟩
        · intro d' u' hd hu
          simp at hd; subst hd
          rw [ho] at hu; cases hu
        · intro d' e hd he hns
          simp at hd; subst hd
          rw [ho] at he; cases he
          exact absurd hs hns
        · intro u' hu; cases hu
        · intro e he; cases he
          exact Or.inl rfl
      | false =>
        simp only [after_attempt, hs, if_true, Bool.false_eq_true, if_false]
        cases hr : rest.1 with
        | nil =>
          rw [hr] at q4 q5
          refine ⟨by simp, ?_, ?_, ?_, ?_⟩
          · intro d' u' hd hu
            simp at hd; subst hd
            rw [ho] at hu; cases hu
          · intro d' e hd he hns
            simp at hd; subst hd
            rw [ho] at he; cases he
            exact absurd hs hns
          · intro u' hu
            obtain ⟨d', hd', _⟩ := q4 u' hu
            simp at hd'
          · intro e he
            rcases q5 e he with h1 | h1 | ⟨_, d', hd', _⟩
            · exact Or.inl h1
            · exact Or.inr (Or.inl h1)
            · simp at hd'
        | cons y ys =>
          rw [hr] at q1 q2 q3 q4 q5
          have hlast : (d :: y :: ys).getLast? = (y :: ys).getLast? := by
            simp [List.getLast?_cons_cons]
          refine ⟨?_, ?_, ?_, ?_, ?_⟩
          · intro d' hd'
            rw [List.dropLast_cons_of_ne_nil (by simp)] at hd'
            rcases List.mem_cons.mp hd' with h1 | h1
            · subst h1; exact ⟨err, ho, hs⟩
            · exact q1 d' h1
          · intro d' u' hd; rw [hlast] at hd; exact q2 d' u' hd
          · intro d' e hd; rw [hlast] at hd; exact q3 d' e hd
          · intro u' hu; rw [hlast]; exact q4 u' hu
          · intro e he; rw [hlast]; exact q5 e he
    · simp only [after_attempt, hs, if_false]
      refine ⟨by simp, ?_, ?_, ?_, ?_⟩
      · intro d' u' hd hu
        simp at hd; subst hd
        rw [ho] at hu; cases hu
      · intro d' e hd he hns
        simp at hd; subst hd
        rw [ho] at he; exact he
      · intro u' hu; cases hu
      · intro e he; cases he
        exact Or.inr (Or.inr ⟨hs, d, by simp, ho⟩)

theorem walk_outcome_sound (W : World) (term : CStr) :
    ∀ (es : List CStr) (flag : Bool),
      walk_sound W term (walk_outcome W term es flag).1 (walk_outcome W term es flag).2 := by
  intro es
  induction es with
  | nil =>
    intro flag
    simp only [walk_outcome]
    refine ⟨by simp, by simp, by simp, ?_, ?_⟩
    · intro u hu; cases hu
    · intro e he; cases he; exact Or.inl rfl
  | cons e es ih =>
    intro flag
    simp only [walk_outcome]
    split
    · exact after_attempt_sound W term e _ _ (ih flag)
    · split
      · exact after_attempt_sound W term _ _ _ (ih true)
      · refine ⟨by simp, by simp, by simp, ?_, ?_⟩
        · intro u hu; cases hu
        · intro e he; cases he; exact Or.inr (Or.inl rfl)

theorem from_dirs_outcome_sound (W : World) (term : CStr) (list : CStr) :
    walk_sound W term (from_dirs_outcome W term list).1 (from_dirs_outcome W term list).2 := by
  unfold from_dirs_outcome
  split
  · refine ⟨by simp, by simp, by simp, ?_, ?_⟩
    · intro u hu; cases hu
    · intro e he; cases he; exact Or.inl rfl
  · exact walk_outcome_sound W term _ _

theorem strchr_isSome_of_mem (a : CStr) (c : Nat) (h : c ∈ a) : (strchr a c).isSome = true := by
  induction a with
  | nil => simp at h
  | cons b bs ih =>
    simp only [strchr]
    split
    · rfl
    · rename_i hb
      rcases List.mem_cons.mp h with h1 | h1
      · exact absurd h1.symm hb
      · have := ih h1
        cases hs : strchr bs c with
        | none => rw [hs] at this; cases this
        | some j => rfl

/-- C1: a name that is empty, starts with `.` or contains `/` makes
`unibi_from_term` return no record with `errno = EINVAL`, and the ghost trace is
left exactly as it was: no `getenv`, no Path Builder attempt, no `malloc` and no
`open` happens, whatever the world and the incoming state are. -/
theorem unibi_from_term_rejects_invalid_name (W : World) (s : State) (term : CStr)
    (h : term = [] ∨ term.head? = some 46 ∨ 47 ∈ term) :
    unibi_from_term W s term = (none, { errno := EINVAL, trace := s.trace }) := by
  have hc : term.headD 0 = 0 ∨ term.headD 0 = 46 ∨ (strchr term 47).isSome = true := by
    rcases h with h | h | h
    · subst h; exact Or.inl rfl
    · cases term with
      | nil => simp at h
      | cons b bs =>
        simp at h
        subst h
        exact Or.inr (Or.inl rfl)
    · exact Or.inr (Or.inr (strchr_isSome_of_mem term 47 h))
  unfold unibi_from_term
  rw [if_pos hc]
  rfl

/-- Witness of C1: the name `a/b` in a world where `TERMINFO` is set and the entry exists. -/
theorem unibi_from_term_rejects_invalid_name_witness :
    47 ∈ cstr "a/b" ∧
    unibi_from_term
      (example_world 64 [(cstr "/t/a/a/b", 1)] [] [(cstr "TERMINFO", cstr "/t")] (cstr "/d") (cstr "/l"))
      { errno := 0, trace := [] } (cstr "a/b")
      = (none, { errno := EINVAL, trace := [] }) :=
  ⟨by decide, unibi_from_term_rejects_invalid_name _ _ _ (Or.inr (Or.inr (by decide)))⟩

/-- C6: on the empty list `from_dirs` returns no record with `errno = ENOENT` and
leaves the ghost trace as it was, so it makes no Path Builder attempt at all,
for every name and every compiled-in fallback directory. -/
theorem from_dirs_empty_list (W : World) (s : State) (term : CStr) :
    from_dirs W s [] term = (none, { errno := ENOENT, trace := s.trace }) := by
  rfl

theorem mid_len_eq (w : Nat) (mid : Option CStr) (hm : ∀ m, mid = some m → m.length + 1 < 2 ^ w) :
    from_dir_mid_len w mid = (mid_segment mid).length := by
  cases mid with
  | none => rfl
  | some m =>
    simp only [from_dir_mid_len, strlen, mid_segment, List.length_append, List.length_singleton]
    exact Nat.mod_eq_of_lt (hm m rfl)

/-- The events of `from_dir` once the size computation has succeeded: the
attempt, the `malloc` of that size, and then no further `malloc`. -/
theorem from_dir_trace_malloc (W : World) (s : State) (dir_begin : CStr) (dir_end : Option Nat)
    (mid : Option CStr) (term : CStr) (sz : Nat)
    (hps : from_dir_path_size W.size_bits (from_dir_dir_len dir_begin dir_end)
      (from_dir_mid_len W.size_bits mid) (strlen term) = some sz) :
    ∃ evs, (from_dir W s dir_begin dir_end mid term).2.trace = s.trace ++
        Event.from_dir (dir_begin.take (from_dir_dir_len dir_begin dir_end)) mid term
          :: Event.malloc sz :: evs ∧ mallocs evs = [] := by
  cases hm : W.malloc sz with
  | false =>
    refine ⟨[], ?_, rfl⟩
    rw [from_dir_malloc_fail W dir_begin dir_end mid term sz hps hm s]
  | true =>
    by_cases ha : load W (c_str (from_dir_path_a W sz dir_begin dir_end mid term))
        = Except.error ENOENT
    · obtain ⟨evsA, evsB, hqA, hqB, h⟩ :=
        from_dir_layout_b W dir_begin dir_end mid term sz hps hm ha
      refine ⟨_, (h s).1, ?_⟩
      simp [mallocs, mallocs_append, hqA.2.2.2, hqB.2.2.2]
    · obtain ⟨evs, hq, h⟩ := from_dir_layout_a W dir_begin dir_end mid term sz hps hm ha
      refine ⟨_, (h s).1, ?_⟩
      simp [mallocs, hq.2.2.2]

/-- C5: with `dl`, `ml`, `tl` the directory, middle (0 or `strlen(mid) + 1`) and
name lengths, the size computation of `from_dir` overflows exactly when
`dl + ml + tl + 5` exceeds `SIZE_MAX = 2 ^ size_bits - 1` and otherwise yields
exactly that sum; on overflow `from_dir` fails with `ENOMEM` and its only event
is the attempt itself (no `malloc`, no `open`), and without overflow it calls
`malloc` with exactly `dl + ml + tl + 5`. -/
theorem from_dir_size_overflow (W : World) (s : State) (dir_begin : CStr) (dir_end : Option Nat)
    (mid : Option CStr) (term : CStr)
    (hw : 5 < 2 ^ W.size_bits)
    (hd : from_dir_dir_len dir_begin dir_end < 2 ^ W.size_bits)
    (hm : ∀ m, mid = some m → m.length + 1 < 2 ^ W.size_bits)
    (ht : term.length < 2 ^ W.size_bits) :
    (∀ dl ml tl, dl < 2 ^ W.size_bits → ml < 2 ^ W.size_bits → tl < 2 ^ W.size_bits →
      (from_dir_path_size W.size_bits dl ml tl = none ↔ 2 ^ W.size_bits - 1 < dl + ml + tl + 5) ∧
      (dl + ml + tl + 5 ≤ 2 ^ W.size_bits - 1 →
        from_dir_path_size W.size_bits dl ml tl = some (dl + ml + tl + 5))) ∧
    (2 ^ W.size_bits - 1
        < from_dir_dir_len dir_begin dir_end + (mid_segment mid).length + term.length + 5 →
      from_dir W s dir_begin dir_end mid term =
        (none, { errno := ENOMEM, trace := s.trace ++
          [Event.from_dir (dir_begin.take (from_dir_dir_len dir_begin dir_end)) mid term] })) ∧
    (from_dir_dir_len dir_begin dir_end + (mid_segment mid).length + term.length + 5
        ≤ 2 ^ W.size_bits - 1 →
      ∃ evs, (from_dir W s dir_begin dir_end mid term).2.trace = s.trace ++
        Event.from_dir (dir_begin.take (from_dir_dir_len dir_begin dir_end)) mid term
          :: Event.malloc
              (from_dir_dir_len dir_begin dir_end + (mid_segment mid).length + term.length + 5)
          :: evs ∧ mallocs evs = []) := by
  have hml := mid_len_eq W.size_bits mid hm
  have hmlt : from_dir_mid_len W.size_bits mid < 2 ^ W.size_bits := by
    cases mid with
    | none => simp only [from_dir_mid_len]; omega
    | some m => exact Nat.mod_lt _ (by omega)
  refine ⟨?_, ?_, ?_⟩
  · intro dl ml tl h1 h2 h3
    rw [from_dir_path_size_eq W.size_bits dl ml tl hw h1 h2 h3]
    constructor
    · constructor
      · intro h
        split at h
        · cases h
        · omega
      · intro h
        rw [if_neg (by omega)]
    · intro h
      rw [if_pos (by omega)]
  · intro hov
    apply from_dir_overflow
    rw [from_dir_path_size_eq W.size_bits _ _ (strlen term) hw hd hmlt ht, hml]
    simp only [strlen]
    rw [if_neg (by omega)]
  · intro hfit
    apply from_dir_trace_malloc
    rw [from_dir_path_size_eq W.size_bits _ _ (strlen term) hw hd hmlt ht, hml]
    simp only [strlen]
    rw [if_pos (by omega)]

/-- Witness of C5: a 4-bit `size_t`, where a 9-byte directory and a 5-byte name overflow. -/
theorem from_dir_size_overflow_witness :
    from_dir (example_world 4 [] [] [] (cstr "/d") (cstr "/l")) { errno := 0, trace := [] }
        (cstr "/abcdefgh") none none (cstr "xterm")
      = (none, { errno := ENOMEM, trace := [] ++
          [Event.from_dir ((cstr "/abcdefgh").take (from_dir_dir_len (cstr "/abcdefgh") none))
            none (cstr "xterm")] }) :=
  (from_dir_size_overflow (example_world 4 [] [] [] (cstr "/d") (cstr "/l"))
    { errno := 0, trace := [] } (cstr "/abcdefgh") none none (cstr "xterm")
    (by decide) (by decide) (by intro m hm; cases hm) (by decide)).2.1 (by decide)

theorem not_mem_append_nz {xs ys : List Nat} (hx : 0 ∉ xs) (hy : 0 ∉ ys) : 0 ∉ xs ++ ys := by
  intro h
  rcases List.mem_append.mp h with h | h
  · exact hx h
  · exact hy h

theorem mid_segment_nonzero (mid : Option CStr) (hm : ∀ m, mid = some m → 0 ∉ m) :
    0 ∉ mid_segment mid := by
  cases mid with
  | none => simp [mid_segment]
  | some m =>
    have := hm m rfl
    simp only [mid_segment]
    exact not_mem_append_nz this (by simp)

/-- C3: for a directory span `d`, a middle segment `mid` and a non-empty name
`c :: cs` (all free of NUL bytes), the string in `path` after the first
`sprintf` is `d ++ "/" ++ (mid ++ "/")? ++ [c] ++ "/" ++ name`, and after the
second `sprintf` it is `d ++ "/" ++ (mid ++ "/")? ++ h ++ "/" ++ name` with `h`
the two lowercase hexadecimal digits of the byte `c % 256`; these are the paths
`from_dir` hands to `open`, in this order; `%02x` of a byte always prints two
digits and prints `78` for `0x78`; both paths share the prefix `d ++ "/" ++ (mid ++ "/")?`. -/
theorem from_dir_paths (W : World) (s : State) (dir_begin : CStr) (dir_end : Option Nat)
    (mid : Option CStr) (c : Nat) (cs : CStr) (sz : Nat)
    (hspan : from_dir_dir_len dir_begin dir_end ≤ dir_begin.length)
    (hd : 0 ∉ dir_begin.take (from_dir_dir_len dir_begin dir_end))
    (hm : ∀ m, mid = some m → 0 ∉ m ∧ m.length + 1 < 2 ^ W.size_bits)
    (ht : 0 ∉ c :: cs)
    (hps : from_dir_path_size W.size_bits (from_dir_dir_len dir_begin dir_end)
      (from_dir_mid_len W.size_bits mid) (strlen (c :: cs)) = some sz)
    (hmalloc : W.malloc sz = true) :
    c_str (from_dir_path_a W sz dir_begin dir_end mid (c :: cs))
      = dir_begin.take (from_dir_dir_len dir_begin dir_end) ++ [47] ++ mid_segment mid
          ++ [c] ++ [47] ++ (c :: cs) ∧
    c_str (from_dir_path_b W sz dir_begin dir_end mid (c :: cs))
      = dir_begin.take (from_dir_dir_len dir_begin dir_end) ++ [47] ++ mid_segment mid
          ++ hex2 (c % 256) ++ [47] ++ (c :: cs) ∧
    (∃ evs, (from_dir W s dir_begin dir_end mid (c :: cs)).2.trace = s.trace ++ evs ∧
      (opens evs = [dir_begin.take (from_dir_dir_len dir_begin dir_end) ++ [47] ++ mid_segment mid
          ++ [c] ++ [47] ++ (c :: cs)] ∨
       opens evs = [dir_begin.take (from_dir_dir_len dir_begin dir_end) ++ [47] ++ mid_segment mid
          ++ [c] ++ [47] ++ (c :: cs),
        dir_begin.take (from_dir_dir_len dir_begin dir_end) ++ [47] ++ mid_segment mid
          ++ hex2 (c % 256) ++ [47] ++ (c :: cs)])) ∧
    fmt_02x ((c % 256) &&& 0xff) = hex2 (c % 256) ∧
    (fmt_02x ((c % 256) &&& 0xff)).length = 2 ∧
    fmt_02x ((0x78 % 256) &&& 0xff) = cstr "78" ∧
    (c_str (from_dir_path_b W sz dir_begin dir_end mid (c :: cs))).take
        (from_dir_dir_len dir_begin dir_end + 1 + (mid_segment mid).length)
      = (c_str (from_dir_path_a W sz dir_begin dir_end mid (c :: cs))).take
        (from_dir_dir_len dir_begin dir_end + 1 + (mid_segment mid).length) := by
  have hc : c ≠ 0 := fun h => ht (by simp [h])
  have hmid := mid_segment_nonzero mid (fun m h => (hm m h).1)
  have hpa : c_str (from_dir_path_a W sz dir_begin dir_end mid (c :: cs))
      = dir_begin.take (from_dir_dir_len dir_begin dir_end) ++ [47] ++ mid_segment mid
          ++ [c] ++ [47] ++ (c :: cs) := by
    obtain ⟨rest, h⟩ := from_dir_path_a_eq W sz dir_begin dir_end mid (c :: cs) hspan
    rw [h, c_str_append_nul]
    · simp [List.append_assoc]
    · refine not_mem_append_nz (not_mem_append_nz (not_mem_append_nz hd (by simp)) hmid) ?_
      refine not_mem_append_nz (not_mem_append_nz ?_ (by simp)) ht
      simpa using fun h => hc h.symm
  have hpb : c_str (from_dir_path_b W sz dir_begin dir_end mid (c :: cs))
      = dir_begin.take (from_dir_dir_len dir_begin dir_end) ++ [47] ++ mid_segment mid
          ++ hex2 (c % 256) ++ [47] ++ (c :: cs) := by
    obtain ⟨rest, h⟩ := from_dir_path_b_eq W sz dir_begin dir_end mid (c :: cs) hspan
      (fun m h => (hm m h).2)
    rw [h, c_str_append_nul]
    · simp [List.append_assoc]
    · refine not_mem_append_nz (not_mem_append_nz (not_mem_append_nz hd (by simp)) hmid) ?_
      exact not_mem_append_nz (not_mem_append_nz (hex2_nonzero _) (by simp)) ht
  have hlen : (dir_begin.take (from_dir_dir_len dir_begin dir_end)).length
      = from_dir_dir_len dir_begin dir_end := by
    rw [List.length_take]; omega
  have hfmt := fmt_02x_byte (c % 256) (Nat.mod_lt _ (by decide))
  refine ⟨hpa, hpb, ?_, hfmt, by rw [hfmt]; rfl, by decide, ?_⟩
  · by_cases ha : load W (c_str (from_dir_path_a W sz dir_begin dir_end mid (c :: cs)))
        = Except.error ENOENT
    · obtain ⟨evsA, evsB, hqA, hqB, h⟩ :=
        from_dir_layout_b W dir_begin dir_end mid (c :: cs) sz hps hmalloc ha
      refine ⟨_, (h s).1, Or.inr ?_⟩
      simp [opens, opens_append, hqA.2.1, hqB.2.1, hpa, hpb]
    · obtain ⟨evs, hq, h⟩ := from_dir_layout_a W dir_begin dir_end mid (c :: cs) sz hps hmalloc ha
      refine ⟨_, (h s).1, Or.inl ?_⟩
      simp [opens, hq.2.1, hpa]
  · have hl : from_dir_dir_len dir_begin dir_end + 1 + (mid_segment mid).length
        = (dir_begin.take (from_dir_dir_len dir_begin dir_end) ++ [47] ++ mid_segment mid).length := by
      simp only [List.length_append, hlen, List.length_singleton]
    have hA : dir_begin.take (from_dir_dir_len dir_begin dir_end) ++ [47] ++ mid_segment mid
          ++ [c] ++ [47] ++ (c :: cs)
        = (dir_begin.take (from_dir_dir_len dir_begin dir_end) ++ [47] ++ mid_segment mid)
          ++ ([c] ++ [47] ++ (c :: cs)) := by
      simp only [List.append_assoc]
    have hB : dir_begin.take (from_dir_dir_len dir_begin dir_end) ++ [47] ++ mid_segment mid
          ++ hex2 (c % 256) ++ [47] ++ (c :: cs)
        = (dir_begin.take (from_dir_dir_len dir_begin dir_end) ++ [47] ++ mid_segment mid)
          ++ (hex2 (c % 256) ++ [47] ++ (c :: cs)) := by
      simp only [List.append_assoc]
    rw [hpa, hpb, hl, hA, hB, List.take_left' rfl, List.take_left' rfl]

/-- Witness of C3: `HOME=/home/u`, middle segment `.terminfo`, name `xterm`. -/
theorem from_dir_paths_witness :
    c_str (from_dir_path_a (example_world 64 [] [] [] (cstr "/d") (cstr "/l")) 27
        (cstr "/home/u") none (some (cstr ".terminfo")) (cstr "xterm"))
      = cstr "/home/u/.terminfo/x/xterm" ∧
    c_str (from_dir_path_b (example_world 64 [] [] [] (cstr "/d") (cstr "/l")) 27
        (cstr "/home/u") none (some (cstr ".terminfo")) (cstr "xterm"))
      = cstr "/home/u/.terminfo/78/xterm" :=
  have h := from_dir_paths (example_world 64 [] [] [] (cstr "/d") (cstr "/l"))
    { errno := 0, trace := [] } (cstr "/home/u") none (some (cstr ".terminfo")) 120 (cstr "term") 27
    (by decide) (by decide) (by intro m hm; cases hm; exact ⟨by decide, by decide⟩)
    (by decide) (by decide) rfl
  ⟨h.1, h.2.1⟩

/-- C4: `from_dir` either makes no `open` at all (size overflow or failed
`malloc`, reported as `ENOMEM`), or opens the layout-A path only, when that
attempt did not fail with `ENOENT`, or opens the layout-A path and then the
layout-B path, when the layout-A attempt failed with `ENOENT`; its result is
that of the last attempt made, so it reports `ENOENT` only if both attempts
failed with `ENOENT`.  Scenarios with name `xterm`: with `/D/x/xterm` present
only layout A is opened; with only `/D/78/xterm` present layout B delivers the
record; with `EACCES` on `/D/x/xterm` layout B is not opened and `EACCES` is returned. -/
theorem from_dir_layout_retry (W : World) (s : State) (dir_begin : CStr) (dir_end : Option Nat)
    (mid : Option CStr) (term : CStr) :
    (∃ evs, (from_dir W s dir_begin dir_end mid term).2.trace = s.trace ++ evs ∧
      ((opens evs = [] ∧ (from_dir W s dir_begin dir_end mid term).1 = none ∧
          (from_dir W s dir_begin dir_end mid term).2.errno = ENOMEM) ∨
       (∃ sz, from_dir_path_size W.size_bits (from_dir_dir_len dir_begin dir_end)
            (from_dir_mid_len W.size_bits mid) (strlen term) = some sz ∧ W.malloc sz = true ∧
          ((load W (c_str (from_dir_path_a W sz dir_begin dir_end mid term)) ≠ Except.error ENOENT ∧
            opens evs = [c_str (from_dir_path_a W sz dir_begin dir_end mid term)] ∧
            yields (from_dir W s dir_begin dir_end mid term)
              (load W (c_str (from_dir_path_a W sz dir_begin dir_end mid term)))) ∨
           (load W (c_str (from_dir_path_a W sz dir_begin dir_end mid term)) = Except.error ENOENT ∧
            opens evs = [c_str (from_dir_path_a W sz dir_begin dir_end mid term),
                         c_str (from_dir_path_b W sz dir_begin dir_end mid term)] ∧
            yields (from_dir W s dir_begin dir_end mid term)
              (load W (c_str (from_dir_path_b W sz dir_begin dir_end mid term))))))) ∧
      ((from_dir W s dir_begin dir_end mid term).1 = none ∧
          (from_dir W s dir_begin dir_end mid term).2.errno = ENOENT →
        ∃ sz, opens evs = [c_str (from_dir_path_a W sz dir_begin dir_end mid term),
                           c_str (from_dir_path_b W sz dir_begin dir_end mid term)] ∧
          load W (c_str (from_dir_path_a W sz dir_begin dir_end mid term)) = Except.error ENOENT ∧
          load W (c_str (from_dir_path_b W sz dir_begin dir_end mid term)) = Except.error ENOENT)) ∧
    (opens (from_dir (example_world 64 [(cstr "/D/x/xterm", 1)] [] [] (cstr "/d") (cstr "/l"))
        { errno := 0, trace := [] } (cstr "/D") none none (cstr "xterm")).2.trace
        = [cstr "/D/x/xterm"] ∧
     (from_dir (example_world 64 [(cstr "/D/x/xterm", 1)] [] [] (cstr "/d") (cstr "/l"))
        { errno := 0, trace := [] } (cstr "/D") none none (cstr "xterm")).1 = some ⟨1⟩) ∧
    (opens (from_dir (example_world 64 [(cstr "/D/78/xterm", 2)] [] [] (cstr "/d") (cstr "/l"))
        { errno := 0, trace := [] } (cstr "/D") none none (cstr "xterm")).2.trace
        = [cstr "/D/x/xterm", cstr "/D/78/xterm"] ∧
     (from_dir (example_world 64 [(cstr "/D/78/xterm", 2)] [] [] (cstr "/d") (cstr "/l"))
        { errno := 0, trace := [] } (cstr "/D") none none (cstr "xterm")).1 = some ⟨2⟩) ∧
    (opens (from_dir (example_world 64 [(cstr "/D/78/xterm", 2)] [cstr "/D/x/xterm"] []
          (cstr "/d") (cstr "/l"))
        { errno := 0, trace := [] } (cstr "/D") none none (cstr "xterm")).2.trace
        = [cstr "/D/x/xterm"] ∧
     (from_dir (example_world 64 [(cstr "/D/78/xterm", 2)] [cstr "/D/x/xterm"] []
          (cstr "/d") (cstr "/l"))
        { errno := 0, trace := [] } (cstr "/D") none none (cstr "xterm")).1 = none ∧
     (from_dir (example_world 64 [(cstr "/D/78/xterm", 2)] [cstr "/D/x/xterm"] []
          (cstr "/d") (cstr "/l"))
        { errno := 0, trace := [] } (cstr "/D") none none (cstr "xterm")).2.errno = EACCES) := by
  refine ⟨?_, by decide, by decide, by decide⟩
  cases hps : from_dir_path_size W.size_bits (from_dir_dir_len dir_begin dir_end)
      (from_dir_mid_len W.size_bits mid) (strlen term) with
  | none =>
    refine ⟨_, by rw [from_dir_overflow W dir_begin dir_end mid term hps s], Or.inl ?_, ?_⟩
    · rw [from_dir_overflow W dir_begin dir_end mid term hps s]
      exact ⟨rfl, rfl, rfl⟩
    · rw [from_dir_overflow W dir_begin dir_end mid term hps s]
      intro h
      have h2 := h.2
      simp at h2
  | some sz =>
    cases hm : W.malloc sz with
    | false =>
      refine ⟨_, by rw [from_dir_malloc_fail W dir_begin dir_end mid term sz hps hm s],
        Or.inl ?_, ?_⟩
      · rw [from_dir_malloc_fail W dir_begin dir_end mid term sz hps hm s]
        exact ⟨rfl, rfl, rfl⟩
      · rw [from_dir_malloc_fail W dir_begin dir_end mid term sz hps hm s]
        intro h
        have h2 := h.2
        simp at h2
    | true =>
      by_cases ha : load W (c_str (from_dir_path_a W sz dir_begin dir_end mid term))
          = Except.error ENOENT
      · obtain ⟨evsA, evsB, hqA, hqB, h⟩ :=
          from_dir_layout_b W dir_begin dir_end mid term sz hps hm ha
        have hop : opens (Event.from_dir (dir_begin.take (from_dir_dir_len dir_begin dir_end)) mid term
            :: Event.malloc sz
            :: Event.sys_open (c_str (from_dir_path_a W sz dir_begin dir_end mid term)) :: evsA
            ++ Event.sys_open (c_str (from_dir_path_b W sz dir_begin dir_end mid term)) :: evsB)
            = [c_str (from_dir_path_a W sz dir_begin dir_end mid term),
               c_str (from_dir_path_b W sz dir_begin dir_end mid term)] := by
          simp [opens, opens_append, hqA.2.1, hqB.2.1]
        refine ⟨_, (h s).1, Or.inr ⟨sz, rfl, hm, Or.inr ⟨ha, hop, (h s).2⟩⟩, ?_⟩
        intro ⟨h1, h2⟩
        refine ⟨sz, hop, ha, ?_⟩
        have hy := (h s).2
        cases hl : load W (c_str (from_dir_path_b W sz dir_begin dir_end mid term)) with
        | ok u =>
          rw [hl] at hy
          simp only [yields] at hy
          rw [hy] at h1
          cases h1
        | error e =>
          rw [hl] at hy
          rw [← hy.2, h2]
      · obtain ⟨evs, hq, h⟩ := from_dir_layout_a W dir_begin dir_end mid term sz hps hm ha
        have hop : opens (Event.from_dir (dir_begin.take (from_dir_dir_len dir_begin dir_end)) mid term
            :: Event.malloc sz
            :: Event.sys_open (c_str (from_dir_path_a W sz dir_begin dir_end mid term)) :: evs)
            = [c_str (from_dir_path_a W sz dir_begin dir_end mid term)] := by
          simp [opens, hq.2.1]
        refine ⟨_, (h s).1, Or.inr ⟨sz, rfl, hm, Or.inl ⟨ha, hop, (h s).2⟩⟩, ?_⟩
        intro ⟨h1, h2⟩
        exfalso
        have hy := (h s).2
        cases hl : load W (c_str (from_dir_path_a W sz dir_begin dir_end mid term)) with
        | ok u =>
          rw [hl] at hy
          simp only [yields] at hy
          rw [hy] at h1
          cases h1
        | error e =>
          rw [hl] at hy
          apply ha
          rw [hl, ← hy.2, h2]

theorem candidates_true (d0 : CStr) (es : List CStr) :
    candidates d0 true es = es.filter (fun e => !e.isEmpty) := by
  induction es with
  | nil => rfl
  | cons e es ih =>
    cases e with
    | nil => simp [candidates, ih]
    | cons b bs => simp [candidates, ih]

theorem candidates_false (d0 : CStr) (es : List CStr) :
    candidates d0 false es
      = es.takeWhile (fun e => !e.isEmpty) ++ (if [] ∈ es then [d0] else [])
          ++ (es.dropWhile (fun e => !e.isEmpty)).filter (fun e => !e.isEmpty) := by
  induction es with
  | nil => rfl
  | cons e es ih =>
    cases e with
    | nil => simp [candidates, candidates_true]
    | cons b bs =>
      simp only [candidates, ne_eq, not_false_eq_true, if_true, ih, reduceCtorEq]
      simp [List.takeWhile, List.dropWhile]

theorem after_attempt_initial (o : Except Nat unibi_term) (d : CStr) (last : Bool)
    (rest : List CStr × Except Nat unibi_term) (c : List CStr) (h : rest.1 <+: c) :
    (after_attempt o d last rest).1 <+: d :: c := by
  have h1 : [d] <+: d :: c := ⟨c, rfl⟩
  have h2 : d :: rest.1 <+: d :: c := by
    obtain ⟨t, ht⟩ := h
    exact ⟨t, by simp [ht]⟩
  cases o with
  | ok u => exact h1
  | error err =>
    simp only [after_attempt]
    split
    · split
      · exact h1
      · exact h2
    · exact h1

theorem walk_outcome_initial (W : World) (term : CStr) :
    ∀ (es : List CStr) (flag : Bool),
      (walk_outcome W term es flag).1 <+: candidates W.unibi_terminfo flag es := by
  intro es
  induction es with
  | nil => intro flag; exact ⟨[], rfl⟩
  | cons e es ih =>
    intro flag
    simp only [walk_outcome, candidates]
    split
    · exact after_attempt_initial _ _ _ _ _ (ih flag)
    · split
      · exact after_attempt_initial _ _ _ _ _ (ih true)
      · exact List.nil_prefix

theorem headD_eq_zero_iff (a : CStr) (h0 : 0 ∉ a) : a.headD 0 = 0 ↔ a = [] := by
  cases a with
  | nil => simp
  | cons b bs =>
    have hb : b ≠ 0 := fun h => h0 (by simp [h])
    simp [hb]

/-- C7: in one walk of `from_dirs` the attempts are a prefix of: the non-empty
entries before the first empty entry, then the fallback directory `D0` once if
the list has an empty entry, then the non-empty entries after it; when `D0` is
the empty string they are a prefix of the non-empty entries alone, so `D0` is
never substituted.  For the list `:/a:` with non-empty `D0` and soft failures
the attempts are exactly `D0` and then `/a`. -/
theorem from_dirs_default_once (W : World) (s : State) (list : CStr) (term : CStr)
    (h0 : 0 ∉ list) (hD : 0 ∉ W.unibi_terminfo) :
    (∃ evs, (from_dirs W s list term).2.trace = s.trace ++ evs ∧
      attempts evs <+:
        (if W.unibi_terminfo = [] then (entries list).filter (fun e => !e.isEmpty)
         else (entries list).takeWhile (fun e => !e.isEmpty)
           ++ (if [] ∈ entries list then [W.unibi_terminfo] else [])
           ++ ((entries list).dropWhile (fun e => !e.isEmpty)).filter (fun e => !e.isEmpty)).map
          (fun d => (d, none))) ∧
    (W.unibi_terminfo ≠ [] →
      (∃ e, dir_outcome W W.unibi_terminfo none term = Except.error e ∧ soft e) →
      (∃ e, dir_outcome W (cstr "/a") none term = Except.error e ∧ soft e) →
      ∃ evs, (from_dirs W s (cstr ":/a:") term).2.trace = s.trace ++ evs ∧
        attempts evs = [(W.unibi_terminfo, none), (cstr "/a", none)]) := by
  have hflag : decide (W.unibi_terminfo.headD 0 = 0) = decide (W.unibi_terminfo = []) := by
    rw [decide_eq_decide]; exact headD_eq_zero_iff _ hD
  constructor
  · obtain ⟨evs, h1, _, h3⟩ := from_dirs_walk W term list h0
    refine ⟨evs, (h3 s).1, ?_⟩
    rw [h1]
    apply List.IsPrefix.map
    unfold from_dirs_outcome
    split
    · exact List.nil_prefix
    · have hp := walk_outcome_initial W term (entries list) (decide (W.unibi_terminfo.headD 0 = 0))
      rw [hflag] at hp ⊢
      by_cases hd : W.unibi_terminfo = []
      · simp only [hd, decide_True, if_true] at hp ⊢
        rw [candidates_true] at hp
        exact hp
      · simp only [hd, decide_False, if_false] at hp ⊢
        rw [candidates_false] at hp
        exact hp
  · intro hne ⟨e1, ho1, hs1⟩ ⟨e2, ho2, hs2⟩
    obtain ⟨evs, h1, _, h3⟩ := from_dirs_walk W term (cstr ":/a:") (by decide)
    refine ⟨evs, (h3 s).1, ?_⟩
    rw [h1]
    have hent : entries (cstr ":/a:") = [[], cstr "/a", []] := by decide
    have hhd : ¬ ((cstr ":/a:").headD 0 = 0) := by decide
    have hnea : cstr "/a" ≠ [] := by decide
    simp only [from_dirs_outcome, if_neg hhd, hent, hflag, hne, decide_False]
    simp [walk_outcome, after_attempt, ho1, ho2, hs1, hs2, hnea]

/-- Witness of C7: the list `:/a:` with fallback directory `/d` and no terminfo files at all. -/
theorem from_dirs_default_once_witness :
    ∃ evs, (from_dirs (example_world 64 [] [] [] (cstr "/d") (cstr "/l")) { errno := 0, trace := [] }
        (cstr ":/a:") (cstr "xterm")).2.trace = [] ++ evs ∧
      attempts evs = [(cstr "/d", none), (cstr "/a", none)] :=
  (from_dirs_default_once (example_world 64 [] [] [] (cstr "/d") (cstr "/l"))
    { errno := 0, trace := [] } (cstr ":/a:") (cstr "xterm") (by decide) (by decide)).2
    (by decide) ⟨ENOENT, rfl, by decide⟩ ⟨ENOENT, rfl, by decide⟩

theorem mem_dropLast_of_append {α : Type} (pre : List α) (d : α) (post : List α) (h : post ≠ []) :
    d ∈ (pre ++ d :: post).dropLast := by
  rw [List.dropLast_append_of_ne_nil _ (by simp), List.dropLast_cons_of_ne_nil h]
  simp

theorem yields_ok {r : Option unibi_term × State} {o : Except Nat unibi_term} {u : unibi_term}
    (h : yields r o) (ho : o = Except.ok u) : r.1 = some u := by
  subst ho; exact h

theorem yields_error {r : Option unibi_term × State} {o : Except Nat unibi_term} {e : Nat}
    (h : yields r o) (ho : o = Except.error e) : r.1 = none ∧ r.2.errno = e := by
  subst ho; exact h

/-- C8 fails on the code: for the list `::/a` with fallback directory `/d`, where
only `/a/x/xterm` exists, the walk attempts `/d` for the first empty entry,
then returns at the second empty entry with no record and `errno = 0`; the
entry `/a`, whose attempt would yield the record, is never attempted. -/
theorem from_dirs_second_empty_entry_stops :
    attempts (from_dirs (example_world 64 [(cstr "/a/x/xterm", 1)] [] [] (cstr "/d") (cstr "/l"))
        { errno := ENOENT, trace := [] } (cstr "::/a") (cstr "xterm")).2.trace
      = [(cstr "/d", none)] ∧
    (from_dirs (example_world 64 [(cstr "/a/x/xterm", 1)] [] [] (cstr "/d") (cstr "/l"))
        { errno := ENOENT, trace := [] } (cstr "::/a") (cstr "xterm")).1 = none ∧
    (from_dirs (example_world 64 [(cstr "/a/x/xterm", 1)] [] [] (cstr "/d") (cstr "/l"))
        { errno := ENOENT, trace := [] } (cstr "::/a") (cstr "xterm")).2.errno = 0 ∧
    dir_outcome (example_world 64 [(cstr "/a/x/xterm", 1)] [] [] (cstr "/d") (cstr "/l"))
        (cstr "/a") none (cstr "xterm") = Except.ok ⟨1⟩ := by
  refine ⟨by decide, by decide, by decide, rfl⟩

/-- C9 fails on the code: for the non-empty list `/a::` with fallback directory
`/d` and no terminfo file anywhere, the two attempts (`/a` and `/d`) fail with
`ENOENT`, yet `from_dirs` returns no record with `errno = 0`, not `ENOENT`. -/
theorem from_dirs_trailing_empty_entry_errno :
    attempts (from_dirs (example_world 64 [] [] [] (cstr "/d") (cstr "/l"))
        { errno := ENOENT, trace := [] } (cstr "/a::") (cstr "xterm")).2.trace
      = [(cstr "/a", none), (cstr "/d", none)] ∧
    dir_outcome (example_world 64 [] [] [] (cstr "/d") (cstr "/l")) (cstr "/a") none (cstr "xterm")
      = Except.error ENOENT ∧
    dir_outcome (example_world 64 [] [] [] (cstr "/d") (cstr "/l")) (cstr "/d") none (cstr "xterm")
      = Except.error ENOENT ∧
    (from_dirs (example_world 64 [] [] [] (cstr "/d") (cstr "/l"))
        { errno := ENOENT, trace := [] } (cstr "/a::") (cstr "xterm")).1 = none ∧
    (from_dirs (example_world 64 [] [] [] (cstr "/d") (cstr "/l"))
        { errno := ENOENT, trace := [] } (cstr "/a::") (cstr "xterm")).2.errno = 0 := by
  refine ⟨by decide, rfl, rfl, by decide, by decide⟩

/-- C10: let `ds` be the directories `from_dirs` attempts, in order.  An attempt
that yields a record is the last one and `from_dirs` returns that record; an
attempt that fails with an error other than `ENOENT`, `EPERM`, `EACCES` is the
last one and `from_dirs` returns no record with that `errno`; every attempt
that is followed by another one failed with `ENOENT`, `EPERM` or `EACCES`.  And
in the loop, after an attempt (on a non-empty entry, or on the fallback
directory for an empty one) that failed with such a soft error, when a `:`
follows, the loop goes on with the cursor just after that `:`. -/
theorem from_dirs_attempt_outcomes (W : World) (s : State) (list : CStr) (term : CStr)
    (h0 : 0 ∉ list) :
    (∃ evs ds, (from_dirs W s list term).2.trace = s.trace ++ evs ∧
      attempts evs = ds.map (fun d => (d, none)) ∧
      ∀ pre d post, ds = pre ++ d :: post →
        (∀ u, dir_outcome W d none term = Except.ok u →
          post = [] ∧ (from_dirs W s list term).1 = some u) ∧
        (∀ e, dir_outcome W d none term = Except.error e → ¬ soft e →
          post = [] ∧ (from_dirs W s list term).1 = none ∧ (from_dirs W s list term).2.errno = e) ∧
        (post ≠ [] → ∃ e, dir_outcome W d none term = Except.error e ∧ soft e)) ∧
    (∀ (fuel : Nat) (a : CStr) (s0 : State) (searched : Bool) (h : a.length ≤ fuel) (i : Nat),
      strchr a 58 = some i → i ≠ 0 → a.headD 0 ≠ 0 →
      (from_dir W s0 a (some i) none term).1 = none →
      soft (from_dir W s0 a (some i) none term).2.errno →
      ∃ (k : Nat) (hk : (a.drop (i + 1)).length ≤ k),
        from_dirs_loop W term fuel a s0 none searched h
          = from_dirs_loop W term k (a.drop (i + 1)) (from_dir W s0 a (some i) none term).2
              none searched hk) ∧
    (∀ (fuel : Nat) (a : CStr) (s0 : State) (h : a.length ≤ fuel),
      strchr a 58 = some 0 →
      (from_dir W s0 W.unibi_terminfo none none term).1 = none →
      soft (from_dir W s0 W.unibi_terminfo none none term).2.errno →
      ∃ (k : Nat) (hk : (a.drop (0 + 1)).length ≤ k),
        from_dirs_loop W term fuel a s0 none false h
          = from_dirs_loop W term k (a.drop (0 + 1))
              (from_dir W s0 W.unibi_terminfo none none term).2 none true hk) := by
  refine ⟨?_, ?_, ?_⟩
  · obtain ⟨evs, h1, _, h3⟩ := from_dirs_walk W term list h0
    obtain ⟨q1, q2, q3, _, _⟩ := from_dirs_outcome_sound W term list
    refine ⟨evs, (from_dirs_outcome W term list).1, (h3 s).1, h1, ?_⟩
    intro pre d post hds
    have hy := (h3 s).2
    have hsoft : post ≠ [] → ∃ e, dir_outcome W d none term = Except.error e ∧ soft e := by
      intro hp
      apply q1
      rw [hds]
      exact mem_dropLast_of_append pre d post hp
    refine ⟨?_, ?_, hsoft⟩
    · intro u hu
      have hpost : post = [] := by
        by_contra hp
        obtain ⟨e, he, _⟩ := hsoft hp
        rw [hu] at he
        cases he
      subst hpost
      refine ⟨rfl, yields_ok hy (q2 d u ?_ hu)⟩
      rw [hds]; simp
    · intro e he hns
      have hpost : post = [] := by
        by_contra hp
        obtain ⟨e', he', hs'⟩ := hsoft hp
        rw [he] at he'
        cases he'
        exact hns hs'
      subst hpost
      have := yields_error hy (q3 d e (by rw [hds]; simp) he hns)
      exact ⟨rfl, this.1, this.2⟩
  · intro fuel a s0 searched h i hz hi hhd hnone hsoft
    obtain ⟨k, hk, _, heq⟩ := from_dirs_loop_some W term fuel a s0 none searched h i hz
    refine ⟨k, hk, ?_⟩
    have hstep : from_dirs_step W term a s0 none searched
        = ((from_dir W s0 a (some i) none term).1, (from_dir W s0 a (some i) none term).2,
            searched) := by
      simp only [from_dirs_step, hz, ne_eq, Option.some.injEq, hi, not_false_eq_true, hhd,
        and_self, if_true]
    rw [heq]
    simp only [hstep]
    have hc : ¬ ((from_dir W s0 a (some i) none term).1.isSome = true ∨
        ((from_dir W s0 a (some i) none term).2.errno ≠ ENOENT ∧
         (from_dir W s0 a (some i) none term).2.errno ≠ EPERM ∧
         (from_dir W s0 a (some i) none term).2.errno ≠ EACCES)) := by
      rw [hnone]
      unfold soft at hsoft
      simp only [Option.isSome_none, Bool.false_eq_true, false_or]
      omega
    rw [if_neg hc]
    simp only [hnone]
  · intro fuel a s0 h hz hnone hsoft
    obtain ⟨k, hk, _, heq⟩ := from_dirs_loop_some W term fuel a s0 none false h 0 hz
    refine ⟨k, hk, ?_⟩
    have hstep : from_dirs_step W term a s0 none false
        = ((from_dir W s0 W.unibi_terminfo none none term).1,
           (from_dir W s0 W.unibi_terminfo none none term).2, true) := by
      simp [from_dirs_step, hz]
    rw [heq]
    simp only [hstep]
    have hc : ¬ ((from_dir W s0 W.unibi_terminfo none none term).1.isSome = true ∨
        ((from_dir W s0 W.unibi_terminfo none none term).2.errno ≠ ENOENT ∧
         (from_dir W s0 W.unibi_terminfo none none term).2.errno ≠ EPERM ∧
         (from_dir W s0 W.unibi_terminfo none none term).2.errno ≠ EACCES)) := by
      rw [hnone]
      unfold soft at hsoft
      simp only [Option.isSome_none, Bool.false_eq_true, false_or]
      omega
    rw [if_neg hc]
    simp only [hnone]

/-- Witness of C10: the list `/b:/D:/c` where only `/D/78/xterm` exists. -/
theorem from_dirs_attempt_outcomes_witness :
    ∃ evs ds, (from_dirs (example_world 64 [(cstr "/D/78/xterm", 7)] [] [] (cstr "/d") (cstr "/l"))
        { errno := 0, trace := [] } (cstr "/b:/D:/c") (cstr "xterm")).2.trace = [] ++ evs ∧
      attempts evs = ds.map (fun d => (d, none)) ∧
      ∀ pre d post, ds = pre ++ d :: post →
        (∀ u, dir_outcome (example_world 64 [(cstr "/D/78/xterm", 7)] [] [] (cstr "/d") (cstr "/l"))
            d none (cstr "xterm") = Except.ok u →
          post = [] ∧
          (from_dirs (example_world 64 [(cstr "/D/78/xterm", 7)] [] [] (cstr "/d") (cstr "/l"))
            { errno := 0, trace := [] } (cstr "/b:/D:/c") (cstr "xterm")).1 = some u) :=
  match (from_dirs_attempt_outcomes
    (example_world 64 [(cstr "/D/78/xterm", 7)] [] [] (cstr "/d") (cstr "/l"))
    { errno := 0, trace := [] } (cstr "/b:/D:/c") (cstr "xterm") (by decide)).1 with
  | ⟨evs, ds, h1, h2, h3⟩ => ⟨evs, ds, h1, h2, fun pre d post h => (h3 pre d post h).1⟩

theorem first_record_ends_nil (W : World) (term : CStr) : first_record_ends W term [] none := by
  refine ⟨by simp, by simp, ?_⟩
  intro u hu; cases hu

theorem all_fail_of_none (W : World) (term : CStr) (atts : List (CStr × Option CStr))
    (h : first_record_ends W term atts none) :
    ∀ x ∈ atts, ∃ e, dir_outcome W x.1 x.2 term = Except.error e := by
  obtain ⟨q1, q2, _⟩ := h
  intro x hx
  rcases List.eq_nil_or_concat atts with h1 | ⟨L, b, h1⟩
  · subst h1; simp at hx
  · rw [List.concat_eq_append] at h1
    subst h1
    rw [List.dropLast_concat] at q1
    rcases List.mem_append.mp hx with h2 | h2
    · exact q1 x h2
    · simp at h2
      subst h2
      cases ho : dir_outcome W x.1 x.2 term with
      | ok u =>
        have := q2 x u (by simp) ho
        cases this
      | error e => exact ⟨e, rfl⟩

theorem first_record_ends_append (W : World) (term : CStr) (A B : List (CStr × Option CStr))
    (res : Option unibi_term)
    (hA : ∀ x ∈ A, ∃ e, dir_outcome W x.1 x.2 term = Except.error e)
    (hB : first_record_ends W term B res) : first_record_ends W term (A ++ B) res := by
  obtain ⟨q1, q2, q3⟩ := hB
  rcases List.eq_nil_or_concat B with h1 | ⟨L, b, h1⟩
  · subst h1
    rw [List.append_nil]
    refine ⟨fun x hx => hA x (List.mem_of_mem_dropLast hx), ?_, ?_⟩
    · intro x u hx hu
      obtain ⟨e, he⟩ := hA x (List.mem_of_getLast?_eq_some hx)
      rw [hu] at he
      cases he
    · intro u hu
      obtain ⟨x, hx, _⟩ := q3 u hu
      simp at hx
  · rw [List.concat_eq_append] at h1
    subst h1
    rw [List.dropLast_concat] at q1
    rw [List.getLast?_concat] at q2 q3
    rw [← List.append_assoc]
    refine ⟨?_, ?_, ?_⟩
    · intro x hx
      rw [List.dropLast_concat] at hx
      rcases List.mem_append.mp hx with h2 | h2
      · exact hA x h2
      · exact q1 x h2
    · intro x u hx
      rw [List.getLast?_concat] at hx
      exact q2 x u hx
    · intro u hu
      rw [List.getLast?_concat]
      exact q3 u hu

theorem first_record_ends_single (W : World) (term : CStr) (d : CStr) (mid : Option CStr)
    (r : Option unibi_term × State) (h : yields r (dir_outcome W d mid term)) :
    first_record_ends W term [(d, mid)] r.1 := by
  refine ⟨by simp, ?_, ?_⟩
  · intro x u hx hu
    simp at hx
    subst hx
    exact yields_ok h hu
  · intro u hu
    refine ⟨(d, mid), by simp, ?_⟩
    cases ho : dir_outcome W d mid term with
    | ok u' =>
      have := yields_ok h ho
      rw [hu] at this
      cases this
      rfl
    | error e =>
      have := (yields_error h ho).1
      rw [hu] at this
      cases this

theorem first_record_ends_of_walk (W : World) (term : CStr) (ds : List CStr)
    (o : Except Nat unibi_term) (r : Option unibi_term × State)
    (hs : walk_sound W term ds o) (hy : yields r o) :
    first_record_ends W term (ds.map (fun d => (d, none))) r.1 := by
  obtain ⟨q1, q2, _, q4, _⟩ := hs
  refine ⟨?_, ?_, ?_⟩
  · intro x hx
    rw [← List.map_dropLast] at hx
    obtain ⟨d, hd, hxd⟩ := List.mem_map.mp hx
    subst hxd
    obtain ⟨e, he, _⟩ := q1 d hd
    exact ⟨e, he⟩
  · intro x u hx hu
    rw [List.getLast?_map] at hx
    cases hl : ds.getLast? with
    | none => rw [hl] at hx; cases hx
    | some d =>
      rw [hl] at hx
      simp at hx
      subst hx
      exact yields_ok hy (q2 d u hl hu)
  · intro u hu
    cases o with
    | ok u' =>
      have := yields_ok hy rfl
      rw [hu] at this
      cases this
      obtain ⟨d, hd, hod⟩ := q4 u rfl
      exact ⟨(d, none), by rw [List.getLast?_map, hd]; rfl, hod⟩
    | error e =>
      have := (yields_error hy rfl).1
      rw [hu] at this
      cases this

/-- What `from_dirs` contributes to a search: events without `getenv`, the same
attempts from whatever state, and the first record ends the walk. -/
theorem from_dirs_stage (W : World) (term : CStr) (list : CStr) (h0 : 0 ∉ list) (s : State) :
    ∃ evs, (from_dirs W s list term).2.trace = s.trace ++ evs ∧
      attempts evs = attempts (from_dirs W ⟨0, []⟩ list term).2.trace ∧
      first_record_ends W term (attempts evs) (from_dirs W s list term).1 := by
  obtain ⟨evs, h1, _, h3⟩ := from_dirs_walk W term list h0
  refine ⟨evs, (h3 s).1, ?_, ?_⟩
  · rw [(h3 ⟨0, []⟩).1]
    simp
  · rw [h1]
    exact first_record_ends_of_walk W term _ _ _ (from_dirs_outcome_sound W term list) (h3 s).2

theorem isSome_false_eq_none {o : Option unibi_term} (h : ¬ o.isSome = true) : o = none := by
  cases o with
  | none => rfl
  | some u => exact absurd rfl h

theorem unibi_from_term_dirs_stage (W : World) (term : CStr)
    (hl : ∀ l, W.getenv (cstr "TERMINFO_DIRS") = some l → 0 ∉ l)
    (hf : 0 ∉ W.unibi_terminfo_dirs) (s : State) :
    ∃ evs t3 t4, (unibi_from_term_dirs W s term).2.trace = s.trace ++ evs ∧
      attempts evs = t3 ++ t4 ∧
      (t3 = [] ∨ ∃ l, W.getenv (cstr "TERMINFO_DIRS") = some l ∧
        t3 = attempts (from_dirs W ⟨0, []⟩ l term).2.trace) ∧
      (t4 = [] ∨ t4 = attempts (from_dirs W ⟨0, []⟩ W.unibi_terminfo_dirs term).2.trace) ∧
      first_record_ends W term (attempts evs) (unibi_from_term_dirs W s term).1 := by
  cases hg : W.getenv (cstr "TERMINFO_DIRS") with
  | none =>
    obtain ⟨evs4, h1, h2, h3⟩ := from_dirs_stage W term W.unibi_terminfo_dirs hf
      (s.emit (Event.getenv (cstr "TERMINFO_DIRS")))
    refine ⟨Event.getenv (cstr "TERMINFO_DIRS") :: evs4, [], attempts evs4, ?_, by simp [attempts],
      Or.inl rfl, Or.inr h2, ?_⟩
    · simp only [unibi_from_term_dirs, hg, unibi_from_term_fallback]
      rw [h1]
      simp [State.emit]
    · simp only [unibi_from_term_dirs, hg, unibi_from_term_fallback, attempts]
      exact h3
  | some l =>
    obtain ⟨evs3, h1, h2, h3⟩ := from_dirs_stage W term l (hl l hg)
      (s.emit (Event.getenv (cstr "TERMINFO_DIRS")))
    have htr : (from_dirs W (s.emit (Event.getenv (cstr "TERMINFO_DIRS"))) l term).2.trace
        = s.trace ++ Event.getenv (cstr "TERMINFO_DIRS") :: evs3 := by
      rw [h1]; simp [State.emit]
    by_cases hsome : (from_dirs W (s.emit (Event.getenv (cstr "TERMINFO_DIRS"))) l term).1.isSome
    · refine ⟨Event.getenv (cstr "TERMINFO_DIRS") :: evs3, attempts evs3, [], ?_, by simp [attempts],
        Or.inr ⟨l, rfl, h2⟩, Or.inl rfl, ?_⟩
      · simp only [unibi_from_term_dirs, hg, if_pos hsome]
        exact htr
      · simp only [unibi_from_term_dirs, hg, if_pos hsome, attempts]
        exact h3
    · have hnone := isSome_false_eq_none hsome
      by_cases hhard : (from_dirs W (s.emit (Event.getenv (cstr "TERMINFO_DIRS"))) l term).2.errno
            ≠ ENOENT ∧
          (from_dirs W (s.emit (Event.getenv (cstr "TERMINFO_DIRS"))) l term).2.errno ≠ EPERM ∧
          (from_dirs W (s.emit (Event.getenv (cstr "TERMINFO_DIRS"))) l term).2.errno ≠ EACCES
      · refine ⟨Event.getenv (cstr "TERMINFO_DIRS") :: evs3, attempts evs3, [], ?_,
          by simp [attempts], Or.inr ⟨l, rfl, h2⟩, Or.inl rfl, ?_⟩
        · simp only [unibi_from_term_dirs, hg, if_neg hsome, if_pos hhard]
          exact htr
        · simp only [unibi_from_term_dirs, hg, if_neg hsome, if_pos hhard, attempts]
          rw [hnone] at h3
          exact h3
      · obtain ⟨evs4, k1, k2, k3⟩ := from_dirs_stage W term W.unibi_terminfo_dirs hf
          (from_dirs W (s.emit (Event.getenv (cstr "TERMINFO_DIRS"))) l term).2
        refine ⟨Event.getenv (cstr "TERMINFO_DIRS") :: evs3 ++ evs4, attempts evs3, attempts evs4,
          ?_, by simp [attempts, attempts_append], Or.inr ⟨l, rfl, h2⟩, Or.inr k2, ?_⟩
        · simp only [unibi_from_term_dirs, hg, if_neg hsome, if_neg hhard,
            unibi_from_term_fallback]
          rw [k1, htr]
          simp
        · simp only [unibi_from_term_dirs, hg, if_neg hsome, if_neg hhard,
            unibi_from_term_fallback]
          rw [hnone] at h3
          have := first_record_ends_append W term (attempts evs3) (attempts evs4) _
            (all_fail_of_none W term _ h3) k3
          simpa [attempts, attempts_append] using this

theorem unibi_from_term_home_stage (W : World) (term : CStr)
    (hl : ∀ l, W.getenv (cstr "TERMINFO_DIRS") = some l → 0 ∉ l)
    (hf : 0 ∉ W.unibi_terminfo_dirs) (s : State) :
    ∃ evs t2 t3 t4, (unibi_from_term_home W s term).2.trace = s.trace ++ evs ∧
      attempts evs = t2 ++ t3 ++ t4 ∧
      (t2 = [] ∨ ∃ d, W.getenv (cstr "HOME") = some d ∧ t2 = [(d, some (cstr ".terminfo"))]) ∧
      (t3 = [] ∨ ∃ l, W.getenv (cstr "TERMINFO_DIRS") = some l ∧
        t3 = attempts (from_dirs W ⟨0, []⟩ l term).2.trace) ∧
      (t4 = [] ∨ t4 = attempts (from_dirs W ⟨0, []⟩ W.unibi_terminfo_dirs term).2.trace) ∧
      first_record_ends W term (attempts evs) (unibi_from_term_home W s term).1 := by
  cases hg : W.getenv (cstr "HOME") with
  | none =>
    obtain ⟨evs, t3, t4, h1, h2, h3, h4, h5⟩ := unibi_from_term_dirs_stage W term hl hf
      (s.emit (Event.getenv (cstr "HOME")))
    refine ⟨Event.getenv (cstr "HOME") :: evs, [], t3, t4, ?_, by simp [attempts, h2],
      Or.inl rfl, h3, h4, ?_⟩
    · simp only [unibi_from_term_home, hg]
      rw [h1]
      simp [State.emit]
    · simp only [unibi_from_term_home, hg, attempts]
      exact h5
  | some d =>
    obtain ⟨evs2, a1, _, a3⟩ := from_dir_frame W d (some (cstr ".terminfo")) term
    obtain ⟨htr0, hy⟩ := a3 (s.emit (Event.getenv (cstr "HOME")))
    have hatt : attempts (Event.getenv (cstr "HOME")
        :: Event.from_dir d (some (cstr ".terminfo")) term :: evs2)
        = [(d, some (cstr ".terminfo"))] := by
      simp [attempts, a1]
    have htr : (from_dir W (s.emit (Event.getenv (cstr "HOME"))) d none
          (some (cstr ".terminfo")) term).2.trace
        = s.trace ++ Event.getenv (cstr "HOME")
          :: Event.from_dir d (some (cstr ".terminfo")) term :: evs2 := by
      rw [htr0]; simp [State.emit]
    have hfre := first_record_ends_single W term d (some (cstr ".terminfo")) _ hy
    by_cases hsome : (from_dir W (s.emit (Event.getenv (cstr "HOME"))) d none
          (some (cstr ".terminfo")) term).1.isSome
    · refine ⟨_, [(d, some (cstr ".terminfo"))], [], [], ?_, by rw [hatt]; rfl,
        Or.inr ⟨d, rfl, rfl⟩, Or.inl rfl, Or.inl rfl, ?_⟩
      · simp only [unibi_from_term_home, hg, if_pos hsome]
        exact htr
      · simp only [unibi_from_term_home, hg, if_pos hsome]
        rw [hatt]
        exact hfre
    · have hnone := isSome_false_eq_none hsome
      by_cases hhard : (from_dir W (s.emit (Event.getenv (cstr "HOME"))) d none
            (some (cstr ".terminfo")) term).2.errno ≠ ENOENT ∧
          (from_dir W (s.emit (Event.getenv (cstr "HOME"))) d none
            (some (cstr ".terminfo")) term).2.errno ≠ EPERM ∧
          (from_dir W (s.emit (Event.getenv (cstr "HOME"))) d none
            (some (cstr ".terminfo")) term).2.errno ≠ EACCES
      · refine ⟨_, [(d, some (cstr ".terminfo"))], [], [], ?_, by rw [hatt]; rfl,
          Or.inr ⟨d, rfl, rfl⟩, Or.inl rfl, Or.inl rfl, ?_⟩
        · simp only [unibi_from_term_home, hg, if_neg hsome, if_pos hhard]
          exact htr
        · simp only [unibi_from_term_home, hg, if_neg hsome, if_pos hhard]
          rw [hatt]
          rw [hnone] at hfre
          exact hfre
      · obtain ⟨evs, t3, t4, h1, h2, h3, h4, h5⟩ := unibi_from_term_dirs_stage W term hl hf
          (from_dir W (s.emit (Event.getenv (cstr "HOME"))) d none
            (some (cstr ".terminfo")) term).2
        refine ⟨(Event.getenv (cstr "HOME")
            :: Event.from_dir d (some (cstr ".terminfo")) term :: evs2) ++ evs,
          [(d, some (cstr ".terminfo"))], t3, t4, ?_, ?_, Or.inr ⟨d, rfl, rfl⟩, h3, h4, ?_⟩
        · simp only [unibi_from_term_home, hg, if_neg hsome, if_neg hhard]
          rw [h1, htr]
          simp
        · rw [attempts_append, hatt, h2, List.append_assoc]
        · simp only [unibi_from_term_home, hg, if_neg hsome, if_neg hhard]
          rw [attempts_append, hatt]
          rw [hnone] at hfre
          exact first_record_ends_append W term _ _ _ (all_fail_of_none W term _ hfre) h5

theorem mem_of_strchr_isSome (a : CStr) (c : Nat) (h : (strchr a c).isSome = true) : c ∈ a := by
  induction a with
  | nil => simp [strchr] at h
  | cons b bs ih =>
    simp only [strchr] at h
    split at h
    · rename_i hb; simp [hb]
    · cases hs : strchr bs c with
      | none => rw [hs] at h; simp at h
      | some j =>
        have := ih (by rw [hs]; rfl)
        simp [this]

theorem valid_name_passes (term : CStr) (hne : term ≠ []) (h0 : 0 ∉ term)
    (hdot : term.head? ≠ some 46) (hsl : 47 ∉ term) :
    ¬ (term.headD 0 = 0 ∨ term.headD 0 = 46 ∨ (strchr term 47).isSome = true) := by
  cases term with
  | nil => exact absurd rfl hne
  | cons b bs =>
    have hb : b ≠ 0 := fun h => h0 (by simp [h])
    have hb2 : b ≠ 46 := fun h => hdot (by simp [h])
    intro h
    rcases h with h | h | h
    · exact hb h
    · exact hb2 h
    · exact hsl (mem_of_strchr_isSome _ _ h)

theorem unibi_from_term_stage (W : World) (term : CStr)
    (hv : ¬ (term.headD 0 = 0 ∨ term.headD 0 = 46 ∨ (strchr term 47).isSome = true))
    (hl : ∀ l, W.getenv (cstr "TERMINFO_DIRS") = some l → 0 ∉ l)
    (hf : 0 ∉ W.unibi_terminfo_dirs) (s : State) :
    ∃ evs t1 t2 t3 t4, (unibi_from_term W s term).2.trace = s.trace ++ evs ∧
      attempts evs = t1 ++ t2 ++ t3 ++ t4 ∧
      (t1 = [] ∨ ∃ d, W.getenv (cstr "TERMINFO") = some d ∧ t1 = [(d, none)]) ∧
      (t2 = [] ∨ ∃ d, W.getenv (cstr "HOME") = some d ∧ t2 = [(d, some (cstr ".terminfo"))]) ∧
      (t3 = [] ∨ ∃ l, W.getenv (cstr "TERMINFO_DIRS") = some l ∧
        t3 = attempts (from_dirs W ⟨0, []⟩ l term).2.trace) ∧
      (t4 = [] ∨ t4 = attempts (from_dirs W ⟨0, []⟩ W.unibi_terminfo_dirs term).2.trace) ∧
      first_record_ends W term (attempts evs) (unibi_from_term W s term).1 ∧
      (∀ d u, W.getenv (cstr "TERMINFO") = some d → dir_outcome W d none term = Except.ok u →
        (unibi_from_term W s term).1 = some u ∧ attempts evs = [(d, none)]) := by
  cases hg : W.getenv (cstr "TERMINFO") with
  | none =>
    obtain ⟨evs, t2, t3, t4, h1, h2, h3, h4, h5, h6⟩ := unibi_from_term_home_stage W term hl hf
      (s.emit (Event.getenv (cstr "TERMINFO")))
    refine ⟨Event.getenv (cstr "TERMINFO") :: evs, [], t2, t3, t4, ?_, by simp [attempts, h2],
      Or.inl rfl, h3, h4, h5, ?_, ?_⟩
    · simp only [unibi_from_term, if_neg hv, hg]
      rw [h1]
      simp [State.emit]
    · simp only [unibi_from_term, if_neg hv, hg, attempts]
      exact h6
    · intro d u hd; cases hd
  | some d =>
    obtain ⟨evs1, a1, _, a3⟩ := from_dir_frame W d none term
    obtain ⟨htr0, hy⟩ := a3 (s.emit (Event.getenv (cstr "TERMINFO")))
    have hatt : attempts (Event.getenv (cstr "TERMINFO") :: Event.from_dir d none term :: evs1)
        = [(d, none)] := by
      simp [attempts, a1]
    have htr : (from_dir W (s.emit (Event.getenv (cstr "TERMINFO"))) d none none term).2.trace
        = s.trace ++ Event.getenv (cstr "TERMINFO") :: Event.from_dir d none term :: evs1 := by
      rw [htr0]; simp [State.emit]
    have hfre := first_record_ends_single W term d none _ hy
    by_cases hsome : (from_dir W (s.emit (Event.getenv (cstr "TERMINFO"))) d none none term).1.isSome
    · refine ⟨_, [(d, none)], [], [], [], ?_, by rw [hatt]; rfl,
        Or.inr ⟨d, rfl, rfl⟩, Or.inl rfl, Or.inl rfl, Or.inl rfl, ?_, ?_⟩
      · simp only [unibi_from_term, if_neg hv, hg, if_pos hsome]
        exact htr
      · simp only [unibi_from_term, if_neg hv, hg, if_pos hsome]
        rw [hatt]
        exact hfre
      · intro d' u hd hu
        cases hd
        simp only [unibi_from_term, if_neg hv, hg, if_pos hsome]
        exact ⟨yields_ok hy hu, hatt⟩
    · have hnone := isSome_false_eq_none hsome
      obtain ⟨evs, t2, t3, t4, h1, h2, h3, h4, h5, h6⟩ := unibi_from_term_home_stage W term hl hf
        (from_dir W (s.emit (Event.getenv (cstr "TERMINFO"))) d none none term).2
      refine ⟨(Event.getenv (cstr "TERMINFO") :: Event.from_dir d none term :: evs1) ++ evs,
        [(d, none)], t2, t3, t4, ?_, ?_, Or.inr ⟨d, rfl, rfl⟩, h3, h4, h5, ?_, ?_⟩
      · simp only [unibi_from_term, if_neg hv, hg, if_neg hsome]
        rw [h1, htr]
        simp
      · rw [attempts_append, hatt, h2]
        simp only [List.append_assoc]
      · simp only [unibi_from_term, if_neg hv, hg, if_neg hsome]
        rw [attempts_append, hatt]
        rw [hnone] at hfre
        exact first_record_ends_append W term _ _ _ (all_fail_of_none W term _ hfre) h6
      · intro d' u hd hu
        cases hd
        have := yields_ok hy hu
        rw [hnone] at this
        cases this

theorem from_dirs_step_cases (W : World) (term : CStr) (a : CStr) (searched : Bool) :
    (∃ d, ∀ (s : State) (ut : Option unibi_term), from_dirs_step W term a s ut searched
        = ((from_dir W s d none none term).1, (from_dir W s d none none term).2, searched)) ∨
    (searched = false ∧ ∀ (s : State) (ut : Option unibi_term), from_dirs_step W term a s ut searched
        = ((from_dir W s W.unibi_terminfo none none term).1,
           (from_dir W s W.unibi_terminfo none none term).2, true)) ∨
    (searched = true ∧ ∀ (s : State) (ut : Option unibi_term),
      from_dirs_step W term a s ut searched = (ut, s.set_errno 0, true)) := by
  by_cases hc : strchr a 58 ≠ some 0 ∧ a.headD 0 ≠ 0
  · left
    cases hz : strchr a 58 with
    | none =>
      refine ⟨a, ?_⟩
      intro s ut
      have hc2 := hc
      rw [hz] at hc2
      simp only [from_dirs_step, hz, if_pos hc2]
    | some i =>
      refine ⟨a.take i, ?_⟩
      intro s ut
      have hc2 := hc
      rw [hz] at hc2
      simp only [from_dirs_step, hz, if_pos hc2]
      rw [from_dir_span W s a i none term (Nat.le_of_lt (strchr_lt a 58 i hz))]
  · right
    cases searched with
    | false =>
      left
      refine ⟨rfl, ?_⟩
      intro s ut
      simp only [from_dirs_step, if_neg hc]
      simp
    | true =>
      right
      refine ⟨rfl, ?_⟩
      intro s ut
      simp only [from_dirs_step, if_neg hc]
      simp

theorem walk_sound_nil (W : World) (term : CStr) :
    walk_sound W term ([] : List CStr) (Except.error ENOENT) := by
  refine ⟨by simp, by simp, by simp, ?_, ?_⟩
  · intro u hu; cases hu
  · intro e he; cases he; exact Or.inl rfl

theorem walk_sound_zero (W : World) (term : CStr) :
    walk_sound W term ([] : List CStr) (Except.error 0) := by
  refine ⟨by simp, by simp, by simp, ?_, ?_⟩
  · intro u hu; cases hu
  · intro e he; cases he; exact Or.inr (Or.inl rfl)

/-- The loop of `from_dirs`, for any list: its events and result do not depend on
the incoming state, and the walk is sound. -/
theorem from_dirs_loop_shape (W : World) (term : CStr) :
    ∀ (fuel : Nat) (a : CStr) (searched : Bool) (h : a.length ≤ fuel),
      ∃ (evs : List Event) (res : List CStr × Except Nat unibi_term),
        walk_sound W term res.1 res.2 ∧
        attempts evs = res.1.map (fun x => (x, none)) ∧ getenvs evs = [] ∧
        ∀ s, (from_dirs_loop W term fuel a s none searched h).2.trace = s.trace ++ evs ∧
          yields (from_dirs_loop W term fuel a s none searched h) res.2 := by
  intro fuel
  induction fuel with
  | zero =>
    intro a searched h
    have ha : a = [] := List.length_eq_zero.mp (Nat.le_zero.mp h)
    subst ha
    have hz : strchr ([] : CStr) 58 = none := rfl
    rcases from_dirs_step_cases W term [] searched with ⟨d, hd⟩ | ⟨hs, hd⟩ | ⟨hs, hd⟩
    · obtain ⟨evs, h1, h2, h3⟩ := after_attempt_frame W term d true ([], Except.error ENOENT)
        (fun s => from_dirs_loop W term 0 [] s none searched h) (fun s => (none, s))
        (by
          intro s
          simp only [from_dirs_loop_none W term 0 [] s none searched h hz, hd s none]
          simp)
        (by intro hl; cases hl)
      exact ⟨evs, _, after_attempt_sound W term d true _ (walk_sound_nil W term), h1, h2, h3⟩
    · subst hs
      obtain ⟨evs, h1, h2, h3⟩ := after_attempt_frame W term W.unibi_terminfo true
        ([], Except.error ENOENT)
        (fun s => from_dirs_loop W term 0 [] s none false h) (fun s => (none, s))
        (by
          intro s
          simp only [from_dirs_loop_none W term 0 [] s none false h hz, hd s none]
          simp)
        (by intro hl; cases hl)
      exact ⟨evs, _, after_attempt_sound W term _ true _ (walk_sound_nil W term), h1, h2, h3⟩
    · subst hs
      refine ⟨[], ([], Except.error 0), walk_sound_zero W term, rfl, rfl, ?_⟩
      intro s
      simp only [from_dirs_loop_none W term 0 [] s none true h hz, hd s none]
      simp [yields, State.set_errno]
  | succ k ih =>
    intro a searched h
    cases hz : strchr a 58 with
    | none =>
      rcases from_dirs_step_cases W term a searched with ⟨d, hd⟩ | ⟨hs, hd⟩ | ⟨hs, hd⟩
      · obtain ⟨evs, h1, h2, h3⟩ := after_attempt_frame W term d true ([], Except.error ENOENT)
          (fun s => from_dirs_loop W term (k + 1) a s none searched h) (fun s => (none, s))
          (by
            intro s
            simp only [from_dirs_loop_none W term (k + 1) a s none searched h hz, hd s none]
            simp)
          (by intro hl; cases hl)
        exact ⟨evs, _, after_attempt_sound W term d true _ (walk_sound_nil W term), h1, h2, h3⟩
      · subst hs
        obtain ⟨evs, h1, h2, h3⟩ := after_attempt_frame W term W.unibi_terminfo true
          ([], Except.error ENOENT)
          (fun s => from_dirs_loop W term (k + 1) a s none false h) (fun s => (none, s))
          (by
            intro s
            simp only [from_dirs_loop_none W term (k + 1) a s none false h hz, hd s none]
            simp)
          (by intro hl; cases hl)
        exact ⟨evs, _, after_attempt_sound W term _ true _ (walk_sound_nil W term), h1, h2, h3⟩
      · subst hs
        refine ⟨[], ([], Except.error 0), walk_sound_zero W term, rfl, rfl, ?_⟩
        intro s
        simp only [from_dirs_loop_none W term (k + 1) a s none true h hz, hd s none]
        simp [yields, State.set_errno]
    | some i =>
      have hlt := strchr_lt a 58 i hz
      have hk : (a.drop (i + 1)).length ≤ k := by simp only [List.length_drop]; omega
      have hloop : ∀ s, from_dirs_loop W term (k + 1) a s none searched h =
          if (from_dirs_step W term a s none searched).1.isSome ∨
              ((from_dirs_step W term a s none searched).2.1.errno ≠ ENOENT ∧
               (from_dirs_step W term a s none searched).2.1.errno ≠ EPERM ∧
               (from_dirs_step W term a s none searched).2.1.errno ≠ EACCES) then
            ((from_dirs_step W term a s none searched).1, (from_dirs_step W term a s none searched).2.1)
          else
            from_dirs_loop W term k (a.drop (i + 1)) (from_dirs_step W term a s none searched).2.1
              (from_dirs_step W term a s none searched).1
              (from_dirs_step W term a s none searched).2.2 hk := by
        intro s
        obtain ⟨k', hk', hkk, heq⟩ := from_dirs_loop_some W term (k + 1) a s none searched h i hz
        have : k' = k := by omega
        subst this
        exact heq
      rcases from_dirs_step_cases W term a searched with ⟨d, hd⟩ | ⟨hs, hd⟩ | ⟨hs, hd⟩
      · obtain ⟨evs2, res2, hs2, ha2, hg2, hf2⟩ := ih (a.drop (i + 1)) searched hk
        obtain ⟨evs, h1, h2, h3⟩ := after_attempt_frame W term d false res2
          (fun s => from_dirs_loop W term (k + 1) a s none searched h)
          (fun s => from_dirs_loop W term k (a.drop (i + 1)) s none searched hk)
          (by
            intro s
            simp only [hloop s, hd s none, Bool.false_eq_true, if_false]
            split
            · rfl
            · rename_i hc
              rw [isSome_false_of_not_or hc])
          (fun _ => ⟨evs2, ha2, hg2, hf2⟩)
        exact ⟨evs, _, after_attempt_sound W term d false _ hs2, h1, h2, h3⟩
      · subst hs
        obtain ⟨evs2, res2, hs2, ha2, hg2, hf2⟩ := ih (a.drop (i + 1)) true hk
        obtain ⟨evs, h1, h2, h3⟩ := after_attempt_frame W term W.unibi_terminfo false res2
          (fun s => from_dirs_loop W term (k + 1) a s none false h)
          (fun s => from_dirs_loop W term k (a.drop (i + 1)) s none true hk)
          (by
            intro s
            simp only [hloop s, hd s none, Bool.false_eq_true, if_false]
            split
            · rfl
            · rename_i hc
              rw [isSome_false_of_not_or hc])
          (fun _ => ⟨evs2, ha2, hg2, hf2⟩)
        exact ⟨evs, _, after_attempt_sound W term _ false _ hs2, h1, h2, h3⟩
      · subst hs
        refine ⟨[], ([], Except.error 0), walk_sound_zero W term, rfl, rfl, ?_⟩
        intro s
        simp only [hloop s, hd s none]
        simp [yields, State.set_errno]

/-- The function `from_dirs`, for any list: events and result do not depend on the
incoming state, and the walk is sound. -/
theorem from_dirs_shape (W : World) (term : CStr) (list : CStr) :
    ∃ (evs : List Event) (res : List CStr × Except Nat unibi_term),
      walk_sound W term res.1 res.2 ∧
      attempts evs = res.1.map (fun x => (x, none)) ∧ getenvs evs = [] ∧
      ∀ s, (from_dirs W s list term).2.trace = s.trace ++ evs ∧
        yields (from_dirs W s list term) res.2 := by
  by_cases hl : list.headD 0 = 0
  · refine ⟨[], ([], Except.error ENOENT), walk_sound_nil W term, rfl, rfl, ?_⟩
    intro s
    simp only [from_dirs, if_pos hl, yields, State.set_errno, List.append_nil, and_self]
  · obtain ⟨evs, res, h1, h2, h3, h4⟩ := from_dirs_loop_shape W term list.length list
      (decide (W.unibi_terminfo.headD 0 = 0)) (Nat.le_refl _)
    refine ⟨evs, res, h1, h2, h3, ?_⟩
    intro s
    simp only [from_dirs, if_neg hl]
    exact h4 s

theorem seq_soft (F cont run : State → Option unibi_term × State)
    (evs1 evs2 : List Event) (out1 out2 : Except Nat unibi_term)
    (h1 : ∀ s : State, (F s).2.trace = s.trace ++ evs1 ∧ yields (F s) out1)
    (h2 : ∀ s : State, (cont s).2.trace = s.trace ++ evs2 ∧ yields (cont s) out2)
    (hrun : ∀ s : State, run s =
      if (F s).1.isSome then F s
      else if (F s).2.errno ≠ ENOENT ∧ (F s).2.errno ≠ EPERM ∧ (F s).2.errno ≠ EACCES then
        (none, (F s).2)
      else cont (F s).2)
    (hp : no_soft_access out2) :
    ∃ evs out, no_soft_access out ∧
      ∀ s : State, (run s).2.trace = s.trace ++ evs ∧ yields (run s) out := by
  cases out1 with
  | ok u =>
    refine ⟨evs1, Except.ok u, (by intro e he; cases he), ?_⟩
    intro s
    have hy : (F s).1 = some u := (h1 s).2
    rw [hrun s, if_pos (by rw [hy]; rfl)]
    exact h1 s
  | error e =>
    by_cases hs : soft e
    · refine ⟨evs1 ++ evs2, out2, hp, ?_⟩
      intro s
      obtain ⟨ht, hy1, hy2⟩ := h1 s
      have hc : ¬ ((F s).2.errno ≠ ENOENT ∧ (F s).2.errno ≠ EPERM ∧ (F s).2.errno ≠ EACCES) := by
        rw [hy2]; unfold soft at hs; omega
      rw [hrun s, if_neg (by rw [hy1]; simp), if_neg hc]
      obtain ⟨ht2, hy⟩ := h2 (F s).2
      refine ⟨?_, hy⟩
      rw [ht2, ht, List.append_assoc]
    · refine ⟨evs1, Except.error e, ?_, ?_⟩
      · intro e' he'
        cases he'
        unfold soft at hs
        constructor <;> omega
      · intro s
        obtain ⟨ht, hy1, hy2⟩ := h1 s
        have hc : ((F s).2.errno ≠ ENOENT ∧ (F s).2.errno ≠ EPERM ∧ (F s).2.errno ≠ EACCES) := by
          rw [hy2]; unfold soft at hs; omega
        rw [hrun s, if_neg (by rw [hy1]; simp), if_pos hc]
        exact ⟨ht, rfl, hy2⟩

theorem seq_any (F cont run : State → Option unibi_term × State)
    (evs1 evs2 : List Event) (out1 out2 : Except Nat unibi_term)
    (h1 : ∀ s : State, (F s).2.trace = s.trace ++ evs1 ∧ yields (F s) out1)
    (h2 : ∀ s : State, (cont s).2.trace = s.trace ++ evs2 ∧ yields (cont s) out2)
    (hrun : ∀ s : State, run s = if (F s).1.isSome then F s else cont (F s).2)
    (hp : no_soft_access out2) :
    ∃ evs out, no_soft_access out ∧
      ∀ s : State, (run s).2.trace = s.trace ++ evs ∧ yields (run s) out := by
  cases out1 with
  | ok u =>
    refine ⟨evs1, Except.ok u, (by intro e he; cases he), ?_⟩
    intro s
    have hy : (F s).1 = some u := (h1 s).2
    rw [hrun s, if_pos (by rw [hy]; rfl)]
    exact h1 s
  | error e =>
    refine ⟨evs1 ++ evs2, out2, hp, ?_⟩
    intro s
    obtain ⟨ht, hy1, hy2⟩ := h1 s
    rw [hrun s, if_neg (by rw [hy1]; simp)]
    obtain ⟨ht2, hy⟩ := h2 (F s).2
    refine ⟨?_, hy⟩
    rw [ht2, ht, List.append_assoc]

theorem prefix_event (g : Event) (F : State → Option unibi_term × State)
    (evs : List Event) (out : Except Nat unibi_term)
    (h : ∀ s : State, (F s).2.trace = s.trace ++ evs ∧ yields (F s) out) :
    ∀ s : State, (F (s.emit g)).2.trace = s.trace ++ g :: evs ∧ yields (F (s.emit g)) out := by
  intro s
  obtain ⟨h1, h2⟩ := h (s.emit g)
  refine ⟨?_, h2⟩
  rw [h1]
  simp [State.emit]

theorem unibi_from_term_fallback_shape (W : World) (term : CStr) :
    ∃ evs out, no_soft_access out ∧
      ∀ s, (unibi_from_term_fallback W s term).2.trace = s.trace ++ evs ∧
        yields (unibi_from_term_fallback W s term) out := by
  obtain ⟨evs, res, ⟨_, _, _, _, q5⟩, _, _, h⟩ := from_dirs_shape W term W.unibi_terminfo_dirs
  refine ⟨evs, res.2, ?_, h⟩
  intro e he
  rcases q5 e he with h1 | h1 | ⟨h1, _⟩
  · subst h1; decide
  · subst h1; decide
  · unfold soft at h1
    constructor <;> omega

theorem unibi_from_term_dirs_shape (W : World) (term : CStr) :
    ∃ evs out, no_soft_access out ∧
      ∀ s, (unibi_from_term_dirs W s term).2.trace = s.trace ++ evs ∧
        yields (unibi_from_term_dirs W s term) out := by
  obtain ⟨evs4, out4, hp4, h4⟩ := unibi_from_term_fallback_shape W term
  cases hg : W.getenv (cstr "TERMINFO_DIRS") with
  | none =>
    refine ⟨Event.getenv (cstr "TERMINFO_DIRS") :: evs4, out4, hp4, ?_⟩
    intro s
    simp only [unibi_from_term_dirs, hg]
    exact prefix_event (Event.getenv (cstr "TERMINFO_DIRS"))
      (fun s => unibi_from_term_fallback W s term) evs4 out4 h4 s
  | some l =>
    obtain ⟨evs3, res3, _, _, _, h3⟩ := from_dirs_shape W term l
    exact seq_soft
      (fun s => from_dirs W (s.emit (Event.getenv (cstr "TERMINFO_DIRS"))) l term)
      (fun s => unibi_from_term_fallback W s term)
      (fun s => unibi_from_term_dirs W s term) _ evs4 res3.2 out4
      (prefix_event (Event.getenv (cstr "TERMINFO_DIRS")) (fun s => from_dirs W s l term)
        evs3 res3.2 h3)
      h4 (by intro s; simp only [unibi_from_term_dirs, hg]) hp4

theorem from_dir_shape_none (W : World) (dir : CStr) (mid : Option CStr) (term : CStr) :
    ∃ evs out, ∀ s, (from_dir W s dir none mid term).2.trace = s.trace ++ evs ∧
      yields (from_dir W s dir none mid term) out := by
  obtain ⟨evs, out, _, _, h⟩ := from_dir_shape W dir none mid term
  exact ⟨_, out, h⟩

theorem unibi_from_term_home_shape (W : World) (term : CStr) :
    ∃ evs out, no_soft_access out ∧
      ∀ s, (unibi_from_term_home W s term).2.trace = s.trace ++ evs ∧
        yields (unibi_from_term_home W s term) out := by
  obtain ⟨evs3, out3, hp3, h3⟩ := unibi_from_term_dirs_shape W term
  cases hg : W.getenv (cstr "HOME") with
  | none =>
    refine ⟨Event.getenv (cstr "HOME") :: evs3, out3, hp3, ?_⟩
    intro s
    simp only [unibi_from_term_home, hg]
    exact prefix_event (Event.getenv (cstr "HOME"))
      (fun s => unibi_from_term_dirs W s term) evs3 out3 h3 s
  | some d =>
    obtain ⟨evs2, out2, h2⟩ := from_dir_shape_none W d (some (cstr ".terminfo")) term
    exact seq_soft
      (fun s => from_dir W (s.emit (Event.getenv (cstr "HOME"))) d none
        (some (cstr ".terminfo")) term)
      (fun s => unibi_from_term_dirs W s term)
      (fun s => unibi_from_term_home W s term) _ evs3 out2 out3
      (prefix_event (Event.getenv (cstr "HOME"))
        (fun s => from_dir W s d none (some (cstr ".terminfo")) term) evs2 out2 h2)
      h3 (by intro s; simp only [unibi_from_term_home, hg]) hp3

/-- The function `unibi_from_term`: its events and its result (the record, or the
`errno` of a failure) do not depend on the incoming state, and a failure is
never `EPERM` or `EACCES`. -/
theorem unibi_from_term_shape (W : World) (term : CStr) :
    ∃ evs out, no_soft_access out ∧
      ∀ s, (unibi_from_term W s term).2.trace = s.trace ++ evs ∧
        yields (unibi_from_term W s term) out := by
  by_cases hv : term.headD 0 = 0 ∨ term.headD 0 = 46 ∨ (strchr term 47).isSome = true
  · refine ⟨[], Except.error EINVAL, ?_, ?_⟩
    · intro e he; cases he; decide
    · intro s
      simp only [unibi_from_term, if_pos hv, State.set_errno, yields, List.append_nil, and_self]
  · obtain ⟨evs2, out2, hp2, h2⟩ := unibi_from_term_home_shape W term
    cases hg : W.getenv (cstr "TERMINFO") with
    | none =>
      refine ⟨Event.getenv (cstr "TERMINFO") :: evs2, out2, hp2, ?_⟩
      intro s
      simp only [unibi_from_term, if_neg hv, hg]
      exact prefix_event (Event.getenv (cstr "TERMINFO"))
        (fun s => unibi_from_term_home W s term) evs2 out2 h2 s
    | some d =>
      obtain ⟨evs1, out1, h1⟩ := from_dir_shape_none W d none term
      exact seq_any
        (fun s => from_dir W (s.emit (Event.getenv (cstr "TERMINFO"))) d none none term)
        (fun s => unibi_from_term_home W s term)
        (fun s => unibi_from_term W s term) _ evs2 out1 out2
        (prefix_event (Event.getenv (cstr "TERMINFO"))
          (fun s => from_dir W s d none none term) evs1 out1 h1)
        h2 (by intro s; simp only [unibi_from_term, if_neg hv, hg]) hp2

theorem invalid_name_test (term : CStr) (h : term = [] ∨ term.head? = some 46 ∨ 47 ∈ term) :
    term.headD 0 = 0 ∨ term.headD 0 = 46 ∨ (strchr term 47).isSome = true := by
  rcases h with h | h | h
  · subst h; exact Or.inl rfl
  · cases term with
    | nil => simp at h
    | cons b bs =>
      simp at h
      subst h
      exact Or.inr (Or.inl rfl)
  · exact Or.inr (Or.inr (strchr_isSome_of_mem term 47 h))

/-- C12: when `unibi_from_term` returns no record, its `errno` is neither `EPERM`
nor `EACCES`, for every name, world and incoming state; so the only error of
the soft kind (`ENOENT`, `EPERM`, `EACCES`) a caller can see is `ENOENT`. -/
theorem unibi_from_term_never_permission_error (W : World) (s : State) (term : CStr)
    (h : (unibi_from_term W s term).1 = none) :
    (unibi_from_term W s term).2.errno ≠ EPERM ∧
    (unibi_from_term W s term).2.errno ≠ EACCES ∧
    (soft (unibi_from_term W s term).2.errno → (unibi_from_term W s term).2.errno = ENOENT) := by
  obtain ⟨evs, out, hp, hs⟩ := unibi_from_term_shape W term
  have hy := (hs s).2
  cases out with
  | ok u =>
    have := yields_ok hy rfl
    rw [h] at this
    cases this
  | error e =>
    have he := (yields_error hy rfl).2
    obtain ⟨h1, h2⟩ := hp e rfl
    rw [he]
    refine ⟨h1, h2, ?_⟩
    intro hsoft
    unfold soft at hsoft
    omega

/-- Witness of C12: `TERMINFO=/t`, where `open` is denied (`EACCES`) on both
`/t/x/xterm` and the paths of the compiled-in list; the caller sees `ENOENT`. -/
theorem unibi_from_term_never_permission_error_witness :
    (unibi_from_term
      (example_world 64 [] [cstr "/t/x/xterm", cstr "/l/x/xterm"]
        [(cstr "TERMINFO", cstr "/t")] (cstr "/d") (cstr "/l"))
      { errno := 0, trace := [] } (cstr "xterm")).2.errno ≠ EPERM ∧
    (unibi_from_term
      (example_world 64 [] [cstr "/t/x/xterm", cstr "/l/x/xterm"]
        [(cstr "TERMINFO", cstr "/t")] (cstr "/d") (cstr "/l"))
      { errno := 0, trace := [] } (cstr "xterm")).2.errno ≠ EACCES ∧
    (soft (unibi_from_term
      (example_world 64 [] [cstr "/t/x/xterm", cstr "/l/x/xterm"]
        [(cstr "TERMINFO", cstr "/t")] (cstr "/d") (cstr "/l"))
      { errno := 0, trace := [] } (cstr "xterm")).2.errno →
     (unibi_from_term
      (example_world 64 [] [cstr "/t/x/xterm", cstr "/l/x/xterm"]
        [(cstr "TERMINFO", cstr "/t")] (cstr "/d") (cstr "/l"))
      { errno := 0, trace := [] } (cstr "xterm")).2.errno = ENOENT) :=
  unibi_from_term_never_permission_error _ _ _ (by decide)

/-- C13: when `TERM` is unset `unibi_from_env` returns no record with `ENOENT`
and its only event is the `getenv` (no attempt, no `open`); when `TERM` is set
to `t` it is `unibi_from_term` on `t` run after that `getenv`, and it returns
the same record, the same `errno` on failure and the same events as
`unibi_from_term` on `t` run from the state `unibi_from_env` started in; for a
malformed `t` this is `EINVAL` with no further event. -/
theorem unibi_from_env_delegates (W : World) (s : State) :
    (W.getenv (cstr "TERM") = none →
      unibi_from_env W s
        = (none, { errno := ENOENT, trace := s.trace ++ [Event.getenv (cstr "TERM")] })) ∧
    (∀ t, W.getenv (cstr "TERM") = some t →
      unibi_from_env W s = unibi_from_term W (s.emit (Event.getenv (cstr "TERM"))) t ∧
      (unibi_from_env W s).1 = (unibi_from_term W s t).1 ∧
      ((unibi_from_env W s).1 = none →
        (unibi_from_env W s).2.errno = (unibi_from_term W s t).2.errno) ∧
      ∃ evs, (unibi_from_term W s t).2.trace = s.trace ++ evs ∧
        (unibi_from_env W s).2.trace = s.trace ++ Event.getenv (cstr "TERM") :: evs) ∧
    (∀ t, W.getenv (cstr "TERM") = some t → (t = [] ∨ t.head? = some 46 ∨ 47 ∈ t) →
      unibi_from_env W s
        = (none, { errno := EINVAL, trace := s.trace ++ [Event.getenv (cstr "TERM")] })) := by
  refine ⟨?_, ?_, ?_⟩
  · intro hg
    simp only [unibi_from_env, hg, State.emit, State.set_errno]
  · intro t hg
    have heq : unibi_from_env W s = unibi_from_term W (s.emit (Event.getenv (cstr "TERM"))) t := by
      simp only [unibi_from_env, hg]
    obtain ⟨evs, out, _, hs⟩ := unibi_from_term_shape W t
    obtain ⟨t1, y1⟩ := hs s
    obtain ⟨t2, y2⟩ := hs (s.emit (Event.getenv (cstr "TERM")))
    rw [← heq] at t2 y2
    refine ⟨heq, ?_, ?_, evs, t1, ?_⟩
    · cases out with
      | ok u => rw [yields_ok y1 rfl, yields_ok y2 rfl]
      | error e => rw [(yields_error y1 rfl).1, (yields_error y2 rfl).1]
    · intro hn
      cases out with
      | ok u =>
        have := yields_ok y2 rfl
        rw [hn] at this
        cases this
      | error e => rw [(yields_error y1 rfl).2, (yields_error y2 rfl).2]
    · rw [t2]
      simp [State.emit]
  · intro t hg ht
    simp only [unibi_from_env, hg, unibi_from_term, if_pos (invalid_name_test t ht),
      State.emit, State.set_errno]

/-- Witness of C13: `TERM=a/b`, a malformed name. -/
theorem unibi_from_env_delegates_witness :
    unibi_from_env
        (example_world 64 [] [] [(cstr "TERM", cstr "a/b")] (cstr "/d") (cstr "/l"))
        { errno := 0, trace := [] }
      = (none, { errno := EINVAL, trace := [] ++ [Event.getenv (cstr "TERM")] }) :=
  (unibi_from_env_delegates
    (example_world 64 [] [] [(cstr "TERM", cstr "a/b")] (cstr "/d") (cstr "/l"))
    { errno := 0, trace := [] }).2.2 (cstr "a/b") rfl (Or.inr (Or.inr (by decide)))

/-- C16: for `size_t` values `d` and `s` of width `w`, `add_overflowed` stores
`(d + s) mod 2 ^ w` and returns true exactly when the mathematical sum exceeds
`2 ^ w - 1`, that is exactly when the stored value differs from the sum. -/
theorem add_overflowed_wraps (w d s : Nat) (hd : d < 2 ^ w) (hs : s < 2 ^ w) :
    (add_overflowed w d s).1 = (d + s) % 2 ^ w ∧
    ((add_overflowed w d s).2 = true ↔ 2 ^ w - 1 < d + s) ∧
    ((add_overflowed w d s).2 = true ↔ (add_overflowed w d s).1 ≠ d + s) := by
  rw [add_overflowed_eq w d s hd hs]
  refine ⟨rfl, ?_, ?_⟩
  · simp only [decide_eq_true_eq]
    omega
  · simp only [decide_eq_true_eq]
    constructor
    · intro h hm
      have := Nat.mod_lt (d + s) (by omega : 0 < 2 ^ w)
      omega
    · intro h
      by_contra hlt
      exact h (Nat.mod_eq_of_lt (by omega))

/-- Witness of C16: an 8-bit `size_t`, `200 + 100` wraps to 44. -/
theorem add_overflowed_wraps_witness :
    (add_overflowed 8 200 100).1 = (200 + 100) % 2 ^ 8 ∧
    ((add_overflowed 8 200 100).2 = true ↔ 2 ^ 8 - 1 < 200 + 100) ∧
    ((add_overflowed 8 200 100).2 = true ↔ (add_overflowed 8 200 100).1 ≠ 200 + 100) :=
  add_overflowed_wraps 8 200 100 (by decide) (by decide)

/-- C11 fails on the code at the `TERMINFO` step: with `TERMINFO=/etc/passwd`,
where `open` of `/etc/passwd/x/xterm` fails with `ENOTDIR` (a hard error), and
a valid entry `/l/x/xterm` in the compiled-in list `/l`, `unibi_from_term` does
not stop: it goes on to the later steps, attempts `/l` and returns its record. -/
theorem unibi_from_term_terminfo_hard_error_continues :
    dir_outcome
        (example_world_errs 64 [(cstr "/l/x/xterm", 1)] [(cstr "/etc/passwd/x/xterm", ENOTDIR)]
          [(cstr "TERMINFO", cstr "/etc/passwd")] (cstr "/d") (cstr "/l"))
        (cstr "/etc/passwd") none (cstr "xterm") = Except.error ENOTDIR ∧
    ¬ soft ENOTDIR ∧
    attempts (unibi_from_term
        (example_world_errs 64 [(cstr "/l/x/xterm", 1)] [(cstr "/etc/passwd/x/xterm", ENOTDIR)]
          [(cstr "TERMINFO", cstr "/etc/passwd")] (cstr "/d") (cstr "/l"))
        { errno := 0, trace := [] } (cstr "xterm")).2.trace
      = [(cstr "/etc/passwd", none), (cstr "/l", none)] ∧
    (unibi_from_term
        (example_world_errs 64 [(cstr "/l/x/xterm", 1)] [(cstr "/etc/passwd/x/xterm", ENOTDIR)]
          [(cstr "TERMINFO", cstr "/etc/passwd")] (cstr "/d") (cstr "/l"))
        { errno := 0, trace := [] } (cstr "xterm")).1 = some ⟨1⟩ := by
  refine ⟨rfl, by decide, by decide, by decide⟩

theorem isEmpty_append_cons_false (xs : List CStr) (y : CStr) (ys : List CStr) :
    (xs ++ y :: ys).isEmpty = false := by
  cases xs <;> rfl

/-- A run of non-empty entries that all fail softly is attempted in full, and the
walk goes on with what follows. -/
theorem walk_outcome_run (W : World) (term : CStr) (flag : Bool) (y : CStr) (ys : List CStr) :
    ∀ (p : List CStr), [] ∉ p →
      (∀ d ∈ p, ∃ e, dir_outcome W d none term = Except.error e ∧ soft e) →
      walk_outcome W term (p ++ y :: ys) flag
        = (p ++ (walk_outcome W term (y :: ys) flag).1, (walk_outcome W term (y :: ys) flag).2) := by
  intro p
  induction p with
  | nil => intro _ _; rfl
  | cons e es ih =>
    intro hne hsoft
    have he : e ≠ [] := fun h => hne (by simp [h])
    have hes : [] ∉ es := fun h => hne (by simp [h])
    obtain ⟨err, ho, hs⟩ := hsoft e (by simp)
    have ih' := ih hes (fun d hd => hsoft d (by simp [hd]))
    rw [List.cons_append, walk_outcome]
    simp only [he, ne_eq, not_false_eq_true, if_true, ho, after_attempt, hs,
      isEmpty_append_cons_false, Bool.false_eq_true, if_false, ih', List.cons_append]

/-- Once the flag is set, an empty entry met after softly failing non-empty
entries ends the walk with outcome 0. -/
theorem walk_outcome_exhausted (W : World) (term : CStr) (p es2 : List CStr)
    (hne : [] ∉ p) (hsoft : ∀ d ∈ p, ∃ e, dir_outcome W d none term = Except.error e ∧ soft e) :
    walk_outcome W term (p ++ [] :: es2) true = (p, Except.error 0) := by
  rw [walk_outcome_run W term true [] es2 p hne hsoft]
  simp [walk_outcome]

theorem walk_outcome_exhausted_second (W : World) (term : CStr) (p q es2 : List CStr)
    (hp : [] ∉ p) (hq : [] ∉ q)
    (hsoft : ∀ d ∈ p ++ W.unibi_terminfo :: q,
      ∃ e, dir_outcome W d none term = Except.error e ∧ soft e) :
    walk_outcome W term (p ++ [] :: (q ++ [] :: es2)) false
      = (p ++ W.unibi_terminfo :: q, Except.error 0) := by
  rw [walk_outcome_run W term false [] _ p hp (fun d hd => hsoft d (by simp [hd]))]
  obtain ⟨err, ho, hs⟩ := hsoft W.unibi_terminfo (by simp)
  have hq' := walk_outcome_exhausted W term q es2 hq (fun d hd => hsoft d (by simp [hd]))
  simp only [walk_outcome, ne_eq, not_true_eq_false, if_false, Bool.false_eq_true,
    not_false_eq_true, if_true, ho, after_attempt, hs, isEmpty_append_cons_false, hq']

theorem unibi_from_term_dirs_zero (W : World) (term : CStr) (l : CStr)
    (hl : W.getenv (cstr "TERMINFO_DIRS") = some l)
    (hz : ∀ s', (from_dirs W s' l term).1 = none ∧ (from_dirs W s' l term).2.errno = 0)
    (s : State) :
    (unibi_from_term_dirs W s term).1 = none ∧ (unibi_from_term_dirs W s term).2.errno = 0 ∧
    ∃ evs, (unibi_from_term_dirs W s term).2.trace = s.trace ++ evs ∧
      attempts evs = attempts (from_dirs W ⟨0, []⟩ l term).2.trace := by
  obtain ⟨hn, he⟩ := hz (s.emit (Event.getenv (cstr "TERMINFO_DIRS")))
  have hc : (from_dirs W (s.emit (Event.getenv (cstr "TERMINFO_DIRS"))) l term).2.errno ≠ ENOENT ∧
      (from_dirs W (s.emit (Event.getenv (cstr "TERMINFO_DIRS"))) l term).2.errno ≠ EPERM ∧
      (from_dirs W (s.emit (Event.getenv (cstr "TERMINFO_DIRS"))) l term).2.errno ≠ EACCES := by
    rw [he]; decide
  have heq : unibi_from_term_dirs W s term
      = (none, (from_dirs W (s.emit (Event.getenv (cstr "TERMINFO_DIRS"))) l term).2) := by
    simp only [unibi_from_term_dirs, hl]
    rw [if_neg (by rw [hn]; simp), if_pos hc]
  obtain ⟨evs, res, _, _, _, hs⟩ := from_dirs_shape W term l
  rw [heq]
  refine ⟨rfl, he, Event.getenv (cstr "TERMINFO_DIRS") :: evs, ?_, ?_⟩
  · simp only []
    rw [(hs _).1]
    simp [State.emit]
  · rw [(hs ⟨0, []⟩).1]
    simp [attempts]

theorem unibi_from_term_home_zero (W : World) (term : CStr) (l : CStr)
    (hl : W.getenv (cstr "TERMINFO_DIRS") = some l)
    (hz : ∀ s', (from_dirs W s' l term).1 = none ∧ (from_dirs W s' l term).2.errno = 0)
    (hh : ∀ d, W.getenv (cstr "HOME") = some d →
      ∃ e, dir_outcome W d (some (cstr ".terminfo")) term = Except.error e ∧ soft e)
    (s : State) :
    (unibi_from_term_home W s term).1 = none ∧ (unibi_from_term_home W s term).2.errno = 0 ∧
    ∃ evs, (unibi_from_term_home W s term).2.trace = s.trace ++ evs ∧
      attempts evs = env_attempt W (cstr "HOME") (some (cstr ".terminfo"))
        ++ attempts (from_dirs W ⟨0, []⟩ l term).2.trace := by
  cases hg : W.getenv (cstr "HOME") with
  | none =>
    obtain ⟨h1, h2, evs, h3, h4⟩ := unibi_from_term_dirs_zero W term l hl hz
      (s.emit (Event.getenv (cstr "HOME")))
    simp only [unibi_from_term_home, hg, env_attempt]
    refine ⟨h1, h2, Event.getenv (cstr "HOME") :: evs, ?_, ?_⟩
    · rw [h3]; simp [State.emit]
    · simp [attempts, h4]
  | some d =>
    obtain ⟨e, ho, hs⟩ := hh d hg
    obtain ⟨evs2, a1, _, a3⟩ := from_dir_frame W d (some (cstr ".terminfo")) term
    obtain ⟨htr, hy⟩ := a3 (s.emit (Event.getenv (cstr "HOME")))
    obtain ⟨hn, he⟩ := yields_error hy ho
    have hc : ¬ ((from_dir W (s.emit (Event.getenv (cstr "HOME"))) d none
          (some (cstr ".terminfo")) term).2.errno ≠ ENOENT ∧
        (from_dir W (s.emit (Event.getenv (cstr "HOME"))) d none
          (some (cstr ".terminfo")) term).2.errno ≠ EPERM ∧
        (from_dir W (s.emit (Event.getenv (cstr "HOME"))) d none
          (some (cstr ".terminfo")) term).2.errno ≠ EACCES) := by
      rw [he]; unfold soft at hs; omega
    obtain ⟨h1, h2, evs, h3, h4⟩ := unibi_from_term_dirs_zero W term l hl hz
      (from_dir W (s.emit (Event.getenv (cstr "HOME"))) d none (some (cstr ".terminfo")) term).2
    simp only [unibi_from_term_home, hg, env_attempt]
    rw [if_neg (by rw [hn]; simp), if_neg hc]
    refine ⟨h1, h2, Event.getenv (cstr "HOME")
      :: Event.from_dir d (some (cstr ".terminfo")) term :: evs2 ++ evs, ?_, ?_⟩
    · rw [h3, htr]; simp [State.emit]
    · simp [attempts, attempts_append, a1, h4]

theorem unibi_from_term_zero (W : World) (term : CStr) (l : CStr)
    (hv : ¬ (term.headD 0 = 0 ∨ term.headD 0 = 46 ∨ (strchr term 47).isSome = true))
    (hl : W.getenv (cstr "TERMINFO_DIRS") = some l)
    (hz : ∀ s', (from_dirs W s' l term).1 = none ∧ (from_dirs W s' l term).2.errno = 0)
    (ht : ∀ d, W.getenv (cstr "TERMINFO") = some d →
      ∃ e, dir_outcome W d none term = Except.error e)
    (hh : ∀ d, W.getenv (cstr "HOME") = some d →
      ∃ e, dir_outcome W d (some (cstr ".terminfo")) term = Except.error e ∧ soft e)
    (s : State) :
    (unibi_from_term W s term).1 = none ∧ (unibi_from_term W s term).2.errno = 0 ∧
    ∃ evs, (unibi_from_term W s term).2.trace = s.trace ++ evs ∧
      attempts evs = env_attempt W (cstr "TERMINFO") none
        ++ env_attempt W (cstr "HOME") (some (cstr ".terminfo"))
        ++ attempts (from_dirs W ⟨0, []⟩ l term).2.trace := by
  cases hg : W.getenv (cstr "TERMINFO") with
  | none =>
    obtain ⟨h1, h2, evs, h3, h4⟩ := unibi_from_term_home_zero W term l hl hz hh
      (s.emit (Event.getenv (cstr "TERMINFO")))
    simp only [unibi_from_term, if_neg hv, hg]
    refine ⟨h1, h2, Event.getenv (cstr "TERMINFO") :: evs, ?_, ?_⟩
    · rw [h3]; simp [State.emit]
    · simp [attempts, h4, env_attempt, hg]
  | some d =>
    obtain ⟨e, ho⟩ := ht d hg
    obtain ⟨evs1, a1, _, a3⟩ := from_dir_frame W d none term
    obtain ⟨htr, hy⟩ := a3 (s.emit (Event.getenv (cstr "TERMINFO")))
    obtain ⟨hn, he⟩ := yields_error hy ho
    obtain ⟨h1, h2, evs, h3, h4⟩ := unibi_from_term_home_zero W term l hl hz hh
      (from_dir W (s.emit (Event.getenv (cstr "TERMINFO"))) d none none term).2
    simp only [unibi_from_term, if_neg hv, hg]
    rw [if_neg (by rw [hn]; simp)]
    refine ⟨h1, h2, Event.getenv (cstr "TERMINFO") :: Event.from_dir d none term :: evs1 ++ evs,
      ?_, ?_⟩
    · rw [h3, htr]; simp [State.emit]
    · simp [attempts, attempts_append, a1, h4, env_attempt, hg]

/-- C19: let the walk of `from_dirs` over a non-empty list reach an empty entry
while the flag is set, all attempts before it having failed softly: either the
fallback directory `D0` is the empty string and the entries before that empty
entry are the non-empty entries `p`, or `D0` is non-empty and those entries are
`p`, one empty entry (for which `D0` was attempted) and `q`.  Then `from_dirs`
returns no record with `errno = 0`, and its attempts are exactly `p`, or `p`,
`D0`, `q`: no later entry is attempted.  Consequently, if `from_dirs` ends so on
the value of `TERMINFO_DIRS` and the `TERMINFO` and `HOME` attempts (when made)
failed, the latter softly, `unibi_from_term` returns no record with `errno = 0`
and its attempts end with those of that walk: the compiled-in list is not walked. -/
theorem from_dirs_exhausted_empty_entry (W : World) (list : CStr) (term : CStr)
    (h0 : 0 ∉ list) (hD : 0 ∉ W.unibi_terminfo) (hne : list ≠ []) :
    (∀ p es2, W.unibi_terminfo = [] → entries list = p ++ [] :: es2 → [] ∉ p →
      (∀ d ∈ p, ∃ e, dir_outcome W d none term = Except.error e ∧ soft e) →
      ∀ s, (from_dirs W s list term).1 = none ∧ (from_dirs W s list term).2.errno = 0 ∧
        ∃ evs, (from_dirs W s list term).2.trace = s.trace ++ evs ∧
          attempts evs = p.map (fun d => (d, none))) ∧
    (∀ p q es2, W.unibi_terminfo ≠ [] → entries list = p ++ [] :: (q ++ [] :: es2) →
      [] ∉ p → [] ∉ q →
      (∀ d ∈ p ++ W.unibi_terminfo :: q,
        ∃ e, dir_outcome W d none term = Except.error e ∧ soft e) →
      ∀ s, (from_dirs W s list term).1 = none ∧ (from_dirs W s list term).2.errno = 0 ∧
        ∃ evs, (from_dirs W s list term).2.trace = s.trace ++ evs ∧
          attempts evs = (p ++ W.unibi_terminfo :: q).map (fun d => (d, none))) ∧
    (W.getenv (cstr "TERMINFO_DIRS") = some list →
      (∀ s', (from_dirs W s' list term).1 = none ∧ (from_dirs W s' list term).2.errno = 0) →
      term ≠ [] → 0 ∉ term → term.head? ≠ some 46 → 47 ∉ term →
      (∀ d, W.getenv (cstr "TERMINFO") = some d →
        ∃ e, dir_outcome W d none term = Except.error e) →
      (∀ d, W.getenv (cstr "HOME") = some d →
        ∃ e, dir_outcome W d (some (cstr ".terminfo")) term = Except.error e ∧ soft e) →
      ∀ s, (unibi_from_term W s term).1 = none ∧ (unibi_from_term W s term).2.errno = 0 ∧
        ∃ evs, (unibi_from_term W s term).2.trace = s.trace ++ evs ∧
          attempts evs = env_attempt W (cstr "TERMINFO") none
            ++ env_attempt W (cstr "HOME") (some (cstr ".terminfo"))
            ++ attempts (from_dirs W ⟨0, []⟩ list term).2.trace) := by
  have hhd : ¬ list.headD 0 = 0 := fun h => hne ((headD_eq_zero_iff list h0).mp h)
  have hflag : decide (W.unibi_terminfo.headD 0 = 0) = decide (W.unibi_terminfo = []) := by
    rw [decide_eq_decide]; exact headD_eq_zero_iff _ hD
  obtain ⟨evs, h1, _, h3⟩ := from_dirs_walk W term list h0
  refine ⟨?_, ?_, ?_⟩
  · intro p es2 hd0 hent hp hsoft s
    have ho : from_dirs_outcome W term list = (p, Except.error 0) := by
      simp only [from_dirs_outcome, if_neg hhd, hflag, hd0, decide_True, hent]
      exact walk_outcome_exhausted W term p es2 hp hsoft
    rw [ho] at h1 h3
    obtain ⟨ht, hy⟩ := h3 s
    exact ⟨hy.1, hy.2, evs, ht, h1⟩
  · intro p q es2 hd0 hent hp hq hsoft s
    have ho : from_dirs_outcome W term list = (p ++ W.unibi_terminfo :: q, Except.error 0) := by
      simp only [from_dirs_outcome, if_neg hhd, hflag, hd0, decide_False, hent]
      exact walk_outcome_exhausted_second W term p q es2 hp hq hsoft
    rw [ho] at h1 h3
    obtain ⟨ht, hy⟩ := h3 s
    exact ⟨hy.1, hy.2, evs, ht, h1⟩
  · intro hl hz hne' h0' hdot hsl ht hh s
    exact unibi_from_term_zero W term list (valid_name_passes term hne' h0' hdot hsl) hl hz ht hh s

/-- Witness of C19: `TERMINFO_DIRS=::/a` with fallback directory `/d` and no
terminfo file anywhere; the compiled-in list `/l` is never attempted. -/
theorem from_dirs_exhausted_empty_entry_witness :
    (unibi_from_term
      (example_world 64 [] [] [(cstr "TERMINFO_DIRS", cstr "::/a")] (cstr "/d") (cstr "/l"))
      { errno := ENOENT, trace := [] } (cstr "xterm")).1 = none ∧
    (unibi_from_term
      (example_world 64 [] [] [(cstr "TERMINFO_DIRS", cstr "::/a")] (cstr "/d") (cstr "/l"))
      { errno := ENOENT, trace := [] } (cstr "xterm")).2.errno = 0 ∧
    ∃ evs, (unibi_from_term
      (example_world 64 [] [] [(cstr "TERMINFO_DIRS", cstr "::/a")] (cstr "/d") (cstr "/l"))
      { errno := ENOENT, trace := [] } (cstr "xterm")).2.trace = [] ++ evs ∧
      attempts evs = [(cstr "/d", none)] :=
  have T := from_dirs_exhausted_empty_entry
    (example_world 64 [] [] [(cstr "TERMINFO_DIRS", cstr "::/a")] (cstr "/d") (cstr "/l"))
    (cstr "::/a") (cstr "xterm") (by decide) (by decide) (by decide)
  have R := T.2.2 rfl
    (fun s' =>
      have r := T.2.1 [] [] [cstr "/a"] (by decide) (by decide) (by decide) (by decide)
        (fun d hd => by
          have hd' : d = cstr "/d" := by simpa using hd
          subst hd'
          exact ⟨ENOENT, rfl, by decide⟩) s'
      ⟨r.1, r.2.1⟩)
    (by decide) (by decide) (by decide) (by decide)
    (fun d hd => by
      have hd' : (none : Option CStr) = some d := hd
      cases hd')
    (fun d hd => by
      have hd' : (none : Option CStr) = some d := hd
      cases hd')
    { errno := ENOENT, trace := [] }
  match R with
  | ⟨r1, r2, evs, r3, r4⟩ => ⟨r1, r2, evs, r3, by rw [r4]; decide⟩

theorem strchr_get (a : CStr) (c i : Nat) (h : strchr a c = some i) :
    a.get? i = some c ∧ c ∉ a.take i ∧ (a.drop (i + 1)).count c + 1 = a.count c := by
  induction a generalizing i with
  | nil => simp [strchr] at h
  | cons b bs ih =>
    simp only [strchr] at h
    split at h
    · rename_i hb
      simp at h
      subst h
      subst hb
      simp
    · rename_i hb
      cases hs : strchr bs c with
      | none => simp [hs] at h
      | some j =>
        simp [hs] at h
        subst h
        obtain ⟨h1, h2, h3⟩ := ih j hs
        refine ⟨by simpa using h1, ?_, ?_⟩
        · simp only [List.take_succ_cons, List.mem_cons, not_or]
          exact ⟨fun hc => hb hc.symm, h2⟩
        · simp only [List.drop_succ_cons]
          rw [List.count_cons_of_ne (fun hc => hb hc.symm)]
          exact h3

theorem entries_no_colon (a : CStr) : ∀ e ∈ entries a, 58 ∉ e := by
  induction a with
  | nil => simp [entries]
  | cons b bs ih =>
    intro e he
    simp only [entries] at he
    split at he
    · rcases List.mem_cons.mp he with h | h
      · subst h; simp
      · exact ih e h
    · rename_i hb
      cases hx : entries bs with
      | nil => exact absurd hx (entries_ne_nil bs)
      | cons x xs =>
        rw [hx] at he ih
        simp only [List.mem_cons] at he
        rcases he with h | h
        · subst h
          have := ih x (by simp)
          simp only [List.mem_cons, not_or]
          exact ⟨fun hc => hb hc.symm, this⟩
        · exact ih e (by simp [h])

theorem entries_length (a : CStr) : (entries a).length = a.count 58 + 1 := by
  induction a with
  | nil => rfl
  | cons b bs ih =>
    simp only [entries]
    split
    · rename_i hb
      subst hb
      simp [ih]
    · rename_i hb
      cases hx : entries bs with
      | nil => exact absurd hx (entries_ne_nil bs)
      | cons x xs =>
        rw [hx] at ih
        rw [List.count_cons_of_ne (fun hc => hb hc.symm)]
        simpa using ih

theorem entries_intercalate (a : CStr) : List.intercalate [58] (entries a) = a := by
  induction a with
  | nil => rfl
  | cons b bs ih =>
    simp only [entries]
    split
    · rename_i hb
      subst hb
      cases hx : entries bs with
      | nil => exact absurd hx (entries_ne_nil bs)
      | cons x xs =>
        rw [hx] at ih
        simp only [List.intercalate, List.intersperse, List.flatten] at ih ⊢
        simp [ih]
    · cases hx : entries bs with
      | nil => exact absurd hx (entries_ne_nil bs)
      | cons x xs =>
        rw [hx] at ih
        cases xs with
        | nil =>
          simp only [List.intercalate, List.intersperse, List.flatten] at ih ⊢
          simp at ih ⊢
          exact ih
        | cons y ys =>
          simp only [List.intercalate, List.intersperse, List.flatten] at ih ⊢
          simp at ih ⊢
          exact ih

theorem from_dirs_iterations_le (W : World) (term : CStr) :
    ∀ (fuel : Nat) (a : CStr) (s : State) (ut : Option unibi_term) (searched : Bool)
      (h : a.length ≤ fuel),
      from_dirs_iterations W term fuel a s ut searched h ≤ a.count 58 + 1 := by
  intro fuel
  induction fuel with
  | zero =>
    intro a s ut searched h
    rw [from_dirs_iterations]
    split
    · omega
    · split
      · omega
      · rename_i i hz
        have := strchr_lt a 58 i hz
        omega
  | succ k ih =>
    intro a s ut searched h
    rw [from_dirs_iterations]
    split
    · omega
    · split
      · omega
      · rename_i i hz
        have hc := (strchr_get a 58 i hz).2.2
        have := ih (a.drop (i + 1)) (from_dirs_step W term a s ut searched).2.1
          (from_dirs_step W term a s ut searched).1 (from_dirs_step W term a s ut searched).2.2
          (by simp only [List.length_drop]; have := strchr_lt a 58 i hz; omega)
        show 1 + from_dirs_iterations W term k (a.drop (i + 1)) _ _ _ _ ≤ a.count 58 + 1
        omega

theorem candidates_length_le (d0 : CStr) : ∀ (es : List CStr) (flag : Bool),
    (candidates d0 flag es).length ≤ es.length := by
  intro es
  induction es with
  | nil => intro flag; simp [candidates]
  | cons e es ih =>
    intro flag
    simp only [candidates]
    split
    · simpa using ih flag
    · split
      · simpa using ih true
      · have := ih flag
        simp only [List.length_cons]
        omega

theorem candidates_mem (d0 : CStr) : ∀ (es : List CStr) (flag : Bool),
    ∀ d ∈ candidates d0 flag es, d = d0 ∨ (d ≠ [] ∧ d ∈ es) := by
  intro es
  induction es with
  | nil => intro flag d hd; simp [candidates] at hd
  | cons e es ih =>
    intro flag d hd
    simp only [candidates] at hd
    split at hd
    · rename_i he
      rcases List.mem_cons.mp hd with h | h
      · subst h; exact Or.inr ⟨he, by simp⟩
      · rcases ih flag d h with h1 | ⟨h1, h2⟩
        · exact Or.inl h1
        · exact Or.inr ⟨h1, by simp [h2]⟩
    · split at hd
      · rcases List.mem_cons.mp hd with h | h
        · exact Or.inl h
        · rcases ih true d h with h1 | ⟨h1, h2⟩
          · exact Or.inl h1
          · exact Or.inr ⟨h1, by simp [h2]⟩
      · rcases ih flag d hd with h1 | ⟨h1, h2⟩
        · exact Or.inl h1
        · exact Or.inr ⟨h1, by simp [h2]⟩

theorem from_dirs_outcome_candidates (W : World) (term : CStr) (list : CStr) :
    (from_dirs_outcome W term list).1
      <+: candidates W.unibi_terminfo (decide (W.unibi_terminfo.headD 0 = 0)) (entries list) := by
  unfold from_dirs_outcome
  split
  · exact List.nil_prefix
  · exact walk_outcome_initial W term _ _

theorem from_dirs_iterations_none (W : World) (term : CStr) (fuel : Nat) (a : CStr) (s : State)
    (ut : Option unibi_term) (searched : Bool) (h : a.length ≤ fuel) (hz : strchr a 58 = none) :
    from_dirs_iterations W term fuel a s ut searched h = 1 := by
  cases fuel with
  | zero =>
    rw [from_dirs_iterations]
    split
    · rfl
    · split
      · rfl
      · rename_i i hi; rw [hz] at hi; cases hi
  | succ k =>
    rw [from_dirs_iterations]
    split
    · rfl
    · split
      · rfl
      · rename_i i hi; rw [hz] at hi; cases hi

theorem from_dirs_iterations_some (W : World) (term : CStr) (fuel : Nat) (a : CStr) (s : State)
    (ut : Option unibi_term) (searched : Bool) (h : a.length ≤ fuel) (i : Nat)
    (hz : strchr a 58 = some i) :
    ∃ (k : Nat) (hk : (a.drop (i + 1)).length ≤ k), fuel = k + 1 ∧
    from_dirs_iterations W term fuel a s ut searched h =
      if (from_dirs_step W term a s ut searched).1.isSome ∨
          ((from_dirs_step W term a s ut searched).2.1.errno ≠ ENOENT ∧
           (from_dirs_step W term a s ut searched).2.1.errno ≠ EPERM ∧
           (from_dirs_step W term a s ut searched).2.1.errno ≠ EACCES) then 1
      else
        1 + from_dirs_iterations W term k (a.drop (i + 1))
          (from_dirs_step W term a s ut searched).2.1
          (from_dirs_step W term a s ut searched).1 (from_dirs_step W term a s ut searched).2.2 hk := by
  have hlt := strchr_lt a 58 i hz
  cases fuel with
  | zero => omega
  | succ k =>
    refine ⟨k, by simp only [List.length_drop]; omega, rfl, ?_⟩
    rw [from_dirs_iterations]
    split
    · rfl
    · split
      · rename_i hi; rw [hz] at hi; cases hi
      · rename_i j hj
        rw [hz] at hj
        cases hj
        rfl

/-- C20: the walk of `from_dirs` terminates (the embedding is a total function).
The loop runs at most `(number of ':' in the list) + 1` iterations: when a `:`
is found at offset `i` of the rest `a`, no `:` lies before it and the
iteration either returns or continues with the rest after that `:`, which has
one `:` less; when no `:` is found the iteration is the last.  The attempts
are at most that many, and each attempted directory is the fallback directory
or a non-empty entry of the list, the entries being the `:`-free pieces whose
concatenation with `:` between them is the list. -/
theorem from_dirs_terminates (W : World) (s : State) (list : CStr) (term : CStr)
    (h0 : 0 ∉ list) :
    from_dirs_iterations W term list.length list s none
        (decide (W.unibi_terminfo.headD 0 = 0)) (Nat.le_refl _) ≤ list.count 58 + 1 ∧
    (∀ (fuel : Nat) (a : CStr) (s0 : State) (ut : Option unibi_term) (searched : Bool)
        (h : a.length ≤ fuel) (i : Nat), strchr a 58 = some i →
      a.get? i = some 58 ∧ 58 ∉ a.take i ∧ (a.drop (i + 1)).count 58 + 1 = a.count 58 ∧
      ∃ (k : Nat) (hk : (a.drop (i + 1)).length ≤ k),
        (from_dirs_loop W term fuel a s0 ut searched h
            = ((from_dirs_step W term a s0 ut searched).1,
               (from_dirs_step W term a s0 ut searched).2.1) ∧
          from_dirs_iterations W term fuel a s0 ut searched h = 1) ∨
        (from_dirs_loop W term fuel a s0 ut searched h
            = from_dirs_loop W term k (a.drop (i + 1)) (from_dirs_step W term a s0 ut searched).2.1
                (from_dirs_step W term a s0 ut searched).1
                (from_dirs_step W term a s0 ut searched).2.2 hk ∧
          from_dirs_iterations W term fuel a s0 ut searched h
            = 1 + from_dirs_iterations W term k (a.drop (i + 1))
                (from_dirs_step W term a s0 ut searched).2.1
                (from_dirs_step W term a s0 ut searched).1
                (from_dirs_step W term a s0 ut searched).2.2 hk)) ∧
    (∀ (fuel : Nat) (a : CStr) (s0 : State) (ut : Option unibi_term) (searched : Bool)
        (h : a.length ≤ fuel), strchr a 58 = none →
      from_dirs_iterations W term fuel a s0 ut searched h = 1) ∧
    (∃ evs, (from_dirs W s list term).2.trace = s.trace ++ evs ∧
      (attempts evs).length ≤ list.count 58 + 1 ∧
      ∀ x ∈ attempts evs, x.2 = none ∧
        (x.1 = W.unibi_terminfo ∨ (x.1 ≠ [] ∧ x.1 ∈ entries list))) ∧
    (∀ e ∈ entries list, 58 ∉ e) ∧
    List.intercalate [58] (entries list) = list ∧
    (entries list).length = list.count 58 + 1 := by
  refine ⟨from_dirs_iterations_le W term _ _ _ _ _ _, ?_, ?_, ?_, entries_no_colon list,
    entries_intercalate list, entries_length list⟩
  · intro fuel a s0 ut searched h i hz
    obtain ⟨g1, g2, g3⟩ := strchr_get a 58 i hz
    refine ⟨g1, g2, g3, ?_⟩
    obtain ⟨k, hk, hf, heq⟩ := from_dirs_loop_some W term fuel a s0 ut searched h i hz
    obtain ⟨k', hk', hf', heq'⟩ := from_dirs_iterations_some W term fuel a s0 ut searched h i hz
    have hkk : k' = k := by omega
    subst hkk
    refine ⟨k', hk, ?_⟩
    by_cases hc : (from_dirs_step W term a s0 ut searched).1.isSome ∨
          ((from_dirs_step W term a s0 ut searched).2.1.errno ≠ ENOENT ∧
           (from_dirs_step W term a s0 ut searched).2.1.errno ≠ EPERM ∧
           (from_dirs_step W term a s0 ut searched).2.1.errno ≠ EACCES)
    · left
      rw [heq, heq', if_pos hc, if_pos hc]
      exact ⟨rfl, rfl⟩
    · right
      rw [heq, heq', if_neg hc, if_neg hc]
      exact ⟨rfl, rfl⟩
  · intro fuel a s0 ut searched h hz
    exact from_dirs_iterations_none W term fuel a s0 ut searched h hz
  · obtain ⟨evs, h1, _, h3⟩ := from_dirs_walk W term list h0
    have hp := from_dirs_outcome_candidates W term list
    refine ⟨evs, (h3 s).1, ?_, ?_⟩
    · rw [h1, List.length_map]
      have := hp.length_le
      have := candidates_length_le W.unibi_terminfo (entries list)
        (decide (W.unibi_terminfo.headD 0 = 0))
      have := entries_length list
      omega
    · intro x hx
      rw [h1] at hx
      obtain ⟨d, hd, hxd⟩ := List.mem_map.mp hx
      subst hxd
      exact ⟨rfl, candidates_mem W.unibi_terminfo _ _ d (hp.subset hd)⟩

/-- Witness of C20: the list `/b:/D:/c`, with two `:`, is walked in at most three iterations. -/
theorem from_dirs_terminates_witness :
    from_dirs_iterations (example_world 64 [(cstr "/D/78/xterm", 7)] [] [] (cstr "/d") (cstr "/l"))
        (cstr "xterm") (cstr "/b:/D:/c").length (cstr "/b:/D:/c") { errno := 0, trace := [] } none
        (decide ((example_world 64 [(cstr "/D/78/xterm", 7)] [] [] (cstr "/d")
          (cstr "/l")).unibi_terminfo.headD 0 = 0)) (Nat.le_refl _)
      ≤ (cstr "/b:/D:/c").count 58 + 1 :=
  (from_dirs_terminates (example_world 64 [(cstr "/D/78/xterm", 7)] [] [] (cstr "/d") (cstr "/l"))
    { errno := 0, trace := [] } (cstr "/b:/D:/c") (cstr "xterm") (by decide)).1

theorem poke_length (buf : List Nat) (off : Nat) (src : List Nat)
    (h : off + src.length ≤ buf.length) : (poke buf off src).length = buf.length := by
  simp only [poke, List.length_append, List.length_take, List.length_drop]
  omega

theorem fmt_02x_length (c : Nat) : (fmt_02x ((c % 256) &&& 0xff)).length = 2 := by
  rw [fmt_02x_byte (c % 256) (Nat.mod_lt _ (by decide))]
  rfl

theorem path_buffer_lengths (W : World) (sz : Nat) (dir_begin : CStr) (dir_end : Option Nat)
    (mid : Option CStr) (term : CStr)
    (hspan : from_dir_dir_len dir_begin dir_end ≤ dir_begin.length)
    (hml : from_dir_mid_len W.size_bits mid = (mid_segment mid).length)
    (hsz : sz = from_dir_dir_len dir_begin dir_end + (mid_segment mid).length + term.length + 5) :
    (poke ((List.range sz).map W.junk) 0
        (dir_begin.take (from_dir_dir_len dir_begin dir_end))).length = sz ∧
    (from_dir_path_a W sz dir_begin dir_end mid term).length = sz ∧
    (from_dir_path_b W sz dir_begin dir_end mid term).length = sz := by
  have hlen : (dir_begin.take (from_dir_dir_len dir_begin dir_end)).length
      = from_dir_dir_len dir_begin dir_end := by
    rw [List.length_take]; omega
  have hj : ((List.range sz).map W.junk).length = sz := by simp
  have h1 : (poke ((List.range sz).map W.junk) 0
      (dir_begin.take (from_dir_dir_len dir_begin dir_end))).length = sz := by
    rw [poke_length _ _ _ (by rw [hj, hlen]; omega), hj]
  have h2 : (from_dir_path_a W sz dir_begin dir_end mid term).length = sz := by
    unfold from_dir_path_a sprintf
    simp only []
    rw [poke_length, h1]
    rw [h1]
    cases mid with
    | none => simp [mid_segment] at hsz ⊢; omega
    | some m => simp [mid_segment] at hsz ⊢; omega
  refine ⟨h1, h2, ?_⟩
  have hf := fmt_02x_length (term.headD 0)
  unfold from_dir_path_b sprintf
  simp only []
  rw [poke_length, h2]
  rw [h2, hml]
  simp only [List.length_append, List.length_singleton, hf]
  omega

/-- C18: when the size computation does not overflow, `from_dir` requests
`sz = dl + ml + tl + 5` bytes, and the `memcpy` and the two `sprintf` calls
write inside them: the model buffer, which a write past its end would
lengthen, keeps the length `sz` after each of the three writes.  After the
first `sprintf` the buffer is the layout-A string, its NUL and one spare byte,
so that string with its NUL takes `dl + ml + tl + 4` bytes; after the second
it is exactly the layout-B string and its NUL, `dl + ml + tl + 5` bytes.  The
offset `dl + 1 + ml` of the second `sprintf` is the length of the directory
and middle prefix, and in layout A that byte is the first character of the name. -/
theorem from_dir_writes_in_bounds (W : World) (dir_begin : CStr) (dir_end : Option Nat)
    (mid : Option CStr) (c : Nat) (cs : CStr) (sz : Nat)
    (hspan : from_dir_dir_len dir_begin dir_end ≤ dir_begin.length)
    (hd : 0 ∉ dir_begin.take (from_dir_dir_len dir_begin dir_end))
    (hm : ∀ m, mid = some m → 0 ∉ m ∧ m.length + 1 < 2 ^ W.size_bits)
    (ht : 0 ∉ c :: cs)
    (hw : 5 < 2 ^ W.size_bits)
    (hdl : from_dir_dir_len dir_begin dir_end < 2 ^ W.size_bits)
    (htl : (c :: cs).length < 2 ^ W.size_bits)
    (hps : from_dir_path_size W.size_bits (from_dir_dir_len dir_begin dir_end)
      (from_dir_mid_len W.size_bits mid) (strlen (c :: cs)) = some sz) :
    sz = from_dir_dir_len dir_begin dir_end + (mid_segment mid).length + (c :: cs).length + 5 ∧
    (poke ((List.range sz).map W.junk) 0
        (dir_begin.take (from_dir_dir_len dir_begin dir_end))).length = sz ∧
    (from_dir_path_a W sz dir_begin dir_end mid (c :: cs)).length = sz ∧
    (from_dir_path_b W sz dir_begin dir_end mid (c :: cs)).length = sz ∧
    (∃ spare, spare.length = 1 ∧
      from_dir_path_a W sz dir_begin dir_end mid (c :: cs)
        = dir_begin.take (from_dir_dir_len dir_begin dir_end) ++ [47] ++ mid_segment mid
            ++ [c] ++ [47] ++ (c :: cs) ++ [0] ++ spare) ∧
    from_dir_path_b W sz dir_begin dir_end mid (c :: cs)
      = dir_begin.take (from_dir_dir_len dir_begin dir_end) ++ [47] ++ mid_segment mid
          ++ hex2 (c % 256) ++ [47] ++ (c :: cs) ++ [0] ∧
    (c_str (from_dir_path_a W sz dir_begin dir_end mid (c :: cs))).length + 1
      = from_dir_dir_len dir_begin dir_end + (mid_segment mid).length + (c :: cs).length + 4 ∧
    (c_str (from_dir_path_b W sz dir_begin dir_end mid (c :: cs))).length + 1
      = from_dir_dir_len dir_begin dir_end + (mid_segment mid).length + (c :: cs).length + 5 ∧
    from_dir_dir_len dir_begin dir_end + 1 + from_dir_mid_len W.size_bits mid
      = (dir_begin.take (from_dir_dir_len dir_begin dir_end) ++ [47] ++ mid_segment mid).length ∧
    (from_dir_path_a W sz dir_begin dir_end mid (c :: cs)).get?
        (from_dir_dir_len dir_begin dir_end + 1 + from_dir_mid_len W.size_bits mid) = some c := by
  have hlen : (dir_begin.take (from_dir_dir_len dir_begin dir_end)).length
      = from_dir_dir_len dir_begin dir_end := by
    rw [List.length_take]; omega
  have hml := mid_len_eq W.size_bits mid (fun m h => (hm m h).2)
  have hmlt : from_dir_mid_len W.size_bits mid < 2 ^ W.size_bits := by
    cases mid with
    | none => simp only [from_dir_mid_len]; omega
    | some m => exact Nat.mod_lt _ (by omega)
  have hsz : sz = from_dir_dir_len dir_begin dir_end + (mid_segment mid).length
      + (c :: cs).length + 5 := by
    rw [from_dir_path_size_eq W.size_bits _ _ (strlen (c :: cs)) hw hdl hmlt htl, hml] at hps
    simp only [strlen] at hps
    split at hps
    · exact (Option.some.inj hps).symm
    · cases hps
  obtain ⟨h1, h2, h3⟩ := path_buffer_lengths W sz dir_begin dir_end mid (c :: cs) hspan hml hsz
  have hc : c ≠ 0 := fun h => ht (by simp [h])
  have hmid := mid_segment_nonzero mid (fun m h => (hm m h).1)
  obtain ⟨restA, hA⟩ := from_dir_path_a_eq W sz dir_begin dir_end mid (c :: cs) hspan
  obtain ⟨restB, hB⟩ := from_dir_path_b_eq W sz dir_begin dir_end mid (c :: cs) hspan
    (fun m h => (hm m h).2)
  have hrA : restA.length = 1 := by
    have := h2
    rw [hA] at this
    simp only [List.length_append, hlen, List.length_singleton, List.length_cons,
      List.length_nil, List.headD_cons] at this hsz
    omega
  have hrB : restB = [] := by
    have := h3
    rw [hB] at this
    simp only [List.length_append, hlen, List.length_singleton, List.length_cons,
      List.length_nil, List.headD_cons, hex2] at this hsz
    apply List.eq_nil_of_length_eq_zero
    omega
  have hpa : c_str (from_dir_path_a W sz dir_begin dir_end mid (c :: cs))
      = (dir_begin.take (from_dir_dir_len dir_begin dir_end) ++ [47] ++ mid_segment mid)
          ++ ([(c :: cs).headD 0] ++ [47] ++ (c :: cs)) := by
    rw [hA, c_str_append_nul]
    refine not_mem_append_nz (not_mem_append_nz (not_mem_append_nz hd (by simp)) hmid) ?_
    refine not_mem_append_nz (not_mem_append_nz ?_ (by simp)) ht
    simpa using fun h => hc h.symm
  have hpb : c_str (from_dir_path_b W sz dir_begin dir_end mid (c :: cs))
      = (dir_begin.take (from_dir_dir_len dir_begin dir_end) ++ [47] ++ mid_segment mid)
          ++ (hex2 ((c :: cs).headD 0 % 256) ++ [47] ++ (c :: cs)) := by
    rw [hB, c_str_append_nul]
    refine not_mem_append_nz (not_mem_append_nz (not_mem_append_nz hd (by simp)) hmid) ?_
    exact not_mem_append_nz (not_mem_append_nz (hex2_nonzero _) (by simp)) ht
  have hoff : from_dir_dir_len dir_begin dir_end + 1 + from_dir_mid_len W.size_bits mid
      = (dir_begin.take (from_dir_dir_len dir_begin dir_end) ++ [47] ++ mid_segment mid).length := by
    simp only [List.length_append, hlen, hml, List.length_singleton]
  refine ⟨hsz, h1, h2, h3, ⟨restA, hrA, ?_⟩, ?_, ?_, ?_, hoff, ?_⟩
  · rw [hA]
    simp [List.append_assoc]
  · rw [hB, hrB]
    simp [List.append_assoc]
  · rw [hpa]
    simp only [List.length_append, hlen, List.length_singleton, List.length_cons,
      List.length_nil]
    omega
  · rw [hpb]
    simp only [List.length_append, hlen, List.length_singleton, List.length_cons,
      List.length_nil, hex2]
    omega
  · have hA' : from_dir_path_a W sz dir_begin dir_end mid (c :: cs)
        = (dir_begin.take (from_dir_dir_len dir_begin dir_end) ++ [47] ++ mid_segment mid)
          ++ (c :: ([47] ++ (c :: cs) ++ 0 :: restA)) := by
      rw [hA]
      simp [List.append_assoc]
    rw [hA', hoff, List.get?_eq_getElem?, List.getElem?_append_right (Nat.le_refl _)]
    simp

/-- Witness of C18: `HOME=/home/u`, middle segment `.terminfo`, name `xterm`, 27 bytes. -/
theorem from_dir_writes_in_bounds_witness :
    (from_dir_path_a (example_world 64 [] [] [] (cstr "/d") (cstr "/l")) 27
        (cstr "/home/u") none (some (cstr ".terminfo")) (cstr "xterm")).length = 27 ∧
    (from_dir_path_b (example_world 64 [] [] [] (cstr "/d") (cstr "/l")) 27
        (cstr "/home/u") none (some (cstr ".terminfo")) (cstr "xterm")).length = 27 :=
  have h := from_dir_writes_in_bounds (example_world 64 [] [] [] (cstr "/d") (cstr "/l"))
    (cstr "/home/u") none (some (cstr ".terminfo")) 120 (cstr "term") 27
    (by decide) (by decide) (by intro m hm; cases hm; exact ⟨by decide, by decide⟩)
    (by decide) (by decide) (by decide) (by decide) (by decide)
  ⟨h.2.2.1, h.2.2.2.1⟩

theorem decodes_append (xs ys : List Event) : decodes (xs ++ ys) = decodes xs ++ decodes ys := by
  induction xs with
  | nil => rfl
  | cons e es ih => cases e <;> simp [decodes, ih]

theorem reads_append (xs ys : List Event) : reads (xs ++ ys) = reads xs ++ reads ys := by
  induction xs with
  | nil => rfl
  | cons e es ih => cases e <;> simp [reads, ih]

theorem decodes_map_read (l : List Nat) : decodes (l.map Event.read) = [] := by
  induction l with
  | nil => rfl
  | cons a t ih => simpa [decodes] using ih

theorem reads_map_read (l : List Nat) : reads (l.map Event.read) = l := by
  induction l with
  | nil => rfl
  | cons a t ih => simpa [reads] using ih

/-- The loop of `unibi_from_fd` does not run when the buffer is full. -/
theorem unibi_from_fd_loop_full (fuel : Nat) (fd : Fd) (s : State) (buf : List Nat) (n : Nat)
    (r : Int) (h : MAX_BUF ≤ n + fuel) (hn : ¬ n < MAX_BUF) :
    unibi_from_fd_loop fuel fd s buf n r h = (s, buf, n, r) := by
  unfold unibi_from_fd_loop
  simp [hn]

/-- The loop of `unibi_from_fd` ends at a `read` that returns 0. -/
theorem unibi_from_fd_loop_eod (fuel : Nat) (fd : Fd) (s : State) (buf : List Nat) (n : Nat)
    (r : Int) (h : MAX_BUF ≤ n + fuel) (hn : n < MAX_BUF)
    (hfd : fd = [] ∨ ∃ more, fd = ReadStep.chunk [] :: more) :
    unibi_from_fd_loop fuel fd s buf n r h = (s.emit (Event.read (MAX_BUF - n)), buf, n, 0) := by
  unfold unibi_from_fd_loop
  rcases hfd with rfl | ⟨more, rfl⟩ <;> simp [hn, sys_read]

/-- The loop of `unibi_from_fd` ends at a `read` that fails, with its `errno`. -/
theorem unibi_from_fd_loop_fail (fuel : Nat) (e : Nat) (post : Fd) (s : State) (buf : List Nat)
    (n : Nat) (r : Int) (h : MAX_BUF ≤ n + fuel) (hn : n < MAX_BUF) :
    unibi_from_fd_loop fuel (ReadStep.fail e :: post) s buf n r h
      = ((s.emit (Event.read (MAX_BUF - n))).set_errno e, buf, n, -1) := by
  unfold unibi_from_fd_loop
  simp [hn, sys_read]

/-- One iteration of the loop of `unibi_from_fd` over a non-empty chunk that fits. -/
theorem unibi_from_fd_loop_data (k : Nat) (c : List Nat) (rest : Fd) (s : State)
    (buf : List Nat) (n : Nat) (r : Int) (h : MAX_BUF ≤ n + (k + 1)) (hn : n < MAX_BUF)
    (hc : c ≠ []) (hfit : c.length ≤ MAX_BUF - n) :
    unibi_from_fd_loop (k + 1) (ReadStep.chunk c :: rest) s buf n r h
      = unibi_from_fd_loop k rest (s.emit (Event.read (MAX_BUF - n))) (buf ++ c)
          (n + c.length) c.length (by have := List.length_pos.mpr hc; omega) := by
  have hpos : 0 < c.length := List.length_pos.mpr hc
  rw [unibi_from_fd_loop]
  simp [hn, sys_read, hfit, hpos]

/-- One iteration of the loop of `unibi_from_fd` over a chunk longer than the free room. -/
theorem unibi_from_fd_loop_cut (k : Nat) (c : List Nat) (rest : Fd) (s : State)
    (buf : List Nat) (n : Nat) (r : Int) (h : MAX_BUF ≤ n + (k + 1)) (hn : n < MAX_BUF)
    (hbig : MAX_BUF - n < c.length) :
    unibi_from_fd_loop (k + 1) (ReadStep.chunk c :: rest) s buf n r h
      = (s.emit (Event.read (MAX_BUF - n)), buf ++ c.take (MAX_BUF - n), MAX_BUF,
          ((MAX_BUF - n : Nat) : Int)) := by
  have hnot : ¬ c.length ≤ MAX_BUF - n := by omega
  rw [unibi_from_fd_loop]
  simp only [hn, sys_read, hnot, dite_true, if_false]
  have hpos : ((MAX_BUF - n : Nat) : Int) > 0 := by omega
  simp only [hpos, dite_true]
  rw [unibi_from_fd_loop_full]
  · simp
    omega
  · simp
    omega

theorem stored_before_stop (n : Nat) (lens : List Nat) (hn : ¬ n < MAX_BUF) :
    stored_before n lens = [] := by
  cases lens <;> simp [stored_before, List.takeWhile, hn]

theorem stored_before_nil (n : Nat) (hn : n < MAX_BUF) : stored_before n [] = [n] := by
  simp [stored_before, List.takeWhile, hn]

theorem stored_before_cons (n l : Nat) (lens : List Nat) (hn : n < MAX_BUF) :
    stored_before n (l :: lens) = n :: stored_before (n + l) lens := by
  simp [stored_before, List.takeWhile, hn]

/-- The loop of `unibi_from_fd` over non-empty chunks that fill the buffer or are
followed by end-of-data: the buffer ends as the stored bytes and the data, cut
at the capacity; `errno` is untouched and `r` is not negative. -/
theorem unibi_from_fd_loop_run : ∀ (chunks : List (List Nat)) (rest : Fd) (fuel : Nat) (s : State)
    (buf : List Nat) (n : Nat) (r : Int) (h : MAX_BUF ≤ n + fuel),
    (∀ c ∈ chunks, c ≠ []) → n = buf.length → n ≤ MAX_BUF → 0 ≤ r →
    (MAX_BUF ≤ n + chunks.flatten.length ∨ rest = [] ∨ ∃ more, rest = ReadStep.chunk [] :: more) →
    ∃ r2 : Int, 0 ≤ r2 ∧
      unibi_from_fd_loop fuel (chunks.map ReadStep.chunk ++ rest) s buf n r h
        = (⟨s.errno, s.trace ++ (stored_before n (chunks.map List.length)).map
              (fun p => Event.read (MAX_BUF - p))⟩,
            (buf ++ chunks.flatten).take MAX_BUF,
            min (n + chunks.flatten.length) MAX_BUF, r2) := by
  intro chunks
  induction chunks with
  | nil =>
    intro rest fuel s buf n r h _ hb hle hr hend
    by_cases hn : n < MAX_BUF
    · have hfd : rest = [] ∨ ∃ more, rest = ReadStep.chunk [] :: more := by
        rcases hend with h1 | h1
        · simp at h1; omega
        · exact h1
      refine ⟨0, Int.le_refl _, ?_⟩
      simp only [List.map_nil, List.nil_append]
      rw [unibi_from_fd_loop_eod fuel rest s buf n r h hn hfd, stored_before_nil n hn]
      have : List.take MAX_BUF buf = buf := List.take_of_length_le (by omega)
      simp [State.emit, this]
      omega
    · refine ⟨r, hr, ?_⟩
      rw [unibi_from_fd_loop_full fuel _ s buf n r h hn, stored_before_stop n _ hn]
      have : List.take MAX_BUF buf = buf := List.take_of_length_le (by omega)
      simp [this]
      omega
  | cons c cs ih =>
    intro rest fuel s buf n r h hne hb hle hr hend
    by_cases hn : n < MAX_BUF
    · have hc : c ≠ [] := hne c (List.mem_cons_self _ _)
      have hpos : 0 < c.length := List.length_pos.mpr hc
      have hlen : (c :: cs).flatten.length = c.length + cs.flatten.length := by simp
      cases fuel with
      | zero => omega
      | succ k =>
        by_cases hfit : c.length ≤ MAX_BUF - n
        · obtain ⟨r2, hr2, heq⟩ := ih rest k (s.emit (Event.read (MAX_BUF - n))) (buf ++ c)
            (n + c.length) c.length (by omega)
            (fun x hx => hne x (List.mem_cons_of_mem _ hx))
            (by simp [hb]) (by omega) (by omega)
            (by
              rcases hend with h1 | h1
              · left; rw [hlen] at h1; omega
              · right; exact h1)
          refine ⟨r2, hr2, ?_⟩
          rw [List.map_cons, List.cons_append, unibi_from_fd_loop_data k c _ s buf n r h hn hc hfit,
            heq, List.map_cons, stored_before_cons n _ _ hn]
          simp [State.emit, Nat.add_assoc]
        · refine ⟨((MAX_BUF - n : Nat) : Int), by omega, ?_⟩
          rw [List.map_cons, List.cons_append,
            unibi_from_fd_loop_cut k c _ s buf n r h hn (by omega), List.map_cons,
            stored_before_cons n _ _ hn, stored_before_stop _ _ (by omega)]
          have h1 : List.take MAX_BUF (buf ++ (c :: cs).flatten)
              = buf ++ c.take (MAX_BUF - n) := by
            rw [List.take_append_eq_append_take, List.take_of_length_le (by omega),
              List.flatten_cons, List.take_append_eq_append_take, ← hb]
            have : MAX_BUF - n - c.length = 0 := by omega
            simp [this]
          rw [h1]
          simp [State.emit]
          omega
    · refine ⟨r, hr, ?_⟩
      rw [unibi_from_fd_loop_full fuel _ s buf n r h hn, stored_before_stop n _ hn]
      have : List.take MAX_BUF (buf ++ (c :: cs).flatten) = buf := by
        rw [List.take_append_eq_append_take, List.take_of_length_le (by omega)]
        have : MAX_BUF - buf.length = 0 := by omega
        simp [this]
      rw [this]
      simp
      omega

/-- The loop of `unibi_from_fd` over non-empty chunks that leave room, followed by
a failing `read`: `errno` is that of the failure and `r` is -1. -/
theorem unibi_from_fd_loop_error : ∀ (chunks : List (List Nat)) (e : Nat) (post : Fd) (fuel : Nat)
    (s : State) (buf : List Nat) (n : Nat) (r : Int) (h : MAX_BUF ≤ n + fuel),
    (∀ c ∈ chunks, c ≠ []) → n + chunks.flatten.length < MAX_BUF →
    unibi_from_fd_loop fuel (chunks.map ReadStep.chunk ++ ReadStep.fail e :: post) s buf n r h
      = (⟨e, s.trace ++ (stored_before n (chunks.map List.length)).map
            (fun p => Event.read (MAX_BUF - p))⟩,
          buf ++ chunks.flatten, n + chunks.flatten.length, -1) := by
  intro chunks
  induction chunks with
  | nil =>
    intro e post fuel s buf n r h _ hlt
    have hn : n < MAX_BUF := by simpa using hlt
    simp only [List.map_nil, List.nil_append]
    rw [unibi_from_fd_loop_fail fuel e post s buf n r h hn, stored_before_nil n hn]
    simp [State.emit, State.set_errno]
  | cons c cs ih =>
    intro e post fuel s buf n r h hne hlt
    have hc : c ≠ [] := hne c (List.mem_cons_self _ _)
    have hlen : (c :: cs).flatten.length = c.length + cs.flatten.length := by simp
    have hpos : 0 < c.length := List.length_pos.mpr hc
    have hn : n < MAX_BUF := by omega
    cases fuel with
    | zero => omega
    | succ k =>
      rw [List.map_cons, List.cons_append,
        unibi_from_fd_loop_data k c _ s buf n r h hn hc (by omega),
        ih e post k _ (buf ++ c) (n + c.length) c.length (by omega)
          (fun x hx => hne x (List.mem_cons_of_mem _ hx)) (by omega),
        List.map_cons, stored_before_cons n _ _ hn]
      simp [State.emit, Nat.add_assoc]

/-- Every script of `read` results either has a failing `read` after non-empty
chunks that leave room in the buffer, or its leading non-empty chunks fill the
buffer or are followed by end-of-data. -/
theorem script_cases : ∀ (fd : Fd) (n : Nat),
    (∃ (chunks : List (List Nat)) (e : Nat) (post : Fd),
      (∀ c ∈ chunks, c ≠ []) ∧ n + chunks.flatten.length < MAX_BUF ∧
      fd = chunks.map ReadStep.chunk ++ ReadStep.fail e :: post) ∨
    (∃ (chunks : List (List Nat)) (rest : Fd),
      (∀ c ∈ chunks, c ≠ []) ∧ fd = chunks.map ReadStep.chunk ++ rest ∧
      (MAX_BUF ≤ n + chunks.flatten.length ∨ rest = [] ∨
        ∃ more, rest = ReadStep.chunk [] :: more)) := by
  intro fd
  induction fd with
  | nil =>
    intro n
    exact Or.inr ⟨[], [], by simp, rfl, Or.inr (Or.inl rfl)⟩
  | cons st tl ih =>
    intro n
    cases st with
    | fail e =>
      by_cases hn : n < MAX_BUF
      · exact Or.inl ⟨[], e, tl, by simp, by simpa using hn, rfl⟩
      · exact Or.inr ⟨[], _, by simp, rfl, Or.inl (by simp; omega)⟩
    | chunk c =>
      cases c with
      | nil => exact Or.inr ⟨[], _, by simp, rfl, Or.inr (Or.inr ⟨tl, rfl⟩)⟩
      | cons b bs =>
        rcases ih (n + (b :: bs).length) with ⟨chunks, e, post, h1, h2, h3⟩ | ⟨chunks, rest, h1, h2, h3⟩
        · refine Or.inl ⟨(b :: bs) :: chunks, e, post, ?_, ?_, ?_⟩
          · intro x hx
            rcases List.mem_cons.mp hx with rfl | hx
            · simp
            · exact h1 x hx
          · simp at h2 ⊢; omega
          · simp [h3]
        · refine Or.inr ⟨(b :: bs) :: chunks, rest, ?_, ?_, ?_⟩
          · intro x hx
            rcases List.mem_cons.mp hx with rfl | hx
            · simp
            · exact h1 x hx
          · simp [h2]
          · rcases h3 with h3 | h3
            · left; simp at h3 ⊢; omega
            · right; exact h3

/-- `unibi_from_fd` over non-empty chunks that fill the buffer or are followed by
end-of-data hands the data, cut at the capacity, to the decoder. -/
theorem unibi_from_fd_run (W : World) (s : State) (chunks : List (List Nat)) (rest : Fd)
    (hne : ∀ c ∈ chunks, c ≠ [])
    (hend : MAX_BUF ≤ chunks.flatten.length ∨ rest = [] ∨
      ∃ more, rest = ReadStep.chunk [] :: more) :
    unibi_from_fd W s (chunks.map ReadStep.chunk ++ rest)
      = decoded W s ((stored_before 0 (chunks.map List.length)).map
          (fun p => Event.read (MAX_BUF - p))) (chunks.flatten.take MAX_BUF) := by
  obtain ⟨r2, hr2, heq⟩ := unibi_from_fd_loop_run chunks rest MAX_BUF s [] 0 0 (by omega) hne rfl
    (by omega) (Int.le_refl _) (by simpa using hend)
  have hnot : ¬ r2 < 0 := by omega
  have htake : List.take (min (0 + chunks.flatten.length) MAX_BUF)
      (List.take MAX_BUF ([] ++ chunks.flatten)) = List.take MAX_BUF chunks.flatten := by
    apply List.take_of_length_le
    simp only [List.nil_append, List.length_take]
    omega
  unfold unibi_from_fd decoded
  simp only [heq, hnot, if_false, htake]
  cases W.unibi_from_mem (List.take MAX_BUF chunks.flatten) <;>
    simp [State.emit, State.set_errno]

/-- `unibi_from_fd` over non-empty chunks that leave room in the buffer, followed
by a failing `read`, returns without a record and without calling the decoder. -/
theorem unibi_from_fd_error (W : World) (s : State) (chunks : List (List Nat)) (e : Nat)
    (post : Fd) (hne : ∀ c ∈ chunks, c ≠ []) (hlt : chunks.flatten.length < MAX_BUF) :
    unibi_from_fd W s (chunks.map ReadStep.chunk ++ ReadStep.fail e :: post)
      = (none, ⟨e, s.trace ++ (stored_before 0 (chunks.map List.length)).map
          (fun p => Event.read (MAX_BUF - p))⟩) := by
  have heq := unibi_from_fd_loop_error chunks e post MAX_BUF s [] 0 0 (by omega) hne (by omega)
  unfold unibi_from_fd
  simp only [heq]
  simp

theorem decodes_decoded (W : World) (s : State) (l : List Nat) (bytes : List Nat) :
    decodes (decoded W s (l.map Event.read) bytes).2.trace = decodes s.trace ++ [bytes] ∧
    reads (decoded W s (l.map Event.read) bytes).2.trace = reads s.trace ++ l ∧
    yields (decoded W s (l.map Event.read) bytes) (W.unibi_from_mem bytes) := by
  unfold decoded
  cases W.unibi_from_mem bytes <;>
    simp [decodes_append, reads_append, decodes_map_read, reads_map_read, decodes, reads, yields]

theorem stored_before_get : ∀ (lens : List Nat) (n i p : Nat),
    (stored_before n lens).get? i = some p → p = n + (lens.take i).sum ∧ p < MAX_BUF := by
  intro lens
  induction lens with
  | nil =>
    intro n i p h
    by_cases hn : n < MAX_BUF
    · rw [stored_before_nil n hn] at h
      cases i with
      | zero => simp at h; subst h; simpa using hn
      | succ j => simp at h
    · rw [stored_before_stop n _ hn] at h
      simp at h
  | cons l ls ih =>
    intro n i p h
    by_cases hn : n < MAX_BUF
    · rw [stored_before_cons n l ls hn] at h
      cases i with
      | zero => simp at h; subst h; simpa using hn
      | succ j =>
        simp only [List.get?_cons_succ] at h
        obtain ⟨h1, h2⟩ := ih (n + l) j p h
        refine ⟨?_, h2⟩
        rw [h1]
        simp [Nat.add_assoc]
    · rw [stored_before_stop n _ hn] at h
      simp at h

/-- C14: `unibi_from_fd` on a well-behaved source, given as the non-empty chunks
its `read` calls deliver until the data is exhausted (any chunking; a `read`
that asks for less than a chunk gets the part asked for), hands the decoder
exactly the first `min L 4096` bytes of the `L` bytes of data, once, and
reports no error of its own: the result is the decoder's and `errno` is only
what the decoder sets.  Each `read` asks for 4096 minus the bytes stored so
far, which are the bytes of the chunks before it and fewer than 4096. -/
theorem unibi_from_fd_well_behaved_source (W : World) (s : State) (chunks : List (List Nat))
    (hne : ∀ c ∈ chunks, c ≠ []) :
    unibi_from_fd W s (chunks.map ReadStep.chunk)
      = decoded W s ((stored_before 0 (chunks.map List.length)).map
          (fun p => Event.read (MAX_BUF - p))) (chunks.flatten.take MAX_BUF) ∧
    decodes (unibi_from_fd W s (chunks.map ReadStep.chunk)).2.trace
      = decodes s.trace ++ [chunks.flatten.take MAX_BUF] ∧
    (chunks.flatten.take MAX_BUF).length = min chunks.flatten.length MAX_BUF ∧
    yields (unibi_from_fd W s (chunks.map ReadStep.chunk))
      (W.unibi_from_mem (chunks.flatten.take MAX_BUF)) ∧
    (∀ ut, W.unibi_from_mem (chunks.flatten.take MAX_BUF) = Except.ok ut →
      (unibi_from_fd W s (chunks.map ReadStep.chunk)).2.errno = s.errno) ∧
    reads (unibi_from_fd W s (chunks.map ReadStep.chunk)).2.trace
      = reads s.trace ++ (stored_before 0 (chunks.map List.length)).map (MAX_BUF - ·) ∧
    (∀ i p, (stored_before 0 (chunks.map List.length)).get? i = some p →
      p = (chunks.take i).flatten.length ∧ p < MAX_BUF) := by
  have heq := unibi_from_fd_run W s chunks [] hne (Or.inr (Or.inl rfl))
  rw [List.append_nil] at heq
  have hmap : (stored_before 0 (chunks.map List.length)).map (fun p => Event.read (MAX_BUF - p))
      = ((stored_before 0 (chunks.map List.length)).map (MAX_BUF - ·)).map Event.read := by
    simp
  obtain ⟨hd, hr, hy⟩ := decodes_decoded W s
    ((stored_before 0 (chunks.map List.length)).map (MAX_BUF - ·)) (chunks.flatten.take MAX_BUF)
  rw [← hmap, ← heq] at hd hr hy
  refine ⟨heq, hd, ?_, hy, ?_, hr, ?_⟩
  · rw [List.length_take, Nat.min_comm]
  · intro ut hut
    rw [heq]
    unfold decoded
    rw [hut]
  · intro i p h
    obtain ⟨h1, h2⟩ := stored_before_get _ 0 i p h
    refine ⟨?_, h2⟩
    rw [h1, ← List.map_take]
    simp

/-- Witness of C14: five bytes delivered as a chunk of three and a chunk of two. -/
theorem unibi_from_fd_well_behaved_source_witness :
    (∀ c ∈ [[1, 2, 3], [4, 5]], c ≠ ([] : List Nat)) ∧
    decodes (unibi_from_fd (example_world 64 [] [] [] (cstr "/d") (cstr "/l")) ⟨0, []⟩
        ([[1, 2, 3], [4, 5]].map ReadStep.chunk)).2.trace
      = decodes [] ++ [[[1, 2, 3], [4, 5]].flatten.take MAX_BUF] ∧
    reads (unibi_from_fd (example_world 64 [] [] [] (cstr "/d") (cstr "/l")) ⟨0, []⟩
        ([[1, 2, 3], [4, 5]].map ReadStep.chunk)).2.trace = [4096, 4093, 4091] :=
  have h := unibi_from_fd_well_behaved_source (example_world 64 [] [] [] (cstr "/d") (cstr "/l"))
    ⟨0, []⟩ [[1, 2, 3], [4, 5]] (by decide)
  ⟨by decide, h.2.1, h.2.2.2.2.2.1.trans (by decide)⟩

/-- C15: `unibi_from_fd` returns no record without calling the decoder exactly
when the script of `read` results has a failing `read` after non-empty chunks
that leave room in the buffer, that is before the buffer is full and before
end-of-data.  It then leaves the `errno` of that `read` and the bytes read
before it go nowhere.  When the non-empty chunks fill the buffer, or are
followed by end-of-data (no further result, or a `read` returning 0), the
decoder is called with the data cut at the capacity and the result is the
decoder's, whatever comes later in the script. -/
theorem unibi_from_fd_fails_iff_read_error (W : World) (s : State) (fd : Fd) :
    (((unibi_from_fd W s fd).1 = none ∧
        decodes (unibi_from_fd W s fd).2.trace = decodes s.trace) ↔
      ∃ (chunks : List (List Nat)) (e : Nat) (post : Fd), (∀ c ∈ chunks, c ≠ []) ∧
        chunks.flatten.length < MAX_BUF ∧
        fd = chunks.map ReadStep.chunk ++ ReadStep.fail e :: post) ∧
    (∀ (chunks : List (List Nat)) (e : Nat) (post : Fd), (∀ c ∈ chunks, c ≠ []) →
      chunks.flatten.length < MAX_BUF →
      fd = chunks.map ReadStep.chunk ++ ReadStep.fail e :: post →
      unibi_from_fd W s fd = (none, ⟨e, s.trace ++ (stored_before 0 (chunks.map List.length)).map
        (fun p => Event.read (MAX_BUF - p))⟩)) ∧
    (∀ (chunks : List (List Nat)) (rest : Fd), (∀ c ∈ chunks, c ≠ []) →
      fd = chunks.map ReadStep.chunk ++ rest →
      (MAX_BUF ≤ chunks.flatten.length ∨ rest = [] ∨ ∃ more, rest = ReadStep.chunk [] :: more) →
      decodes (unibi_from_fd W s fd).2.trace = decodes s.trace ++ [chunks.flatten.take MAX_BUF] ∧
      yields (unibi_from_fd W s fd) (W.unibi_from_mem (chunks.flatten.take MAX_BUF))) := by
  have hfail : ∀ (chunks : List (List Nat)) (e : Nat) (post : Fd), (∀ c ∈ chunks, c ≠ []) →
      chunks.flatten.length < MAX_BUF →
      fd = chunks.map ReadStep.chunk ++ ReadStep.fail e :: post →
      unibi_from_fd W s fd = (none, ⟨e, s.trace ++ (stored_before 0 (chunks.map List.length)).map
        (fun p => Event.read (MAX_BUF - p))⟩) := by
    intro chunks e post hne hlt hfd
    rw [hfd]
    exact unibi_from_fd_error W s chunks e post hne hlt
  have hrun : ∀ (chunks : List (List Nat)) (rest : Fd), (∀ c ∈ chunks, c ≠ []) →
      fd = chunks.map ReadStep.chunk ++ rest →
      (MAX_BUF ≤ chunks.flatten.length ∨ rest = [] ∨ ∃ more, rest = ReadStep.chunk [] :: more) →
      decodes (unibi_from_fd W s fd).2.trace = decodes s.trace ++ [chunks.flatten.take MAX_BUF] ∧
      yields (unibi_from_fd W s fd) (W.unibi_from_mem (chunks.flatten.take MAX_BUF)) := by
    intro chunks rest hne hfd hend
    have hmap : (stored_before 0 (chunks.map List.length)).map
        (fun p => Event.read (MAX_BUF - p))
        = ((stored_before 0 (chunks.map List.length)).map (MAX_BUF - ·)).map Event.read := by
      simp
    obtain ⟨hd, _, hy⟩ := decodes_decoded W s
      ((stored_before 0 (chunks.map List.length)).map (MAX_BUF - ·))
      (chunks.flatten.take MAX_BUF)
    rw [hfd, unibi_from_fd_run W s chunks rest hne hend, hmap]
    exact ⟨hd, hy⟩
  refine ⟨⟨?_, ?_⟩, hfail, hrun⟩
  · intro hno
    rcases script_cases fd 0 with ⟨chunks, e, post, h1, h2, h3⟩ | ⟨chunks, rest, h1, h2, h3⟩
    · exact ⟨chunks, e, post, h1, by simpa using h2, h3⟩
    · have hd := (hrun chunks rest h1 h2 (by simpa using h3)).1
      rw [hno.2] at hd
      simp at hd
  · rintro ⟨chunks, e, post, h1, h2, h3⟩
    rw [hfail chunks e post h1 h2 h3]
    refine ⟨rfl, ?_⟩
    have hmap : (stored_before 0 (chunks.map List.length)).map
        (fun p => Event.read (MAX_BUF - p))
        = ((stored_before 0 (chunks.map List.length)).map (MAX_BUF - ·)).map Event.read := by
      simp
    simp only [hmap, decodes_append, decodes_map_read, List.append_nil]

/-- Witness of C15: two bytes are read, then a `read` fails with `errno` 5. -/
theorem unibi_from_fd_fails_iff_read_error_witness :
    (unibi_from_fd (example_world 64 [] [] [] (cstr "/d") (cstr "/l")) ⟨0, []⟩
        [ReadStep.chunk [1, 2], ReadStep.fail 5, ReadStep.chunk [3]]).1 = none ∧
    decodes (unibi_from_fd (example_world 64 [] [] [] (cstr "/d") (cstr "/l")) ⟨0, []⟩
        [ReadStep.chunk [1, 2], ReadStep.fail 5, ReadStep.chunk [3]]).2.trace = decodes [] :=
  (unibi_from_fd_fails_iff_read_error (example_world 64 [] [] [] (cstr "/d") (cstr "/l")) ⟨0, []⟩
    [ReadStep.chunk [1, 2], ReadStep.fail 5, ReadStep.chunk [3]]).1.mpr
    ⟨[[1, 2]], 5, [ReadStep.chunk [3]], by decide, by decide, rfl⟩

theorem decodes_map_fread (l : List Nat) : decodes (l.map Event.fread) = [] := by
  induction l with
  | nil => rfl
  | cons a t ih => simpa [decodes] using ih

theorem fread_le (fp : FILE) (count : Nat) : (fread fp count).1 ≤ count := by
  unfold fread
  split
  · simp
  · split
    · assumption
    · simp

/-- C17, as the code has it: the zero-length read ends the reading.  On
`zero_read_stream` the loop stops with 2 bytes stored, the buffer not full,
neither indicator set and the byte 3 still unread, and the decoder is handed
the bytes 1, 2 and not 1, 2, 3. -/
theorem unibi_from_fp_zero_read_stops :
    (unibi_from_fp_loop MAX_BUF zero_read_stream ⟨0, []⟩ [] 0 0 (by decide)).2.2.1 = 2 ∧
    (unibi_from_fp_loop MAX_BUF zero_read_stream ⟨0, []⟩ [] 0 0 (by decide)).2.2.2.1 = 0 ∧
    (unibi_from_fp_loop MAX_BUF zero_read_stream ⟨0, []⟩ [] 0 0 (by decide)).2.2.2.2
      = { script := [⟨[3], true, none⟩], eof := false, err := false } ∧
    decodes (unibi_from_fp (example_world 64 [] [] [] (cstr "/d") (cstr "/l")) ⟨0, []⟩
      zero_read_stream).2.trace = [[1, 2]] ∧
    decodes (unibi_from_fp (example_world 64 [] [] [] (cstr "/d") (cstr "/l")) ⟨0, []⟩
      zero_read_stream).2.trace ≠ [[1, 2, 3]] := by
  decide

/-- The loop of `unibi_from_fp` does not run when the buffer is full. -/
theorem unibi_from_fp_loop_full (fuel : Nat) (fp : FILE) (s : State) (buf : List Nat) (n r : Nat)
    (h : MAX_BUF ≤ n + fuel) (hn : ¬ n < MAX_BUF) :
    unibi_from_fp_loop fuel fp s buf n r h = (s, buf, n, r, fp) := by
  unfold unibi_from_fp_loop
  simp [hn]

/-- The loop of `unibi_from_fp` ends at an `fread` that returns zero bytes and
sets no indicator; the rest of the script stays unread. -/
theorem unibi_from_fp_loop_zero (fuel : Nat) (post : List FreadStep) (s : State)
    (buf : List Nat) (n r : Nat) (h : MAX_BUF ≤ n + fuel) (hn : n < MAX_BUF) :
    unibi_from_fp_loop fuel ⟨⟨[], false, none⟩ :: post, false, false⟩ s buf n r h
      = (s.emit (Event.fread (MAX_BUF - n)), buf, n, 0, ⟨post, false, false⟩) := by
  unfold unibi_from_fp_loop
  simp [hn, fread]

/-- One iteration of the loop of `unibi_from_fp` over a non-empty chunk that fits
and sets no indicator. -/
theorem unibi_from_fp_loop_data (k : Nat) (c : List Nat) (rest : List FreadStep) (s : State)
    (buf : List Nat) (n r : Nat) (h : MAX_BUF ≤ n + (k + 1)) (hn : n < MAX_BUF)
    (hc : c ≠ []) (hfit : c.length ≤ MAX_BUF - n) :
    unibi_from_fp_loop (k + 1) ⟨⟨c, false, none⟩ :: rest, false, false⟩ s buf n r h
      = unibi_from_fp_loop k ⟨rest, false, false⟩ (s.emit (Event.fread (MAX_BUF - n)))
          (buf ++ c) (n + c.length) c.length
          (by have := List.length_pos.mpr hc; omega) := by
  have hpos : 0 < c.length := List.length_pos.mpr hc
  rw [unibi_from_fp_loop]
  simp [hn, fread, hfit, hpos]

/-- The loop of `unibi_from_fp` over chunks that set no indicator and leave room,
followed by a zero-length `fread` without indicator. -/
theorem unibi_from_fp_loop_zero_read : ∀ (pre : List (List Nat)) (post : List FreadStep)
    (fuel : Nat) (s : State) (buf : List Nat) (n r : Nat) (h : MAX_BUF ≤ n + fuel),
    (∀ c ∈ pre, c ≠ []) → n + pre.flatten.length < MAX_BUF →
    unibi_from_fp_loop fuel ⟨zero_read_script pre post, false, false⟩ s buf n r h
      = (⟨s.errno, s.trace ++ (stored_before n (pre.map List.length)).map
            (fun p => Event.fread (MAX_BUF - p))⟩,
          buf ++ pre.flatten, n + pre.flatten.length, 0, ⟨post, false, false⟩) := by
  intro pre
  induction pre with
  | nil =>
    intro post fuel s buf n r h _ hlt
    have hn : n < MAX_BUF := by simpa using hlt
    simp only [zero_read_script, List.map_nil, List.nil_append]
    rw [unibi_from_fp_loop_zero fuel post s buf n r h hn, stored_before_nil n hn]
    simp [State.emit]
  | cons c cs ih =>
    intro post fuel s buf n r h hne hlt
    have hc : c ≠ [] := hne c (List.mem_cons_self _ _)
    have hlen : (c :: cs).flatten.length = c.length + cs.flatten.length := by simp
    have hpos : 0 < c.length := List.length_pos.mpr hc
    have hn : n < MAX_BUF := by omega
    have ih2 := ih post
    simp only [zero_read_script] at ih2 ⊢
    cases fuel with
    | zero => omega
    | succ k =>
      rw [List.map_cons, List.cons_append,
        unibi_from_fp_loop_data k c _ s buf n r h hn hc (by omega),
        ih2 k _ (buf ++ c) (n + c.length) c.length (by omega)
          (fun x hx => hne x (List.mem_cons_of_mem _ hx)) (by omega),
        List.map_cons, stored_before_cons n _ _ hn]
      simp [State.emit, Nat.add_assoc]

/-- When the loop of `unibi_from_fp` is over, the buffer is full, the end-of-file
indicator is set, or the last `fread` returned zero bytes. -/
theorem unibi_from_fp_loop_ends (fuel : Nat) : ∀ (fp : FILE) (s : State) (buf : List Nat)
    (n r : Nat) (h : MAX_BUF ≤ n + fuel), n ≤ MAX_BUF →
    (unibi_from_fp_loop fuel fp s buf n r h).2.2.1 = MAX_BUF ∨
    (unibi_from_fp_loop fuel fp s buf n r h).2.2.2.2.eof = true ∨
    (unibi_from_fp_loop fuel fp s buf n r h).2.2.2.1 = 0 := by
  induction fuel with
  | zero =>
    intro fp s buf n r h hle
    rw [unibi_from_fp_loop_full 0 fp s buf n r h (by omega)]
    left
    show n = MAX_BUF
    omega
  | succ k ih =>
    intro fp s buf n r h hle
    by_cases hn : n < MAX_BUF
    · have hcount := fread_le fp (MAX_BUF - n)
      by_cases hpos : (fread fp (MAX_BUF - n)).1 > 0
      · by_cases heof : (fread fp (MAX_BUF - n)).2.2.2.eof = true
        · rw [unibi_from_fp_loop]
          simp only [hn, hpos, heof, dite_true, if_true]
          right; left; trivial
        · rw [unibi_from_fp_loop]
          simp only [hn, hpos, heof, dite_true, if_false]
          exact ih _ _ _ _ _ _ (by omega)
      · rw [unibi_from_fp_loop]
        simp only [hn, hpos, dite_true, dite_false]
        right; right
        show (fread fp (MAX_BUF - n)).1 = 0
        omega
    · rw [unibi_from_fp_loop_full (k + 1) fp s buf n r h hn]
      left
      show n = MAX_BUF
      omega

/-- C17, amended: for every stream `fp`, when the loop of `unibi_from_fp` is over
the buffer is full, the end-of-file indicator is set or the last `fread`
returned zero bytes.  A zero-length `fread` ends the reading also when it sets
no indicator: on a stream that delivers the non-empty chunks `pre` (fewer
than 4096 bytes) without indicator, then answers one `fread` with zero bytes
and no indicator, the decoder is handed exactly the bytes of `pre` and what the
stream holds after that (`post`) is left unread. -/
theorem unibi_from_fp_zero_read_ends_reading (W : World) (s : State) (fp : FILE)
    (pre : List (List Nat)) (post : List FreadStep)
    (hne : ∀ c ∈ pre, c ≠ []) (hlt : pre.flatten.length < MAX_BUF) :
    ((unibi_from_fp_loop MAX_BUF fp s [] 0 0 (by omega)).2.2.1 = MAX_BUF ∨
      (unibi_from_fp_loop MAX_BUF fp s [] 0 0 (by omega)).2.2.2.2.eof = true ∨
      (unibi_from_fp_loop MAX_BUF fp s [] 0 0 (by omega)).2.2.2.1 = 0) ∧
    unibi_from_fp W s ⟨zero_read_script pre post, false, false⟩
      = decoded W s ((stored_before 0 (pre.map List.length)).map
          (fun p => Event.fread (MAX_BUF - p))) pre.flatten ∧
    decodes (unibi_from_fp W s ⟨zero_read_script pre post, false, false⟩).2.trace
      = decodes s.trace ++ [pre.flatten] ∧
    (unibi_from_fp_loop MAX_BUF ⟨zero_read_script pre post, false, false⟩ s [] 0 0
      (by omega)).2.2.2.2 = ⟨post, false, false⟩ := by
  have hloop := unibi_from_fp_loop_zero_read pre post MAX_BUF s [] 0 0 (by omega) hne (by omega)
  have heq : unibi_from_fp W s ⟨zero_read_script pre post, false, false⟩
      = decoded W s ((stored_before 0 (pre.map List.length)).map
          (fun p => Event.fread (MAX_BUF - p))) pre.flatten := by
    have htake : List.take (0 + pre.flatten.length) ([] ++ pre.flatten) = pre.flatten := by
      apply List.take_of_length_le
      simp only [List.nil_append]
      omega
    unfold unibi_from_fp decoded
    simp only [hloop, htake]
    cases W.unibi_from_mem pre.flatten <;> simp [State.emit, State.set_errno]
  refine ⟨unibi_from_fp_loop_ends MAX_BUF fp s [] 0 0 (by omega) (by omega), heq, ?_, ?_⟩
  · have hmap : (stored_before 0 (pre.map List.length)).map (fun p => Event.fread (MAX_BUF - p))
        = ((stored_before 0 (pre.map List.length)).map (MAX_BUF - ·)).map Event.fread := by
      simp
    rw [heq, hmap]
    unfold decoded
    cases W.unibi_from_mem pre.flatten <;>
      simp only [decodes_append, decodes_map_fread, decodes, List.append_nil, List.nil_append]
  · rw [hloop]

/-- Witness of the amended C17: the byte 7, a zero-length read, then the byte 8 at end-of-file. -/
theorem unibi_from_fp_zero_read_ends_reading_witness :
    (∀ c ∈ [[7]], c ≠ ([] : List Nat)) ∧
    decodes (unibi_from_fp (example_world 64 [] [] [] (cstr "/d") (cstr "/l")) ⟨0, []⟩
        ⟨zero_read_script [[7]] [⟨[8], true, none⟩], false, false⟩).2.trace
      = decodes [] ++ [[[7]].flatten] :=
  ⟨by decide, (unibi_from_fp_zero_read_ends_reading
    (example_world 64 [] [] [] (cstr "/d") (cstr "/l")) ⟨0, []⟩ ⟨[], false, false⟩
    [[7]] [⟨[8], true, none⟩] (by decide) (by decide)).2.2.1⟩

theorem dirs_outcome_of_yields (W : World) (list term : CStr) (out : Except Nat unibi_term)
    (h : yields (from_dirs W ⟨0, []⟩ list term) out) : dirs_outcome W list term = out := by
  unfold dirs_outcome
  generalize from_dirs W ⟨0, []⟩ list term = r at h
  obtain ⟨r1, r2⟩ := r
  cases out with
  | ok u =>
    simp only [yields] at h
    subst h
    rfl
  | error e =>
    obtain ⟨h1, h2⟩ := h
    simp only at h1 h2
    subst h1
    subst h2
    rfl

/-- A walk of `from_dirs` adds the same events and yields the same outcome from
every state. -/
theorem from_dirs_frame (W : World) (list term : CStr) :
    ∃ evs : List Event, attempts evs = dirs_attempts W list term ∧
      ∀ s : State, (from_dirs W s list term).2.trace = s.trace ++ evs ∧
        yields (from_dirs W s list term) (dirs_outcome W list term) := by
  obtain ⟨evs, res, _, _, _, h⟩ := from_dirs_shape W term list
  have hout : dirs_outcome W list term = res.2 :=
    dirs_outcome_of_yields W list term _ (h ⟨0, []⟩).2
  refine ⟨evs, ?_, ?_⟩
  · unfold dirs_attempts
    rw [(h ⟨0, []⟩).1]
    rfl
  · intro s
    rw [hout]
    exact h s

/-- A step with the hard-error test of lines 215 and 227, followed by the rest
of the search. -/
theorem seq_search_soft (F cont run : State → Option unibi_term × State)
    (evs1 evs2 : List Event) (out1 out2 : Except Nat unibi_term)
    (h1 : ∀ s : State, (F s).2.trace = s.trace ++ evs1 ∧ yields (F s) out1)
    (h2 : ∀ s : State, (cont s).2.trace = s.trace ++ evs2 ∧ yields (cont s) out2)
    (hrun : ∀ s : State, run s =
      if (F s).1.isSome then F s
      else if (F s).2.errno ≠ ENOENT ∧ (F s).2.errno ≠ EPERM ∧ (F s).2.errno ≠ EACCES then
        (none, (F s).2)
      else cont (F s).2) :
    (∀ u, out1 = Except.ok u →
      ∀ s : State, (run s).2.trace = s.trace ++ evs1 ∧ yields (run s) (Except.ok u)) ∧
    (∀ e, out1 = Except.error e → ¬ soft e →
      ∀ s : State, (run s).2.trace = s.trace ++ evs1 ∧ yields (run s) (Except.error e)) ∧
    (∀ e, out1 = Except.error e → soft e →
      ∀ s : State, (run s).2.trace = s.trace ++ (evs1 ++ evs2) ∧ yields (run s) out2) := by
  refine ⟨?_, ?_, ?_⟩
  · intro u hu s
    subst hu
    have hy : (F s).1 = some u := (h1 s).2
    rw [hrun s, if_pos (by rw [hy]; rfl)]
    exact h1 s
  · intro e he hs s
    subst he
    obtain ⟨ht, hy1, hy2⟩ := h1 s
    have hc : (F s).2.errno ≠ ENOENT ∧ (F s).2.errno ≠ EPERM ∧ (F s).2.errno ≠ EACCES := by
      rw [hy2]; unfold soft at hs; omega
    rw [hrun s, if_neg (by rw [hy1]; simp), if_pos hc]
    exact ⟨ht, rfl, hy2⟩
  · intro e he hs s
    subst he
    obtain ⟨ht, hy1, hy2⟩ := h1 s
    have hc : ¬ ((F s).2.errno ≠ ENOENT ∧ (F s).2.errno ≠ EPERM ∧ (F s).2.errno ≠ EACCES) := by
      rw [hy2]; unfold soft at hs; omega
    rw [hrun s, if_neg (by rw [hy1]; simp), if_neg hc]
    obtain ⟨ht2, hy⟩ := h2 (F s).2
    refine ⟨?_, hy⟩
    rw [ht2, ht, List.append_assoc]

/-- The `TERMINFO_DIRS` step and what follows make the attempts of `search_dirs`
and yield its outcome. -/
theorem unibi_from_term_dirs_search (W : World) (term : CStr) :
    ∃ evs : List Event,
      attempts evs = (search_dirs W term).dirs ++ (search_dirs W term).fallback ∧
      ∀ s : State, (unibi_from_term_dirs W s term).2.trace = s.trace ++ evs ∧
        yields (unibi_from_term_dirs W s term) (search_dirs W term).out := by
  obtain ⟨evs4, ha4, h4⟩ := from_dirs_frame W W.unibi_terminfo_dirs term
  cases hg : W.getenv (cstr "TERMINFO_DIRS") with
  | none =>
    refine ⟨Event.getenv (cstr "TERMINFO_DIRS") :: evs4, ?_, ?_⟩
    · simp [search_dirs, hg, attempts, ha4]
    · intro s
      simp only [unibi_from_term_dirs, hg, search_dirs]
      exact prefix_event (Event.getenv (cstr "TERMINFO_DIRS"))
        (fun s => unibi_from_term_fallback W s term) evs4 _ h4 s
  | some l =>
    obtain ⟨evs3, ha3, h3⟩ := from_dirs_frame W l term
    obtain ⟨c1, c2, c3⟩ := seq_search_soft
      (fun s => from_dirs W (s.emit (Event.getenv (cstr "TERMINFO_DIRS"))) l term)
      (fun s => unibi_from_term_fallback W s term)
      (fun s => unibi_from_term_dirs W s term) _ evs4 _ _
      (prefix_event (Event.getenv (cstr "TERMINFO_DIRS")) (fun s => from_dirs W s l term)
        evs3 _ h3)
      h4 (by intro s; simp only [unibi_from_term_dirs, hg])
    cases ho : dirs_outcome W l term with
    | ok u =>
      refine ⟨Event.getenv (cstr "TERMINFO_DIRS") :: evs3, ?_, ?_⟩
      · simp [search_dirs, hg, ho, attempts, ha3]
      · simp only [search_dirs, hg, ho]
        exact c1 u ho
    | error e =>
      by_cases hs : soft e
      · refine ⟨Event.getenv (cstr "TERMINFO_DIRS") :: evs3 ++ evs4, ?_, ?_⟩
        · simp [search_dirs, hg, ho, hs, attempts, attempts_append, ha3, ha4]
        · simp only [search_dirs, hg, ho, if_pos hs]
          exact c3 e ho hs
      · refine ⟨Event.getenv (cstr "TERMINFO_DIRS") :: evs3, ?_, ?_⟩
        · simp [search_dirs, hg, ho, hs, attempts, ha3]
        · simp only [search_dirs, hg, ho, if_neg hs]
          exact c2 e ho hs

theorem search_dirs_early (W : World) (term : CStr) :
    (search_dirs W term).terminfo = [] ∧ (search_dirs W term).home = [] := by
  cases hg : W.getenv (cstr "TERMINFO_DIRS") with
  | none => simp [search_dirs, hg]
  | some l =>
    cases ho : dirs_outcome W l term with
    | ok u => simp [search_dirs, hg, ho]
    | error e => by_cases hs : soft e <;> simp [search_dirs, hg, ho, hs]

/-- The `HOME` step and what follows make the attempts of `search_home` and yield
its outcome. -/
theorem unibi_from_term_home_search (W : World) (term : CStr) :
    ∃ evs : List Event,
      attempts evs = (search_home W term).home ++ (search_home W term).dirs
        ++ (search_home W term).fallback ∧
      ∀ s : State, (unibi_from_term_home W s term).2.trace = s.trace ++ evs ∧
        yields (unibi_from_term_home W s term) (search_home W term).out := by
  obtain ⟨evs3, ha3, h3⟩ := unibi_from_term_dirs_search W term
  obtain ⟨-, hh⟩ := search_dirs_early W term
  cases hg : W.getenv (cstr "HOME") with
  | none =>
    refine ⟨Event.getenv (cstr "HOME") :: evs3, ?_, ?_⟩
    · simp [search_home, hg, attempts, ha3, hh]
    · intro s
      simp only [unibi_from_term_home, hg, search_home]
      exact prefix_event (Event.getenv (cstr "HOME"))
        (fun s => unibi_from_term_dirs W s term) evs3 _ h3 s
  | some d =>
    obtain ⟨evs2, ha2, _, h2⟩ := from_dir_frame W d (some (cstr ".terminfo")) term
    obtain ⟨c1, c2, c3⟩ := seq_search_soft
      (fun s => from_dir W (s.emit (Event.getenv (cstr "HOME"))) d none
        (some (cstr ".terminfo")) term)
      (fun s => unibi_from_term_dirs W s term)
      (fun s => unibi_from_term_home W s term) _ evs3 _ _
      (prefix_event (Event.getenv (cstr "HOME"))
        (fun s => from_dir W s d none (some (cstr ".terminfo")) term) _ _ h2)
      h3 (by intro s; simp only [unibi_from_term_home, hg])
    cases ho : dir_outcome W d (some (cstr ".terminfo")) term with
    | ok u =>
      refine ⟨Event.getenv (cstr "HOME")
        :: Event.from_dir d (some (cstr ".terminfo")) term :: evs2, ?_, ?_⟩
      · simp [search_home, hg, ho, attempts, ha2]
      · simp only [search_home, hg, ho]
        exact c1 u ho
    | error e =>
      by_cases hs : soft e
      · refine ⟨Event.getenv (cstr "HOME")
          :: Event.from_dir d (some (cstr ".terminfo")) term :: evs2 ++ evs3, ?_, ?_⟩
        · simp [search_home, hg, ho, hs, attempts, attempts_append, ha2, ha3]
        · simp only [search_home, hg, ho, if_pos hs]
          exact c3 e ho hs
      · refine ⟨Event.getenv (cstr "HOME")
          :: Event.from_dir d (some (cstr ".terminfo")) term :: evs2, ?_, ?_⟩
        · simp [search_home, hg, ho, hs, attempts, ha2]
        · simp only [search_home, hg, ho, if_neg hs]
          exact c2 e ho hs

theorem search_home_early (W : World) (term : CStr) : (search_home W term).terminfo = [] := by
  have h := (search_dirs_early W term).1
  cases hg : W.getenv (cstr "HOME") with
  | none => simp [search_home, hg, h]
  | some d =>
    cases ho : dir_outcome W d (some (cstr ".terminfo")) term with
    | ok u => simp [search_home, hg, ho]
    | error e => by_cases hs : soft e <;> simp [search_home, hg, ho, hs, h]

/-- For a valid name `unibi_from_term` makes the attempts of `search`, step by
step, and yields its outcome, from every state. -/
theorem unibi_from_term_search (W : World) (term : CStr)
    (hv : ¬ (term.headD 0 = 0 ∨ term.headD 0 = 46 ∨ (strchr term 47).isSome = true)) :
    ∃ evs : List Event,
      attempts evs = (search W term).terminfo ++ (search W term).home ++ (search W term).dirs
        ++ (search W term).fallback ∧
      ∀ s : State, (unibi_from_term W s term).2.trace = s.trace ++ evs ∧
        yields (unibi_from_term W s term) (search W term).out := by
  obtain ⟨evs2, ha2, h2⟩ := unibi_from_term_home_search W term
  have ht := search_home_early W term
  cases hg : W.getenv (cstr "TERMINFO") with
  | none =>
    refine ⟨Event.getenv (cstr "TERMINFO") :: evs2, ?_, ?_⟩
    · simp [search, hg, attempts, ha2, ht]
    · intro s
      simp only [unibi_from_term, if_neg hv, hg, search]
      exact prefix_event (Event.getenv (cstr "TERMINFO"))
        (fun s => unibi_from_term_home W s term) evs2 _ h2 s
  | some d =>
    obtain ⟨evs1, ha1, _, h1⟩ := from_dir_frame W d none term
    have h1p := prefix_event (Event.getenv (cstr "TERMINFO"))
      (fun s => from_dir W s d none none term) _ _ h1
    cases ho : dir_outcome W d none term with
    | ok u =>
      refine ⟨Event.getenv (cstr "TERMINFO") :: Event.from_dir d none term :: evs1, ?_, ?_⟩
      · simp [search, hg, ho, attempts, ha1]
      · intro s
        obtain ⟨t1, y1⟩ := h1p s
        rw [ho] at y1
        have hy : (from_dir W (s.emit (Event.getenv (cstr "TERMINFO"))) d none none term).1
            = some u := y1
        simp only [unibi_from_term, if_neg hv, hg, search, ho]
        rw [if_pos (by rw [hy]; rfl)]
        exact ⟨t1, hy⟩
    | error e =>
      refine ⟨(Event.getenv (cstr "TERMINFO") :: Event.from_dir d none term :: evs1) ++ evs2,
        ?_, ?_⟩
      · simp [search, hg, ho, attempts, attempts_append, ha1, ha2]
      · intro s
        obtain ⟨t1, y1⟩ := h1p s
        rw [ho] at y1
        obtain ⟨hy1, hy2⟩ := y1
        simp only [unibi_from_term, if_neg hv, hg, search, ho]
        rw [if_neg (by rw [hy1]; simp)]
        obtain ⟨t2, y2⟩ := h2 (from_dir W (s.emit (Event.getenv (cstr "TERMINFO"))) d none none term).2
        refine ⟨?_, y2⟩
        rw [t2, t1, List.append_assoc]

theorem env_attempt_cases (W : World) (name : CStr) (mid : Option CStr) :
    env_attempt W name mid = [] ∨
      ∃ d, W.getenv name = some d ∧ env_attempt W name mid = [(d, mid)] := by
  unfold env_attempt
  cases W.getenv name with
  | none => exact Or.inl rfl
  | some d => exact Or.inr ⟨d, rfl, rfl⟩

theorem env_walk_cases (W : World) (name term : CStr) :
    env_walk W name term = [] ∨
      ∃ l, W.getenv name = some l ∧
        env_walk W name term = attempts (from_dirs W ⟨0, []⟩ l term).2.trace := by
  unfold env_walk
  cases W.getenv name with
  | none => exact Or.inl rfl
  | some l => exact Or.inr ⟨l, rfl, rfl⟩

theorem search_dirs_facts (W : World) (term : CStr) :
    (search_dirs W term).dirs = env_walk W (cstr "TERMINFO_DIRS") term ∧
    ((search_dirs W term).fallback = [] ∨
      (search_dirs W term).fallback = dirs_attempts W W.unibi_terminfo_dirs term) ∧
    (∀ l u, W.getenv (cstr "TERMINFO_DIRS") = some l → dirs_outcome W l term = Except.ok u →
      (search_dirs W term).out = Except.ok u ∧ (search_dirs W term).fallback = []) ∧
    (∀ l e, W.getenv (cstr "TERMINFO_DIRS") = some l → dirs_outcome W l term = Except.error e →
      ¬ soft e →
      (search_dirs W term).out = Except.error e ∧ (search_dirs W term).fallback = []) ∧
    ((∀ l, W.getenv (cstr "TERMINFO_DIRS") = some l →
        ∃ e, dirs_outcome W l term = Except.error e ∧ soft e) →
      (search_dirs W term).fallback = dirs_attempts W W.unibi_terminfo_dirs term ∧
      (search_dirs W term).out = dirs_outcome W W.unibi_terminfo_dirs term) := by
  cases hg : W.getenv (cstr "TERMINFO_DIRS") with
  | none => simp [search_dirs, env_walk, hg]
  | some l =>
    cases ho : dirs_outcome W l term with
    | ok u =>
      refine ⟨by simp [search_dirs, env_walk, hg, ho], by simp [search_dirs, hg, ho], ?_, ?_, ?_⟩
      · intro l2 u2 h1 h2
        cases h1
        rw [ho] at h2
        cases h2
        simp [search_dirs, hg, ho]
      · intro l2 e h1 h2
        cases h1
        rw [ho] at h2
        cases h2
      · intro h
        obtain ⟨e, he, _⟩ := h l rfl
        rw [ho] at he
        cases he
    | error e =>
      by_cases hs : soft e
      · refine ⟨by simp [search_dirs, env_walk, hg, ho, hs],
          by simp [search_dirs, hg, ho, hs], ?_, ?_, ?_⟩
        · intro l2 u2 h1 h2
          cases h1
          rw [ho] at h2
          cases h2
        · intro l2 e2 h1 h2 h3
          cases h1
          rw [ho] at h2
          cases h2
          exact absurd hs h3
        · intro _
          simp [search_dirs, hg, ho, hs]
      · refine ⟨by simp [search_dirs, env_walk, hg, ho, hs],
          by simp [search_dirs, hg, ho, hs], ?_, ?_, ?_⟩
        · intro l2 u2 h1 h2
          cases h1
          rw [ho] at h2
          cases h2
        · intro l2 e2 h1 h2 h3
          cases h1
          rw [ho] at h2
          cases h2
          simp [search_dirs, hg, ho, hs]
        · intro h
          obtain ⟨e2, he, hs2⟩ := h l rfl
          rw [ho] at he
          cases he
          exact absurd hs2 hs

theorem search_home_facts (W : World) (term : CStr) :
    (search_home W term).home = env_attempt W (cstr "HOME") (some (cstr ".terminfo")) ∧
    ((search_home W term).dirs = [] ∨ (search_home W term).dirs = (search_dirs W term).dirs) ∧
    ((search_home W term).fallback = [] ∨
      (search_home W term).fallback = (search_dirs W term).fallback) ∧
    (∀ d u, W.getenv (cstr "HOME") = some d →
      dir_outcome W d (some (cstr ".terminfo")) term = Except.ok u →
      (search_home W term).out = Except.ok u ∧ (search_home W term).dirs = [] ∧
      (search_home W term).fallback = []) ∧
    (∀ d e, W.getenv (cstr "HOME") = some d →
      dir_outcome W d (some (cstr ".terminfo")) term = Except.error e → ¬ soft e →
      (search_home W term).out = Except.error e ∧ (search_home W term).dirs = [] ∧
      (search_home W term).fallback = []) ∧
    ((∀ d, W.getenv (cstr "HOME") = some d →
        ∃ e, dir_outcome W d (some (cstr ".terminfo")) term = Except.error e ∧ soft e) →
      (search_home W term).dirs = (search_dirs W term).dirs ∧
      (search_home W term).fallback = (search_dirs W term).fallback ∧
      (search_home W term).out = (search_dirs W term).out) := by
  have hh := (search_dirs_early W term).2
  cases hg : W.getenv (cstr "HOME") with
  | none => simp [search_home, env_attempt, hg, hh]
  | some d =>
    cases ho : dir_outcome W d (some (cstr ".terminfo")) term with
    | ok u =>
      refine ⟨by simp [search_home, env_attempt, hg, ho], by simp [search_home, hg, ho],
        by simp [search_home, hg, ho], ?_, ?_, ?_⟩
      · intro d2 u2 h1 h2
        cases h1
        rw [ho] at h2
        cases h2
        simp [search_home, hg, ho]
      · intro d2 e h1 h2
        cases h1
        rw [ho] at h2
        cases h2
      · intro h
        obtain ⟨e, he, _⟩ := h d rfl
        rw [ho] at he
        cases he
    | error e =>
      by_cases hs : soft e
      · refine ⟨by simp [search_home, env_attempt, hg, ho, hs],
          by simp [search_home, hg, ho, hs], by simp [search_home, hg, ho, hs], ?_, ?_, ?_⟩
        · intro d2 u2 h1 h2
          cases h1
          rw [ho] at h2
          cases h2
        · intro d2 e2 h1 h2 h3
          cases h1
          rw [ho] at h2
          cases h2
          exact absurd hs h3
        · intro _
          simp [search_home, hg, ho, hs]
      · refine ⟨by simp [search_home, env_attempt, hg, ho, hs],
          by simp [search_home, hg, ho, hs], by simp [search_home, hg, ho, hs], ?_, ?_, ?_⟩
        · intro d2 u2 h1 h2
          cases h1
          rw [ho] at h2
          cases h2
        · intro d2 e2 h1 h2 h3
          cases h1
          rw [ho] at h2
          cases h2
          simp [search_home, hg, ho, hs]
        · intro h
          obtain ⟨e2, he, hs2⟩ := h d rfl
          rw [ho] at he
          cases he
          exact absurd hs2 hs

theorem search_facts (W : World) (term : CStr) :
    (search W term).terminfo = env_attempt W (cstr "TERMINFO") none ∧
    ((search W term).home = [] ∨ (search W term).home = (search_home W term).home) ∧
    ((search W term).dirs = [] ∨ (search W term).dirs = (search_home W term).dirs) ∧
    ((search W term).fallback = [] ∨
      (search W term).fallback = (search_home W term).fallback) ∧
    ((∀ d, W.getenv (cstr "TERMINFO") = some d →
        ∃ e, dir_outcome W d none term = Except.error e) →
      (search W term).home = (search_home W term).home ∧
      (search W term).dirs = (search_home W term).dirs ∧
      (search W term).fallback = (search_home W term).fallback ∧
      (search W term).out = (search_home W term).out) := by
  have ht := search_home_early W term
  cases hg : W.getenv (cstr "TERMINFO") with
  | none => simp [search, env_attempt, hg, ht]
  | some d =>
    cases ho : dir_outcome W d none term with
    | ok u =>
      refine ⟨by simp [search, env_attempt, hg, ho], by simp [search, hg, ho],
        by simp [search, hg, ho], by simp [search, hg, ho], ?_⟩
      intro h
      obtain ⟨e, he⟩ := h d rfl
      rw [ho] at he
      cases he
    | error e => simp [search, env_attempt, hg, ho]

/-- C2: for a valid name the Path Builder attempts of `unibi_from_term` are, in
this order, the attempt `t1` on the value of `TERMINFO` (no middle segment),
the attempt `t2` on the value of `HOME` with middle segment `.terminfo`, the
attempts `t3` of a walk of `from_dirs` over the value of `TERMINFO_DIRS`, and
the attempts `t4` of a walk over the compiled-in list.  An attempt that yields
a record is the last attempt and its record is returned; a returned record is
that of the last attempt.  In particular, when the directory named by
`TERMINFO` yields a record, that record is returned after this single attempt,
whatever `TERMINFO_DIRS` holds.

Each step is made in its turn: `t1` is the attempt on `TERMINFO` whenever the
variable is set.  When that step yields no record (unset, or a failure), `t2`
is the attempt on `HOME` whenever `HOME` is set; a record found there is
returned and nothing of `TERMINFO_DIRS` or the compiled-in list is attempted,
and a hard error there ends the search with that error.  When moreover the
`HOME` step is skipped or fails softly, `t3` is the whole walk over
`TERMINFO_DIRS` whenever that variable is set; a record found there is
returned without walking the compiled-in list, and a hard error there ends the
search with that error.  When moreover that walk is skipped or fails softly,
`t4` is the whole walk over the compiled-in list and the result is the result
of that walk. -/
theorem unibi_from_term_precedence (W : World) (s : State) (term : CStr)
    (hne : term ≠ []) (h0 : 0 ∉ term) (hdot : term.head? ≠ some 46) (hsl : 47 ∉ term)
    (hl : ∀ l, W.getenv (cstr "TERMINFO_DIRS") = some l → 0 ∉ l)
    (hf : 0 ∉ W.unibi_terminfo_dirs) :
    ∃ evs t1 t2 t3 t4, (unibi_from_term W s term).2.trace = s.trace ++ evs ∧
      attempts evs = t1 ++ t2 ++ t3 ++ t4 ∧
      (t1 = [] ∨ ∃ d, W.getenv (cstr "TERMINFO") = some d ∧ t1 = [(d, none)]) ∧
      (t2 = [] ∨ ∃ d, W.getenv (cstr "HOME") = some d ∧ t2 = [(d, some (cstr ".terminfo"))]) ∧
      (t3 = [] ∨ ∃ l, W.getenv (cstr "TERMINFO_DIRS") = some l ∧
        t3 = attempts (from_dirs W ⟨0, []⟩ l term).2.trace) ∧
      (t4 = [] ∨ t4 = attempts (from_dirs W ⟨0, []⟩ W.unibi_terminfo_dirs term).2.trace) ∧
      (∀ pre x post u, attempts evs = pre ++ x :: post →
        dir_outcome W x.1 x.2 term = Except.ok u →
        post = [] ∧ (unibi_from_term W s term).1 = some u) ∧
      (∀ u, (unibi_from_term W s term).1 = some u →
        ∃ pre x, attempts evs = pre ++ [x] ∧ dir_outcome W x.1 x.2 term = Except.ok u) ∧
      (∀ d u, W.getenv (cstr "TERMINFO") = some d → dir_outcome W d none term = Except.ok u →
        (unibi_from_term W s term).1 = some u ∧ attempts evs = [(d, none)]) ∧
      t1 = env_attempt W (cstr "TERMINFO") none ∧
      ((∀ d, W.getenv (cstr "TERMINFO") = some d →
          ∃ e, dir_outcome W d none term = Except.error e) →
        t2 = env_attempt W (cstr "HOME") (some (cstr ".terminfo")) ∧
        (∀ d u, W.getenv (cstr "HOME") = some d →
          dir_outcome W d (some (cstr ".terminfo")) term = Except.ok u →
          (unibi_from_term W s term).1 = some u ∧ t3 = [] ∧ t4 = []) ∧
        (∀ d e, W.getenv (cstr "HOME") = some d →
          dir_outcome W d (some (cstr ".terminfo")) term = Except.error e → ¬ soft e →
          (unibi_from_term W s term).1 = none ∧ (unibi_from_term W s term).2.errno = e ∧
          t3 = [] ∧ t4 = []) ∧
        ((∀ d, W.getenv (cstr "HOME") = some d →
            ∃ e, dir_outcome W d (some (cstr ".terminfo")) term = Except.error e ∧ soft e) →
          t3 = env_walk W (cstr "TERMINFO_DIRS") term ∧
          (∀ l u, W.getenv (cstr "TERMINFO_DIRS") = some l →
            dirs_outcome W l term = Except.ok u →
            (unibi_from_term W s term).1 = some u ∧ t4 = []) ∧
          (∀ l e, W.getenv (cstr "TERMINFO_DIRS") = some l →
            dirs_outcome W l term = Except.error e → ¬ soft e →
            (unibi_from_term W s term).1 = none ∧ (unibi_from_term W s term).2.errno = e ∧
            t4 = []) ∧
          ((∀ l, W.getenv (cstr "TERMINFO_DIRS") = some l →
              ∃ e, dirs_outcome W l term = Except.error e ∧ soft e) →
            t4 = dirs_attempts W W.unibi_terminfo_dirs term ∧
            yields (unibi_from_term W s term)
              (dirs_outcome W W.unibi_terminfo_dirs term)))) := by
  have hv := valid_name_passes term hne h0 hdot hsl
  obtain ⟨evs0, _, _, _, _, g1, _, _, _, _, _, ⟨q1, q2, q3⟩, g8⟩ :=
    unibi_from_term_stage W term hv hl hf s
  obtain ⟨evs, ha, hs⟩ := unibi_from_term_search W term hv
  obtain ⟨htr, hy⟩ := hs s
  have hev : evs0 = evs := List.append_cancel_left (g1.symm.trans htr)
  subst hev
  obtain ⟨f1, f2, f3, f4, f5⟩ := search_facts W term
  obtain ⟨k1, k2, k3, k4, k5, k6⟩ := search_home_facts W term
  obtain ⟨d1, d2, d3, d4, d5⟩ := search_dirs_facts W term
  refine ⟨evs0, (search W term).terminfo, (search W term).home, (search W term).dirs,
    (search W term).fallback, g1, ha, ?_, ?_, ?_, ?_, ?_, ?_, g8, f1, ?_⟩
  · rw [f1]
    exact env_attempt_cases W _ _
  · rcases f2 with h | h
    · exact Or.inl h
    · rw [h, k1]
      exact env_attempt_cases W _ _
  · rcases f3 with h | h
    · exact Or.inl h
    · rcases k2 with h2 | h2
      · exact Or.inl (h.trans h2)
      · rw [h, h2, d1]
        exact env_walk_cases W _ _
  · rcases f4 with h | h
    · exact Or.inl h
    · rcases k3 with h2 | h2
      · exact Or.inl (h.trans h2)
      · rcases d2 with h3 | h3
        · exact Or.inl (h.trans (h2.trans h3))
        · exact Or.inr (h.trans (h2.trans h3))
  · intro pre x post u hat hu
    have hpost : post = [] := by
      by_contra hp
      obtain ⟨e, he⟩ := q1 x (by rw [hat]; exact mem_dropLast_of_append pre x post hp)
      rw [hu] at he
      cases he
    subst hpost
    exact ⟨rfl, q2 x u (by rw [hat]; simp) hu⟩
  · intro u hu
    obtain ⟨x, hx, hxu⟩ := q3 u hu
    obtain ⟨pre, hpre⟩ := List.getLast?_eq_some_iff.mp hx
    exact ⟨pre, x, hpre, hxu⟩
  · intro hT
    obtain ⟨e1, e2, e3, e4⟩ := f5 hT
    rw [e4] at hy
    refine ⟨e1.trans k1, ?_, ?_, ?_⟩
    · intro d u hd hu
      obtain ⟨o1, o2, o3⟩ := k4 d u hd hu
      exact ⟨yields_ok hy o1, e2.trans o2, e3.trans o3⟩
    · intro d e hd he hns
      obtain ⟨o1, o2, o3⟩ := k5 d e hd he hns
      obtain ⟨y1, y2⟩ := yields_error hy o1
      exact ⟨y1, y2, e2.trans o2, e3.trans o3⟩
    · intro hH
      obtain ⟨m1, m2, m3⟩ := k6 hH
      rw [m3] at hy
      refine ⟨e2.trans (m1.trans d1), ?_, ?_, ?_⟩
      · intro l u hl2 hu
        obtain ⟨o1, o2⟩ := d3 l u hl2 hu
        exact ⟨yields_ok hy o1, e3.trans (m2.trans o2)⟩
      · intro l e hl2 he hns
        obtain ⟨o1, o2⟩ := d4 l e hl2 he hns
        obtain ⟨y1, y2⟩ := yields_error hy o1
        exact ⟨y1, y2, e3.trans (m2.trans o2)⟩
      · intro hD
        obtain ⟨o1, o2⟩ := d5 hD
        rw [o2] at hy
        exact ⟨e3.trans (m2.trans o1), hy⟩

/-- Witness of C2: `TERMINFO=/custom` and `TERMINFO_DIRS=/other` both hold a
record for `xterm`; the record of `/custom` is returned.  And when `TERMINFO=/t`
holds no record while `HOME=/h` and `TERMINFO_DIRS=/other` both do, the `HOME`
attempt is made after the `TERMINFO` attempt and its record is returned. -/
theorem unibi_from_term_precedence_witness :
    (unibi_from_term
      (example_world 64 [(cstr "/custom/x/xterm", 1), (cstr "/other/x/xterm", 2)] []
        [(cstr "TERMINFO", cstr "/custom"), (cstr "TERMINFO_DIRS", cstr "/other")]
        (cstr "/d") (cstr "/l"))
      { errno := 0, trace := [] } (cstr "xterm")).1 = some ⟨1⟩ ∧
    dir_outcome
      (example_world 64 [(cstr "/custom/x/xterm", 1), (cstr "/other/x/xterm", 2)] []
        [(cstr "TERMINFO", cstr "/custom"), (cstr "TERMINFO_DIRS", cstr "/other")]
        (cstr "/d") (cstr "/l"))
      (cstr "/other") none (cstr "xterm") = Except.ok ⟨2⟩ ∧
    (unibi_from_term
      (example_world 64 [(cstr "/h/.terminfo/x/xterm", 3), (cstr "/other/x/xterm", 2)] []
        [(cstr "TERMINFO", cstr "/t"), (cstr "HOME", cstr "/h"),
          (cstr "TERMINFO_DIRS", cstr "/other")]
        (cstr "/d") (cstr "/l"))
      { errno := 0, trace := [] } (cstr "xterm")).1 = some ⟨3⟩ ∧
    attempts (unibi_from_term
      (example_world 64 [(cstr "/h/.terminfo/x/xterm", 3), (cstr "/other/x/xterm", 2)] []
        [(cstr "TERMINFO", cstr "/t"), (cstr "HOME", cstr "/h"),
          (cstr "TERMINFO_DIRS", cstr "/other")]
        (cstr "/d") (cstr "/l"))
      { errno := 0, trace := [] } (cstr "xterm")).2.trace
      = [(cstr "/t", none), (cstr "/h", some (cstr ".terminfo"))] := by
  obtain ⟨_, _, _, _, _, _, _, _, _, _, _, _, _, hscen, _, _⟩ := unibi_from_term_precedence
    (example_world 64 [(cstr "/custom/x/xterm", 1), (cstr "/other/x/xterm", 2)] []
      [(cstr "TERMINFO", cstr "/custom"), (cstr "TERMINFO_DIRS", cstr "/other")]
      (cstr "/d") (cstr "/l"))
    { errno := 0, trace := [] } (cstr "xterm") (by decide) (by decide) (by decide) (by decide)
    (fun l h => by
      have h2 : some (cstr "/other") = some l := h
      cases h2
      decide)
    (by decide)
  obtain ⟨evs, t1, t2, t3, t4, htr, hatt, _, _, _, _, _, _, _, h1, hrest⟩ :=
    unibi_from_term_precedence
    (example_world 64 [(cstr "/h/.terminfo/x/xterm", 3), (cstr "/other/x/xterm", 2)] []
      [(cstr "TERMINFO", cstr "/t"), (cstr "HOME", cstr "/h"),
        (cstr "TERMINFO_DIRS", cstr "/other")]
      (cstr "/d") (cstr "/l"))
    { errno := 0, trace := [] } (cstr "xterm") (by decide) (by decide) (by decide) (by decide)
    (fun l h => by
      have h2 : some (cstr "/other") = some l := h
      cases h2
      decide)
    (by decide)
  obtain ⟨h2, hwin, _, _⟩ := hrest (fun d h => by
    have h3 : some (cstr "/t") = some d := h
    cases h3
    exact ⟨ENOENT, rfl⟩)
  obtain ⟨hres, h3, h4⟩ := hwin (cstr "/h") ⟨3⟩ rfl rfl
  refine ⟨(hscen (cstr "/custom") ⟨1⟩ rfl rfl).1, rfl, hres, ?_⟩
  rw [htr, List.nil_append, hatt, h1, h2, h3, h4]
  rfl

end Unibilium
